import Mathlib

/-!
# Block layer cache (block/block-cache.c)

A shallow embedding of the write-back table cache of `block/block-cache.c`
and proofs of properties of its eviction, flush and dependency protocol.

Conventions of the embedding

* A `BlockCache *` is an index into `World.caches`; a `BlockDriverState *`
  is a natural number naming a backing file.
* A `void *table` is the address of a buffer; the bytes stored in the buffer
  are kept next to the address in the slot (`BlockCachedTable.data`), since a
  slot keeps the buffer it got at creation for its whole life.
* The C type `int` is `Int`, reduced by `wrap_int` after `++` and `--`;
  `int64_t`/`uint64_t` offsets are `Nat` (the 64 bit pattern).
* Functions that can reach `abort()`, a failing `assert`, or a call nesting
  deeper than the given fuel return `Except Fault`.
* Trace points and `BLKDBG_EVENT` are observational and are left out.
-/

namespace QBC

/-! ## Machine integers and errno values -/

/-- Largest value of the C type `int`. -/
def INT_MAX : Int := 2147483647

/-- Smallest value of the C type `int`. -/
def INT_MIN : Int := -2147483648

/-- Errno value `ENOENT`. -/
def ENOENT : Int := 2

/-- Errno value `EIO`. -/
def EIO : Int := 5

/-- Errno value `EINVAL`. -/
def EINVAL : Int := 22

/-- Errno value `ENOSPC`. -/
def ENOSPC : Int := 28

/-- Result of 32 bit two's complement `int` arithmetic: the value is reduced
modulo `2^32` into the range `INT_MIN .. INT_MAX`. -/
def wrap_int (x : Int) : Int := (x + 2147483648) % 4294967296 - 2147483648

/-! ## Data model -/

/-- The enum `BlockTableType` of block-cache.h. -/
inductive BlockTableType where
  | BLOCK_TABLE_REF
  | BLOCK_TABLE_L2
  | BLOCK_TABLE_BITMAP
  deriving DecidableEq, Repr

/-- The struct `BlockCachedTable`: one slot of a cache. `table` is the address
of the slot's buffer and `data` the bytes currently stored at that address. -/
structure BlockCachedTable where
  table : Nat
  data : List Nat
  offset : Nat
  dirty : Bool
  cache_hits : Int
  ref : Int
  deriving DecidableEq, Repr

/-- The struct `BlockCache`. The C field `size` is the length of `entries`;
`depends` is a pointer to another cache (an index into `World.caches`). -/
structure BlockCache where
  entries : List BlockCachedTable
  depends : Option Nat
  table_size : Nat
  table_type : BlockTableType
  depends_on_flush : Bool
  deriving DecidableEq, Repr

/-- The C field `size` of a cache. -/
def BlockCache.size (c : BlockCache) : Nat := c.entries.length

/-- One call into the backing store, with the value it returned. -/
inductive BdrvCall where
  | pwrite (bs offset : Nat) (buf : List Nat) (ret : Int)
  | pread (bs offset count : Nat) (ret : Int)
  | flush (bs : Nat) (ret : Int)
  deriving DecidableEq, Repr

/-- The whole memory the cache code works on: the heap of caches, the backing
files, the ordered log of calls into the backing store, the return values the
backing store will give to the next calls, and the next free buffer address.

`disk` holds the extents `(bs, offset, bytes)` written so far, newest first. -/
structure World where
  caches : List BlockCache
  disk : List (Nat × Nat × List Nat)
  log : List BdrvCall
  script : List Int
  brk : Nat
  deriving DecidableEq, Repr

/-- Why a call did not return to its caller. -/
inductive Fault where
  | aborted
  | bad_access
  | out_of_fuel
  deriving DecidableEq, Repr

/-- A call that returns a value and a new world, or does not return. -/
abbrev Res (α : Type) := Except Fault (α × World)

/-- Replace cache `c` of the heap. -/
def World.set_cache (w : World) (c : Nat) (cache : BlockCache) : World :=
  { w with caches := w.caches.set c cache }

/-- Replace slot `i` of a cache. -/
def BlockCache.set_entry (cache : BlockCache) (i : Nat) (e : BlockCachedTable) : BlockCache :=
  { cache with entries := cache.entries.set i e }

/-! ## The backing store -/

/-- Modelled from the spec: the byte at address `a` of backing file `bs`, the
collaborator's storage "addressed purely by offset": the newest extent that
covers the address decides, and bytes never written read as 0. -/
def disk_byte : List (Nat × Nat × List Nat) → Nat → Nat → Nat
  | [], _, _ => 0
  | (b, off, bytes) :: rest, bs, a =>
    if b = bs ∧ off ≤ a ∧ a < off + bytes.length then bytes.getD (a - off) 0
    else disk_byte rest bs a

/-- Modelled from the spec: `count` bytes of backing file `bs` from `offset` on. -/
def disk_read (disk : List (Nat × Nat × List Nat)) (bs offset count : Nat) : List Nat :=
  (List.range count).map (fun k => disk_byte disk bs (offset + k))

/-- Modelled from the spec: the collaborator's `sync() -> Result` (`bdrv_flush` of
the block layer, which is not part of this file). The return value is the next
one of the script (0 when the script is used up); negative values are errors. -/
def bdrv_flush (bs : Nat) (w : World) : Int × World :=
  let ret := w.script.headD 0
  (ret, { w with log := w.log ++ [BdrvCall.flush bs ret], script := w.script.tail })

/-- Modelled from the spec: the collaborator's `write(offset, buffer, length)`
(`bdrv_pwrite`). A successful call stores the first `count` bytes of the buffer
at `offset`; a failed call stores nothing. -/
def bdrv_pwrite (bs offset : Nat) (buf : List Nat) (count : Nat) (w : World) : Int × World :=
  let ret := w.script.headD 0
  (ret, { w with
    disk := if ret < 0 then w.disk else (bs, offset, buf.take count) :: w.disk
    log := w.log ++ [BdrvCall.pwrite bs offset (buf.take count) ret]
    script := w.script.tail })

/-- Modelled from the spec: the collaborator's `read(offset, buffer, length)`
(`bdrv_pread`). Returns the new contents of the buffer: the bytes of the file
after a successful call, the old bytes after a failed one. -/
def bdrv_pread (bs offset : Nat) (buf : List Nat) (count : Nat) (w : World) :
    Int × List Nat × World :=
  let ret := w.script.headD 0
  (ret, (if ret < 0 then buf else disk_read w.disk bs offset count),
    { w with log := w.log ++ [BdrvCall.pread bs offset count ret], script := w.script.tail })

/-! ## block_cache_create -/

/-- Modelled from the spec: the buffers `aligned_alloc` (`qemu_blockalign`) hands
out for `num_tables` slots: pairwise different non-null addresses above `brk`,
each holding `table_size` bytes. -/
def alloc_entries (brk num_tables table_size : Nat) : List BlockCachedTable :=
  (List.range num_tables).map (fun i =>
    { table := brk + 1 + i, data := List.replicate table_size 0, offset := 0,
      dirty := false, cache_hits := 0, ref := 0 })

/-- The function `block_cache_create`: returns the new cache pointer. -/
def block_cache_create (num_tables table_size : Nat) (type : BlockTableType) (w : World) :
    Nat × World :=
  (w.caches.length,
    { w with
      caches := w.caches ++ [{ entries := alloc_entries w.brk num_tables table_size,
                               depends := none, table_size := table_size,
                               table_type := type, depends_on_flush := false }]
      brk := w.brk + num_tables })

/-! ## Flush and the dependency protocol -/

/-- The function `block_cache_flush_dependency`, with the recursive callee
`block_cache_flush` passed as `flush`. -/
def block_cache_flush_dependency (flush : Nat → Nat → World → Res Int) (bs c : Nat)
    (w : World) : Res Int :=
  match w.caches[c]? with
  | none => .error .bad_access
  | some cache =>
    match cache.depends with
    | none => .error .bad_access
    | some d =>
      match flush bs d w with
      | .error f => .error f
      | .ok (ret, w1) =>
        if ret < 0 then .ok (ret, w1)
        else
          match w1.caches[c]? with
          | none => .error .bad_access
          | some cache1 =>
            .ok (0, w1.set_cache c { cache1 with depends := none, depends_on_flush := false })

/-- The end of `block_cache_entry_flush`, after the ordering obligation of the
cache is resolved: the table is written and, on success, `dirty` is cleared. -/
def entry_flush_write (bs c i : Nat) (w1 : World) : Res Int :=
  match w1.caches[c]? with
  | none => .error .bad_access
  | some cache1 =>
    match cache1.entries[i]? with
    | none => .error .bad_access
    | some e1 =>
      match bdrv_pwrite bs e1.offset e1.data cache1.table_size w1 with
      | (ret2, w2) =>
        if ret2 < 0 then .ok (ret2, w2)
        else .ok (0, w2.set_cache c (cache1.set_entry i { e1 with dirty := false }))

/-- The function `block_cache_entry_flush`, with the recursive callee
`block_cache_flush` passed as `flush`. -/
def block_cache_entry_flush (flush : Nat → Nat → World → Res Int) (bs c i : Nat)
    (w : World) : Res Int :=
  match w.caches[c]? with
  | none => .error .bad_access
  | some cache =>
    match cache.entries[i]? with
    | none => .error .bad_access
    | some e =>
      if e.dirty = false ∨ e.offset = 0 then .ok (0, w)
      else
        let r : Res Int :=
          if cache.depends.isSome then block_cache_flush_dependency flush bs c w
          else if cache.depends_on_flush then
            match bdrv_flush bs w with
            | (ret, w1) =>
              if 0 ≤ ret then .ok (ret, w1.set_cache c { cache with depends_on_flush := false })
              else .ok (ret, w1)
          else .ok (0, w)
        match r with
        | .error f => .error f
        | .ok (ret, w1) =>
          if ret < 0 then .ok (ret, w1)
          else entry_flush_write bs c i w1

/-- The `for` loop of `block_cache_flush` over the slot indices, carrying
`result`. -/
def flush_loop (entry_flush : Nat → World → Res Int) : List Nat → Int → World → Res Int
  | [], result, w => .ok (result, w)
  | i :: rest, result, w =>
    match entry_flush i w with
    | .error f => .error f
    | .ok (ret, w1) =>
      flush_loop entry_flush rest (if ret < 0 ∧ result ≠ -ENOSPC then ret else result) w1

/-- The function `block_cache_flush`. The first argument bounds the nesting of
flushes through dependencies: a flush that would nest deeper does not return. -/
def block_cache_flush : Nat → Nat → Nat → World → Res Int
  | 0, _, _, _ => .error .out_of_fuel
  | fuel + 1, bs, c, w =>
    match w.caches[c]? with
    | none => .error .bad_access
    | some cache =>
      match flush_loop (fun i w1 => block_cache_entry_flush (block_cache_flush fuel) bs c i w1)
          (List.range cache.size) 0 w with
      | .error f => .error f
      | .ok (result, w1) =>
        if result = 0 then
          match bdrv_flush bs w1 with
          | (ret, w2) => if ret < 0 then .ok (ret, w2) else .ok (result, w2)
        else .ok (result, w1)

/-- The function `block_cache_set_dependency_two_bs`. -/
def block_cache_set_dependency_two_bs (fuel bs c depend_bs dependency : Nat) (w : World) :
    Res Int :=
  match w.caches[dependency]? with
  | none => .error .bad_access
  | some dcache =>
    let r1 : Res Int :=
      if dcache.depends.isSome then
        block_cache_flush_dependency (block_cache_flush fuel) depend_bs dependency w
      else .ok (0, w)
    match r1 with
    | .error f => .error f
    | .ok (ret1, w1) =>
      if ret1 < 0 then .ok (ret1, w1)
      else
        match w1.caches[c]? with
        | none => .error .bad_access
        | some cache =>
          let r2 : Res Int :=
            if cache.depends.isSome ∧ cache.depends ≠ some dependency then
              block_cache_flush_dependency (block_cache_flush fuel) bs c w1
            else .ok (0, w1)
          match r2 with
          | .error f => .error f
          | .ok (ret2, w2) =>
            if ret2 < 0 then .ok (ret2, w2)
            else
              match w2.caches[c]? with
              | none => .error .bad_access
              | some cache2 =>
                .ok (0, w2.set_cache c { cache2 with depends := some dependency })

/-- The function `block_cache_set_dependency`. -/
def block_cache_set_dependency (fuel bs c dependency : Nat) (w : World) : Res Int :=
  block_cache_set_dependency_two_bs fuel bs c bs dependency w

/-- The function `block_cache_depends_on_flush`. -/
def block_cache_depends_on_flush (c : Nat) (w : World) : Except Fault World :=
  match w.caches[c]? with
  | none => .error .bad_access
  | some cache => .ok (w.set_cache c { cache with depends_on_flush := true })

/-! ## Eviction -/

/-- The `for` loop of `block_cache_find_entry_to_replace` from slot `i` on,
carrying `min_count` and `min_index`; returns the final `min_index` and the
slots with their aged hit counters. -/
def find_entry_loop : List BlockCachedTable → Nat → Int → Int → Int × List BlockCachedTable
  | [], _, _, min_index => (min_index, [])
  | e :: rest, i, min_count, min_index =>
    if e.ref ≠ 0 then
      match find_entry_loop rest (i + 1) min_count min_index with
      | (m, rest1) => (m, e :: rest1)
    else
      match find_entry_loop rest (i + 1)
          (if e.cache_hits < min_count then e.cache_hits else min_count)
          (if e.cache_hits < min_count then (i : Int) else min_index) with
      | (m, rest1) => (m, { e with cache_hits := Int.tdiv e.cache_hits 2 } :: rest1)

/-- The function `block_cache_find_entry_to_replace`: the victim index and the
cache after the scan, or the `abort()` when `min_index` is still -1. -/
def block_cache_find_entry_to_replace (cache : BlockCache) : Except Fault (Int × BlockCache) :=
  match find_entry_loop cache.entries 0 INT_MAX (-1) with
  | (min_index, entries1) =>
    if min_index = -1 then .error .aborted
    else .ok (min_index, { cache with entries := entries1 })

/-! ## get, put, mark_dirty -/

/-- The lookup loop of `block_cache_do_get`: the first slot index, counted from
`i`, whose offset is `offset`. -/
def find_offset : List BlockCachedTable → Nat → Nat → Option Nat
  | [], _, _ => none
  | e :: rest, offset, i => if e.offset = offset then some i else find_offset rest offset (i + 1)

/-- The lookup loop of `block_cache_put` and `block_cache_entry_mark_dirty`: the
first slot index, counted from `i`, whose buffer address is `table`. -/
def find_table : List BlockCachedTable → Nat → Nat → Option Nat
  | [], _, _ => none
  | e :: rest, table, i => if e.table = table then some i else find_table rest table (i + 1)

/-- The code of `block_cache_do_get` from the label `found` on. -/
def do_get_found (c i : Nat) (w : World) : Res (Int × Option Nat) :=
  match w.caches[c]? with
  | none => .error .bad_access
  | some cache =>
    match cache.entries[i]? with
    | none => .error .bad_access
    | some e =>
      .ok ((0, some e.table),
        w.set_cache c (cache.set_entry i
          { e with cache_hits := wrap_int (e.cache_hits + 1), ref := wrap_int (e.ref + 1) }))

/-- The function `block_cache_do_get`: returns the `int` result and the value
stored through `table`, if any. -/
def block_cache_do_get (fuel bs c offset : Nat) (read_from_disk : Bool) (w : World) :
    Res (Int × Option Nat) :=
  match w.caches[c]? with
  | none => .error .bad_access
  | some cache =>
    match find_offset cache.entries offset 0 with
    | some i => do_get_found c i w
    | none =>
      match block_cache_find_entry_to_replace cache with
      | .error f => .error f
      | .ok (min_index, cache1) =>
        if min_index < 0 then .ok ((min_index, none), w.set_cache c cache1)
        else
          let i := min_index.toNat
          match block_cache_entry_flush (block_cache_flush fuel) bs c i (w.set_cache c cache1) with
          | .error f => .error f
          | .ok (ret, w2) =>
            if ret < 0 then .ok ((ret, none), w2)
            else
              match w2.caches[c]? with
              | none => .error .bad_access
              | some cache2 =>
                match cache2.entries[i]? with
                | none => .error .bad_access
                | some e2 =>
                  let e3 := { e2 with offset := 0 }
                  if read_from_disk then
                    match bdrv_pread bs offset e3.data cache2.table_size w2 with
                    | (ret3, data3, w3) =>
                      if ret3 < 0 then
                        .ok ((ret3, none),
                          w3.set_cache c (cache2.set_entry i { e3 with data := data3 }))
                      else
                        do_get_found c i
                          (w3.set_cache c (cache2.set_entry i
                            { e3 with data := data3, cache_hits := 32, offset := offset }))
                  else
                    do_get_found c i
                      (w2.set_cache c (cache2.set_entry i
                        { e3 with cache_hits := 32, offset := offset }))

/-- The function `block_cache_get`. -/
def block_cache_get (fuel bs c offset : Nat) (w : World) : Res (Int × Option Nat) :=
  block_cache_do_get fuel bs c offset true w

/-- The function `block_cache_get_empty`. -/
def block_cache_get_empty (fuel bs c offset : Nat) (w : World) : Res (Int × Option Nat) :=
  block_cache_do_get fuel bs c offset false w

/-- The function `block_cache_put`: returns the `int` result and the value of
`*table` after the call. -/
def block_cache_put (c table : Nat) (w : World) : Res (Int × Option Nat) :=
  match w.caches[c]? with
  | none => .error .bad_access
  | some cache =>
    match find_table cache.entries table 0 with
    | none => .ok ((-ENOENT, some table), w)
    | some i =>
      match cache.entries[i]? with
      | none => .error .bad_access
      | some e =>
        if wrap_int (e.ref - 1) < 0 then .error .aborted
        else
          .ok ((0, none), w.set_cache c (cache.set_entry i { e with ref := wrap_int (e.ref - 1) }))

/-- The function `block_cache_entry_mark_dirty`. -/
def block_cache_entry_mark_dirty (c table : Nat) (w : World) : Except Fault World :=
  match w.caches[c]? with
  | none => .error .bad_access
  | some cache =>
    match find_table cache.entries table 0 with
    | none => .error .aborted
    | some i =>
      match cache.entries[i]? with
      | none => .error .bad_access
      | some e => .ok (w.set_cache c (cache.set_entry i { e with dirty := true }))

/-- A caller that holds the buffer `table` of cache `c` stores `bytes` in it
(the caller "mutates the returned buffer in place"). -/
def table_store (c table : Nat) (bytes : List Nat) (w : World) : Except Fault World :=
  match w.caches[c]? with
  | none => .error .bad_access
  | some cache =>
    match find_table cache.entries table 0 with
    | none => .error .bad_access
    | some i =>
      match cache.entries[i]? with
      | none => .error .bad_access
      | some e => .ok (w.set_cache c (cache.set_entry i { e with data := bytes }))

/-- The flush result as the specification words it: the first error is
remembered, and a later error that is not out-of-space replaces a remembered
out-of-space error. -/
def spec_aggregate_step (result ret : Int) : Int :=
  if ret < 0 then
    if result = 0 then ret
    else if result = -ENOSPC ∧ ret ≠ -ENOSPC then ret
    else result
  else result

/-- The specification's aggregate of the per-slot results of one sweep. -/
def spec_aggregate (rets : List Int) : Int := rets.foldl spec_aggregate_step 0

/-- The values the calls of `entry_flush` return during one sweep, in order. -/
def sweep_rets (entry_flush : Nat → World → Res Int) : List Nat → World → List Int
  | [], _ => []
  | i :: rest, w =>
    match entry_flush i w with
    | .error _ => []
    | .ok (ret, w1) => ret :: sweep_rets entry_flush rest w1

/-- The last error of a list of results, or `dflt`. -/
def last_error (rets : List Int) (dflt : Int) : Int :=
  ((rets.filter (fun r => decide (r < 0))).getLast?).getD dflt

/-- Out-of-space if any result is out-of-space, else the last error, else 0. -/
def enospc_or_last (rets : List Int) : Int :=
  if -ENOSPC ∈ rets then -ENOSPC else last_error rets 0

deriving instance DecidableEq for Except

/-- A cache with three dirty slots. -/
def c4_cache : BlockCache :=
  { entries := [
      { table := 1, data := [1], offset := 10, dirty := true, cache_hits := 0, ref := 0 },
      { table := 2, data := [2], offset := 20, dirty := true, cache_hits := 0, ref := 0 },
      { table := 3, data := [3], offset := 30, dirty := true, cache_hits := 0, ref := 0 }],
    depends := none, table_size := 1, table_type := .BLOCK_TABLE_L2,
    depends_on_flush := false }

/-- The cache `c4_cache` over a backing store whose first two writes fail with
ENOSPC and EINVAL. -/
def c4_world : World :=
  { caches := [c4_cache], disk := [], log := [], script := [-28, -22], brk := 3 }

/-- The world `c4_world` with a backing store whose first two writes fail with
EIO and EINVAL. -/
def c4_world_first : World := { c4_world with script := [-5, -22] }

/-- The world after a call, or the world before it if the call did not return. -/
def world_after {α : Type} (r : Res α) (w : World) : World :=
  match r with
  | .ok (_, w1) => w1
  | .error _ => w

/-! ## Eviction scan: specification side -/

/-- What one scan of `block_cache_find_entry_to_replace` does to a slot: a slot
with `ref` 0 gets its hit counter halved by C integer division, any other slot
is kept as it is. -/
def aged (e : BlockCachedTable) : BlockCachedTable :=
  if e.ref ≠ 0 then e else { e with cache_hits := Int.tdiv e.cache_hits 2 }

/-- Slot `m` is the first slot with the least hit counter among the slots with
`ref` 0. -/
def first_min_unpinned (es : List BlockCachedTable) (m : Nat) : Prop :=
  ∃ em, es[m]? = some em ∧ em.ref = 0 ∧
    ∀ (j : Nat) (e : BlockCachedTable), es[j]? = some e → e.ref = 0 →
      em.cache_hits ≤ e.cache_hits ∧ (j < m → em.cache_hits < e.cache_hits)

/-- A cache whose only slot is unpinned and has the hit counter -3. -/
def c5_cache_neg : BlockCache :=
  { entries := [
      { table := 1, data := [0], offset := 5, dirty := false, cache_hits := -3, ref := 0 }],
    depends := none, table_size := 1, table_type := .BLOCK_TABLE_L2,
    depends_on_flush := false }

/-- A cache with a pinned slot and three unpinned ones, two of them with the
least hit counter. -/
def c5_cache : BlockCache :=
  { entries := [
      { table := 1, data := [0], offset := 5, dirty := false, cache_hits := 1, ref := 1 },
      { table := 2, data := [0], offset := 6, dirty := true, cache_hits := 9, ref := 0 },
      { table := 3, data := [0], offset := 7, dirty := false, cache_hits := 4, ref := 0 },
      { table := 4, data := [0], offset := 8, dirty := false, cache_hits := 4, ref := 0 }],
    depends := none, table_size := 1, table_type := .BLOCK_TABLE_L2,
    depends_on_flush := false }

/-! ## Sequences of calls -/

/-- One call of the public interface, a store into a borrowed buffer, or the
backing store fixing the return values of its next calls. -/
inductive Op where
  | create (num_tables table_size : Nat) (type : BlockTableType)
  | get (fuel bs c offset : Nat)
  | get_empty (fuel bs c offset : Nat)
  | put (c table : Nat)
  | mark_dirty (c table : Nat)
  | store (c table : Nat) (bytes : List Nat)
  | flush (fuel bs c : Nat)
  | set_dependency (fuel bs c dependency : Nat)
  | depends_on_flush (c : Nat)
  | answers (script : List Int)
  deriving DecidableEq, Repr

/-- The world after the call `op`, when the call returns. -/
def exec : Op → World → Except Fault World
  | .create num_tables table_size type, w => .ok (block_cache_create num_tables table_size type w).2
  | .get fuel bs c offset, w => (block_cache_get fuel bs c offset w).map Prod.snd
  | .get_empty fuel bs c offset, w => (block_cache_get_empty fuel bs c offset w).map Prod.snd
  | .put c table, w => (block_cache_put c table w).map Prod.snd
  | .mark_dirty c table, w => block_cache_entry_mark_dirty c table w
  | .store c table bytes, w => table_store c table bytes w
  | .flush fuel bs c, w => (block_cache_flush fuel bs c w).map Prod.snd
  | .set_dependency fuel bs c dependency, w =>
    (block_cache_set_dependency fuel bs c dependency w).map Prod.snd
  | .depends_on_flush c, w => block_cache_depends_on_flush c w
  | .answers script, w => .ok { w with script := script }

/-- The world before any cache is created, over a backing store `disk`. -/
def World.initial (disk : List (Nat × Nat × List Nat)) : World :=
  { caches := [], disk := disk, log := [], script := [], brk := 0 }

/-- The worlds that sequences of returning calls taken from `allowed` lead to. -/
inductive ReachableBy (allowed : Op → Prop) : World → Prop where
  | initial (disk : List (Nat × Nat × List Nat)) : ReachableBy allowed (World.initial disk)
  | step (op : Op) (w w1 : World) :
      ReachableBy allowed w → allowed op → exec op w = .ok w1 → ReachableBy allowed w1

/-- The calls create, get, get_empty, put, mark_dirty and flush, with stores into
buffers and any behaviour of the backing store. -/
def borrow_ops : Op → Prop
  | .set_dependency _ _ _ _ => False
  | .depends_on_flush _ => False
  | _ => True

/-- Every call of the interface, with any arguments. -/
def all_ops : Op → Prop := fun _ => True

/-- A cache of capacity 1 whose slot holds offset 5, has the hit counter `k` and
is borrowed `r` times. -/
def c6_cache (k r : Int) : BlockCache :=
  { entries := [
      { table := 1, data := [0], offset := 5, dirty := false, cache_hits := k, ref := r }],
    depends := none, table_size := 1, table_type := .BLOCK_TABLE_L2,
    depends_on_flush := false }

/-- The world of the single cache `c6_cache k 0`. -/
def c6_world (k : Int) : World :=
  { caches := [c6_cache k 0], disk := [], log := [], script := [], brk := 1 }

/-! ## Flush: specification side -/

/-- The dependency pointer of cache `c`, if the cache exists and has one. -/
def dep (w : World) (c : Nat) : Option Nat :=
  match w.caches[c]? with
  | none => none
  | some cache => cache.depends

/-- Cache `c` has a slot that `block_cache_entry_flush` would write: dirty, with
an offset other than 0. -/
def has_dirty (w : World) (c : Nat) : Prop :=
  ∃ (cache : BlockCache) (i : Nat) (e : BlockCachedTable),
    w.caches[c]? = some cache ∧ cache.entries[i]? = some e ∧ e.dirty = true ∧ e.offset ≠ 0

/-- The caches a flush of `x` works on: `x` itself when it has a slot to write,
and then, through the dependency pointer, the caches a flush of the dependency
works on. -/
inductive BusyPath (w : World) : Nat → Nat → Prop where
  | here (x : Nat) : has_dirty w x → BusyPath w x x
  | next (x d y : Nat) : has_dirty w x → dep w x = some d → BusyPath w d y → BusyPath w x y

/-- Slot `e1` is slot `e`, or slot `e` with `dirty` cleared. -/
def slot_le (e1 e : BlockCachedTable) : Prop :=
  e1 = e ∨ e1 = { e with dirty := false }

/-- Cache `c1` is cache `c` after some of its slots were cleaned and its
ordering obligations possibly resolved. -/
structure cache_le (c1 c : BlockCache) : Prop where
  len : c1.entries.length = c.entries.length
  slots : ∀ (i : Nat) (e : BlockCachedTable), c.entries[i]? = some e →
    ∃ e1, c1.entries[i]? = some e1 ∧ slot_le e1 e
  depends : c1.depends = c.depends ∨ c1.depends = none
  on_flush : c1.depends_on_flush = c.depends_on_flush ∨ c1.depends_on_flush = false
  table_size : c1.table_size = c.table_size
  table_type : c1.table_type = c.table_type

/-- World `w1` is world `w` after flushing on backing file `bs`: caches are only
cleaned, the log only grows, every slot that went from dirty to clean has a
successful write of its table in the new part of the log, a backing store
that had no failure left has none left, and a cache whose dependency pointer
was cleared has a dependency without a slot left to write. -/
structure world_le (bs : Nat) (w1 w : World) : Prop where
  len : w1.caches.length = w.caches.length
  brk : w1.brk = w.brk
  caches : ∀ (c : Nat) (cache : BlockCache), w.caches[c]? = some cache →
    ∃ cache1, w1.caches[c]? = some cache1 ∧ cache_le cache1 cache
  log : ∃ evs, w1.log = w.log ++ evs ∧
    ∀ (c : Nat) (cache cache1 : BlockCache) (i : Nat) (e e1 : BlockCachedTable),
      w.caches[c]? = some cache → w1.caches[c]? = some cache1 →
      cache.entries[i]? = some e → cache1.entries[i]? = some e1 →
      e.dirty = true → e1.dirty = false →
      ∃ r, 0 ≤ r ∧ BdrvCall.pwrite bs e.offset (e.data.take cache.table_size) r ∈ evs
  script : w.script = [] → w1.script = []
  cleared : ∀ (y : Nat) (cy cy1 : BlockCache) (b : Nat),
    w.caches[y]? = some cy → w1.caches[y]? = some cy1 →
    cy.depends = some b → cy1.depends = none → ¬ has_dirty w1 b

/-- What the callers of a flush `fl` rely on: the world only gets cleaner, only
the caches on the busy path of the flushed cache change, a backing store without
failures gives the result 0, and a result that is not an error is 0, ends with
a successful device sync and leaves the flushed cache without a slot to write. -/
def flush_spec (fl : Nat → Nat → World → Res Int) : Prop :=
  ∀ (bs x : Nat) (w : World) (r : Int) (w1 : World), fl bs x w = .ok (r, w1) →
    world_le bs w1 w ∧
    (∀ y, ¬ BusyPath w x y → w1.caches[y]? = w.caches[y]?) ∧
    (w.script = [] → r = 0) ∧
    (0 ≤ r → r = 0 ∧ (∃ pre s, w1.log = w.log ++ pre ++ [BdrvCall.flush bs s] ∧ 0 ≤ s) ∧
      ¬ has_dirty w1 x)

/-- Slot `i` of cache `c` needs no write: it is clean or has the offset 0. -/
def slot_clean (w : World) (c i : Nat) : Prop :=
  ∀ (cache : BlockCache) (e : BlockCachedTable),
    w.caches[c]? = some cache → cache.entries[i]? = some e → e.dirty = false ∨ e.offset = 0

/-! ## Dependency ordering: specification side -/

/-- The writes a sweep without failures issues for the slots `es`: one write per
dirty slot with an offset other than 0, in slot order. -/
def dirty_writes (bs table_size : Nat) : List BlockCachedTable → List BdrvCall
  | [] => []
  | e :: es =>
    if e.dirty = true ∧ e.offset ≠ 0 then
      BdrvCall.pwrite bs e.offset (e.data.take table_size) 0 :: dirty_writes bs table_size es
    else dirty_writes bs table_size es

/-- The backing files after the calls `evs`: every successful write stores its
extent. -/
def apply_writes : List BdrvCall → List (Nat × Nat × List Nat) → List (Nat × Nat × List Nat)
  | [], disk => disk
  | BdrvCall.pwrite bs offset buf ret :: evs, disk =>
    apply_writes evs (if ret < 0 then disk else (bs, offset, buf) :: disk)
  | BdrvCall.pread _ _ _ _ :: evs, disk => apply_writes evs disk
  | BdrvCall.flush _ _ :: evs, disk => apply_writes evs disk

/-- A cache with one dirty slot at offset 100 that depends on cache 1. -/
def c1_cache_a : BlockCache :=
  { entries := [
      { table := 1, data := [7], offset := 100, dirty := true, cache_hits := 0, ref := 0 }],
    depends := some 1, table_size := 1, table_type := .BLOCK_TABLE_L2,
    depends_on_flush := false }

/-- A cache with a clean slot and a dirty slot at offset 200, without dependency. -/
def c1_cache_b : BlockCache :=
  { entries := [
      { table := 2, data := [8], offset := 300, dirty := false, cache_hits := 0, ref := 0 },
      { table := 3, data := [9], offset := 200, dirty := true, cache_hits := 0, ref := 0 }],
    depends := none, table_size := 1, table_type := .BLOCK_TABLE_REF,
    depends_on_flush := false }

/-- Cache 0 depends on cache 1, both have a dirty slot, no failure is pending. -/
def c1_world : World :=
  { caches := [c1_cache_a, c1_cache_b], disk := [], log := [], script := [], brk := 3 }

/-- The world `c1_world` over a backing store whose next write fails with EIO. -/
def c1_world_fail : World := { c1_world with script := [-5] }

/-! ## Round trip: specification side -/

/-- The slot of cache `c` whose buffer is `table` holds the bytes `bytes`. -/
def table_holds (w : World) (c table : Nat) (bytes : List Nat) : Prop :=
  ∃ (cache : BlockCache) (i : Nat) (e : BlockCachedTable),
    w.caches[c]? = some cache ∧ cache.entries[i]? = some e ∧ e.table = table ∧ e.data = bytes

/-- Every slot of `es` is as `block_cache_create` leaves it, apart from its
buffer: offset 0, clean, never hit, not borrowed. -/
def all_idle (es : List BlockCachedTable) : Prop :=
  ∀ e ∈ es, e.offset = 0 ∧ e.dirty = false ∧ e.cache_hits = 0 ∧ e.ref = 0

/-! ## Pinned slots: specification side -/

/-- A cache with a pinned slot at offset 100 and a dirty unpinned slot at offset
200. -/
def c3_cache : BlockCache :=
  { entries := [
      { table := 1, data := [7], offset := 100, dirty := true, cache_hits := 3, ref := 2 },
      { table := 2, data := [8], offset := 200, dirty := true, cache_hits := 9, ref := 0 }],
    depends := none, table_size := 1, table_type := .BLOCK_TABLE_L2,
    depends_on_flush := false }

/-- The cache `c3_cache` over a backing store whose next call fails with EIO. -/
def c3_world : World :=
  { caches := [c3_cache], disk := [], log := [], script := [-5], brk := 2 }

/-! ## Device-flush obligation: specification side -/

/-- A cache with a dirty slot at offset 100 and no ordering obligation. -/
def c7_cache : BlockCache :=
  { entries := [
      { table := 1, data := [7], offset := 100, dirty := true, cache_hits := 0, ref := 0 }],
    depends := none, table_size := 1, table_type := .BLOCK_TABLE_L2,
    depends_on_flush := false }

/-- The cache `c7_cache` over a backing store without pending failure. -/
def c7_world : World :=
  { caches := [c7_cache], disk := [], log := [], script := [], brk := 1 }

/-! ## Dependency edges: specification side -/

/-- A cache with one dirty slot at offset `offset` holding the byte `byte`, with
the dependency pointer `depends`. -/
def dep_cache (table offset byte : Nat) (depends : Option Nat) : BlockCache :=
  { entries := [
      { table := table, data := [byte], offset := offset, dirty := true, cache_hits := 0,
        ref := 0 }],
    depends := depends, table_size := 1, table_type := .BLOCK_TABLE_L2,
    depends_on_flush := false }

/-- Three caches with a dirty slot each; cache 0 depends on cache 1. -/
def c8_world : World :=
  { caches := [dep_cache 1 100 7 (some 1), dep_cache 2 200 8 none, dep_cache 3 300 9 none],
    disk := [], log := [], script := [], brk := 3 }

/-- The world after a sequence of calls, when all of them return. -/
def run_ops : List Op → World → Except Fault World
  | [], w => .ok w
  | op :: rest, w =>
    match exec op w with
    | .error f => .error f
    | .ok w1 => run_ops rest w1

/-- Every call of the interface, `set_dependency` only with a cache other than
its dependency. -/
def dep_ops : Op → Prop
  | .set_dependency _ _ c dependency => c ≠ dependency
  | _ => True

/-- Three caches of one slot are created, each gets a dirty table, then cache 0
is made to depend on cache 1 and cache 1 on cache 2. -/
def c9_ops : List Op :=
  [.create 1 1 .BLOCK_TABLE_L2, .create 1 1 .BLOCK_TABLE_REF, .create 1 1 .BLOCK_TABLE_BITMAP,
   .get_empty 1 0 0 100, .store 0 1 [7], .mark_dirty 0 1, .put 0 1,
   .get_empty 1 0 1 200, .store 1 2 [8], .mark_dirty 1 2, .put 1 2,
   .get_empty 1 0 2 300, .store 2 3 [9], .mark_dirty 2 3, .put 2 3,
   .set_dependency 1 0 0 1, .set_dependency 1 0 1 2]

/-- The world the calls `c9_ops` lead to. -/
def c9_world : World :=
  match run_ops c9_ops (World.initial []) with
  | .ok w => w
  | .error _ => World.initial []

/-! ## Offset uniqueness: specification side -/

/-- No two different slots of one cache hold the same offset other than 0. -/
def unique_offsets (w : World) : Prop :=
  ∀ (c : Nat) (cache : BlockCache) (i j : Nat) (ei ej : BlockCachedTable),
    w.caches[c]? = some cache → cache.entries[i]? = some ei → cache.entries[j]? = some ej →
    ei.offset = ej.offset → ei.offset ≠ 0 → i = j

/-- Every slot of every cache of `w1` has the offset the same slot has in `w`. -/
def offsets_from (w1 w : World) : Prop :=
  ∀ (c : Nat) (cache1 : BlockCache), w1.caches[c]? = some cache1 →
    ∃ cache, w.caches[c]? = some cache ∧
      ∀ (i : Nat) (e1 : BlockCachedTable), cache1.entries[i]? = some e1 →
        ∃ e, cache.entries[i]? = some e ∧ e.offset = e1.offset

/-- A cache of two slots is created and both slots are handed out and released,
for the offsets 100 and 200. -/
def c10_ops : List Op :=
  [.create 2 1 .BLOCK_TABLE_L2, .get_empty 0 0 0 100, .put 0 1, .get_empty 0 0 0 200, .put 0 2]

/-- The world the calls `c10_ops` lead to. -/
def c10_world : World :=
  match run_ops c10_ops (World.initial []) with
  | .ok w => w
  | .error _ => World.initial []

/-! ## Hits and misses of get: specification side -/

/-- The calls into the backing store between `w` and `w1` are writes and syncs
only: the log of `w1` is the log of `w` followed by calls none of which is a
read. -/
def no_read_since (w1 w : World) : Prop :=
  ∃ evs, w1.log = w.log ++ evs ∧
    ∀ ev ∈ evs, ∀ (b o n : Nat) (r : Int), ev ≠ BdrvCall.pread b o n r

/-- The cache `c3_cache` (a borrowed slot at offset 100 and a dirty slot at
offset 200 that is not borrowed) over a backing store that holds the byte 9 at
offset 300 and has no failure pending. -/
def c13_world : World :=
  { caches := [c3_cache], disk := [(0, 300, [9])], log := [], script := [], brk := 2 }

/-- The world `c13_world` over a backing store whose next call succeeds and
whose call after that fails with EIO. -/
def c19_world : World := { c13_world with script := [0, -5] }

/-- A cache of one slot is created, the slot is handed out for offset 0, marked
dirty and released, and the next call of the backing store will fail with EIO. -/
def c19_ops : List Op :=
  [.create 1 1 .BLOCK_TABLE_L2, .get 0 0 0 0, .mark_dirty 0 1, .put 0 1, .answers [-5]]

/-- The world the calls `c19_ops` lead to. -/
def c19_world_dirty : World :=
  match run_ops c19_ops (World.initial []) with
  | .ok w => w
  | .error _ => World.initial []

/-! ## put: specification side -/

/-- A cache with a slot borrowed twice and a slot that is not borrowed. -/
def c15_world : World :=
  { caches := [c3_cache], disk := [], log := [], script := [], brk := 2 }

/-! ## Sentinel slots: specification side -/

/-- The call `op` keeps to the borrow protocol in the world `w`: `get` and
`get_empty` ask for an offset other than 0, and `mark_dirty` names the buffer
of a slot that is borrowed (its `ref` is not 0). -/
def keeps_protocol : Op → World → Prop
  | .get _ _ _ offset, _ => offset ≠ 0
  | .get_empty _ _ _ offset, _ => offset ≠ 0
  | .mark_dirty c table, w =>
    ∀ (cache : BlockCache) (i : Nat) (e : BlockCachedTable), w.caches[c]? = some cache →
      find_table cache.entries table 0 = some i → cache.entries[i]? = some e → e.ref ≠ 0
  | _, _ => True

/-- The worlds that sequences of returning calls lead to when every call meets
the condition `pre` in the world it is issued in. -/
inductive ReachableIn (pre : Op → World → Prop) : World → Prop where
  | initial (disk : List (Nat × Nat × List Nat)) : ReachableIn pre (World.initial disk)
  | step (op : Op) (w w1 : World) :
      ReachableIn pre w → pre op w → exec op w = .ok w1 → ReachableIn pre w1

/-- A slot with the offset 0 is clean and not borrowed. -/
def slot_idle_at_sentinel (e : BlockCachedTable) : Prop :=
  e.offset = 0 → e.dirty = false ∧ e.ref = 0

/-- Every slot of every cache with the offset 0 is clean and not borrowed. -/
def sentinel_idle (w : World) : Prop :=
  ∀ cache ∈ w.caches, ∀ e ∈ cache.entries, slot_idle_at_sentinel e

/-- The world after the call `op`, or the world before it if the call did not
return. -/
def exec_or_stay (op : Op) (w : World) : World :=
  match exec op w with
  | .ok w1 => w1
  | .error _ => w

/-- A world with a cache of one slot. -/
def c11_world_0 : World := exec_or_stay (.create 1 1 .BLOCK_TABLE_L2) (World.initial [])

/-- The slot of `c11_world_0` was handed out for offset 0. -/
def c11_world_1 : World := exec_or_stay (.get 0 0 0 0) c11_world_0

/-- The slot of `c11_world_1` was marked dirty through the handle. -/
def c11_world_2 : World := exec_or_stay (.mark_dirty 0 1) c11_world_1

/-- A world with a cache of two slots. -/
def c11_world_3 : World := exec_or_stay (.create 2 1 .BLOCK_TABLE_L2) (World.initial [])

/-- The first slot of `c11_world_3` was handed out for offset 100. -/
def c11_world_4 : World := exec_or_stay (.get_empty 0 0 0 100) c11_world_3

/-- The first slot of `c11_world_4` was marked dirty through the handle. -/
def c11_world_5 : World := exec_or_stay (.mark_dirty 0 1) c11_world_4

/-! ## The sweep of flush: specification side -/

/-- The world after the calls of `entry_flush` for the slots `l`, one slot
after the other in the order of `l`, whatever the earlier calls returned (up to
a call that does not return). -/
def sweep_world (entry_flush : Nat → World → Res Int) : List Nat → World → World
  | [], w => w
  | i :: rest, w =>
    match entry_flush i w with
    | .error _ => w
    | .ok (_, w1) => sweep_world entry_flush rest w1

/-- Two caches of one slot are created, cache 0 is made to depend on cache 1
and on a device flush; no slot is dirty. -/
def c16_ops : List Op :=
  [.create 1 1 .BLOCK_TABLE_L2, .create 1 1 .BLOCK_TABLE_REF, .set_dependency 1 0 0 1,
   .depends_on_flush 0]

/-- The world the calls `c16_ops` lead to. -/
def c16_world : World :=
  match run_ops c16_ops (World.initial []) with
  | .ok w => w
  | .error _ => World.initial []

/-! ## The capacity-2 scenario: specification side -/

/-- The world the capacity-2 scenario ends in when it starts over the backing
files `disk`, with tables of `ts` bytes, the bytes `p1` written back to offset
100 and the pattern `p2` stored for offset 200. -/
def c18_final (bs ts : Nat) (ty : BlockTableType) (disk : List (Nat × Nat × List Nat))
    (p1 p2 : List Nat) : World :=
  { caches := [BlockCache.mk
      [BlockCachedTable.mk 1 (disk_read ((bs, 100, p1) :: disk) bs 300 ts) 300 false 33 1,
       BlockCachedTable.mk 2 p2 200 true 16 0]
      none ts ty false],
    disk := (bs, 100, p1) :: disk,
    log := [BdrvCall.pwrite bs 100 p1 0, BdrvCall.pread bs 300 ts 0],
    script := [],
    brk := 2 }

/-- A world of the scenario before the last call: one cache with the slots `e0`
and `e1`, and nothing written or read yet. -/
def c18_state (ts : Nat) (ty : BlockTableType) (disk : List (Nat × Nat × List Nat))
    (e0 e1 : BlockCachedTable) : World :=
  { caches := [BlockCache.mk [e0, e1] none ts ty false], disk := disk, log := [], script := [],
    brk := 2 }

/-! ## Acyclic dependencies: specification side -/

/-- A chain of at least one dependency pointer leads from cache `x` to cache
`y`. -/
inductive DepPath (w : World) : Nat → Nat → Prop where
  | edge (x d : Nat) : dep w x = some d → DepPath w x d
  | next (x d y : Nat) : dep w x = some d → DepPath w d y → DepPath w x y

/-- The function `rk` ranks the caches so that every dependency pointer leads
to a cache of smaller rank, and every dependency pointer leads to a cache that
exists. -/
def dep_ranked (w : World) (rk : Nat → Nat) : Prop :=
  ∀ (x d : Nat), dep w x = some d → rk d < rk x ∧ d < w.caches.length

/-! ## Round trip on a used cache: specification side -/

theorem last_error_cons_neg (ret : Int) (rets : List Int) (d : Int) (h : ret < 0) :
    last_error (ret :: rets) d = last_error rets ret := by
  unfold last_error
  simp only [List.filter_cons, h, decide_True, if_true]
  cases hf : rets.filter (fun r => decide (r < 0)) with
  | nil => simp
  | cons a l => simp [List.getLast?_cons_cons, List.getLast?_cons]

theorem last_error_cons_nonneg (ret : Int) (rets : List Int) (d : Int) (h : ¬ ret < 0) :
    last_error (ret :: rets) d = last_error rets d := by
  unfold last_error
  simp [List.filter_cons, h]

/-- The sweep of `block_cache_flush` started with `result`: an out-of-space
`result` is kept; else out-of-space wins if it occurs, else the last error. -/
theorem flush_loop_result (ef : Nat → World → Res Int) :
    ∀ (l : List Nat) (result : Int) (w : World) (r : Int) (w1 : World),
      flush_loop ef l result w = .ok (r, w1) →
      r = if result = -ENOSPC then -ENOSPC
          else if -ENOSPC ∈ sweep_rets ef l w then -ENOSPC
          else last_error (sweep_rets ef l w) result := by
  intro l
  induction l with
  | nil =>
    intro result w r w1 h
    simp only [flush_loop, Except.ok.injEq, Prod.mk.injEq] at h
    simp only [sweep_rets, last_error, List.filter_nil, List.getLast?_nil, Option.getD_none,
      List.not_mem_nil, if_false, ← h.1]
    split <;> simp_all
  | cons i rest ih =>
    intro result w r w1 h
    simp only [flush_loop] at h
    cases hef : ef i w with
    | error f => simp [hef] at h
    | ok p =>
      obtain ⟨ret, w2⟩ := p
      simp only [hef] at h
      have := ih _ _ _ _ h
      simp only [sweep_rets, hef]
      by_cases hres : result = -ENOSPC
      · simp [hres] at this ⊢
        exact this
      · by_cases hneg : ret < 0
        · simp only [hneg, hres, ne_eq, not_false_eq_true, and_self, if_true] at this
          rw [this]
          by_cases hret : ret = -ENOSPC
          · simp [hret, hres]
          · have hne : ¬ (-ENOSPC = ret) := fun h => hret h.symm
            simp only [hret, hres, if_false, List.mem_cons, hne, false_or]
            rw [last_error_cons_neg _ _ _ hneg]
        · have hne : ¬ (-ENOSPC = ret) := by
            intro h; apply hneg; rw [← h]; decide
          simp only [hneg, false_and, if_false, hres] at this
          rw [this]
          simp only [hres, if_false, List.mem_cons, hne, false_or]
          rw [last_error_cons_nonneg _ _ _ hneg]


/-- C4 (as stated, refuted): with write results EIO, EINVAL the flush returns
the later error EINVAL, not the first; with ENOSPC, EINVAL it returns ENOSPC,
which the later error does not replace. -/
theorem C4_counterexample :
    (sweep_rets (fun i w1 => block_cache_entry_flush (block_cache_flush 0) 0 0 i w1)
        (List.range 3) c4_world_first = [- EIO, -EINVAL, 0]
      ∧ spec_aggregate [- EIO, -EINVAL, 0] = - EIO
      ∧ (block_cache_flush 1 0 0 c4_world_first).toOption.map Prod.fst = some (-EINVAL))
    ∧ (sweep_rets (fun i w1 => block_cache_entry_flush (block_cache_flush 0) 0 0 i w1)
        (List.range 3) c4_world = [-ENOSPC, -EINVAL, 0]
      ∧ spec_aggregate [-ENOSPC, -EINVAL, 0] = -EINVAL
      ∧ (block_cache_flush 1 0 0 c4_world).toOption.map Prod.fst = some (-ENOSPC)) := by
  decide

/-- C4 (amended): the result of `block_cache_flush` is out-of-space if any slot's
`block_cache_entry_flush` returned out-of-space, else the last error any slot
returned; when no slot failed it is the error of the final device sync, or 0. -/
theorem C4_flush_result (fuel bs c : Nat) (w : World) (cache : BlockCache) (r : Int)
    (w1 : World) (hc : w.caches[c]? = some cache)
    (h : block_cache_flush (fuel + 1) bs c w = .ok (r, w1)) :
    (enospc_or_last (sweep_rets
        (fun i w2 => block_cache_entry_flush (block_cache_flush fuel) bs c i w2)
        (List.range cache.size) w) ≠ 0 →
      r = enospc_or_last (sweep_rets
        (fun i w2 => block_cache_entry_flush (block_cache_flush fuel) bs c i w2)
        (List.range cache.size) w)) ∧
    (enospc_or_last (sweep_rets
        (fun i w2 => block_cache_entry_flush (block_cache_flush fuel) bs c i w2)
        (List.range cache.size) w) = 0 →
      ∃ s, w1.log.getLast? = some (BdrvCall.flush bs s) ∧ r = if s < 0 then s else 0) := by
  simp only [block_cache_flush, hc] at h
  cases hl : flush_loop (fun i w2 => block_cache_entry_flush (block_cache_flush fuel) bs c i w2)
      (List.range cache.size) 0 w with
  | error f => simp [hl] at h
  | ok p =>
    obtain ⟨result, w2⟩ := p
    simp only [hl] at h
    have hres := flush_loop_result _ _ _ _ _ _ hl
    have h0 : ¬ ((0 : Int) = -ENOSPC) := by decide
    simp only [h0, if_false] at hres
    have hagg : result = enospc_or_last (sweep_rets
        (fun i w2 => block_cache_entry_flush (block_cache_flush fuel) bs c i w2)
        (List.range cache.size) w) := by
      rw [hres]; rfl
    rw [← hagg]
    by_cases hz : result = 0
    · simp only [hz, if_true, bdrv_flush] at h
      refine ⟨fun hne => absurd hz hne, fun _ => ⟨w2.script.headD 0, ?_⟩⟩
      by_cases hs : w2.script.headD 0 < 0
      · simp only [hs, if_true, Except.ok.injEq, Prod.mk.injEq] at h
        obtain ⟨h1, h2⟩ := h
        subst h2
        refine ⟨by simp, ?_⟩
        rw [if_pos hs]
        exact h1.symm
      · simp only [hs, if_false, Except.ok.injEq, Prod.mk.injEq] at h
        obtain ⟨h1, h2⟩ := h
        subst h2
        refine ⟨by simp, ?_⟩
        rw [if_neg hs]
        exact h1.symm
    · simp only [hz, if_false, Except.ok.injEq, Prod.mk.injEq] at h
      exact ⟨fun _ => h.1.symm, fun h0 => absurd h0 hz⟩

/-- C4 witness: three dirty slots, write results ENOSPC, EINVAL, success. -/
theorem C4_flush_result_witness :
    block_cache_flush 1 0 0 c4_world
        = .ok (-ENOSPC, world_after (block_cache_flush 1 0 0 c4_world) c4_world) ∧
    enospc_or_last (sweep_rets
        (fun i w2 => block_cache_entry_flush (block_cache_flush 0) 0 0 i w2)
        (List.range c4_cache.size) c4_world) = -ENOSPC :=
  ⟨by decide,
   ((C4_flush_result 0 0 0 c4_world c4_cache (-ENOSPC)
      (world_after (block_cache_flush 1 0 0 c4_world) c4_world)
      (by rfl) (by decide)).1 (by decide)).symm⟩

/-! ### The eviction scan -/

theorem find_entry_loop_entries :
    ∀ (es : List BlockCachedTable) (i : Nat) (mc mi : Int),
      (find_entry_loop es i mc mi).2 = es.map aged := by
  intro es
  induction es with
  | nil => intro i mc mi; rfl
  | cons e rest ih =>
    intro i mc mi
    unfold find_entry_loop
    by_cases hr : e.ref ≠ 0
    · rw [if_pos hr]
      simp only [List.map_cons, aged, if_pos hr]
      rw [← ih (i + 1) mc mi]
    · rw [if_neg hr]
      simp only [List.map_cons, aged, if_neg hr]
      rw [← ih (i + 1) (if e.cache_hits < mc then e.cache_hits else mc)
        (if e.cache_hits < mc then (i : Int) else mi)]

theorem find_entry_loop_index :
    ∀ (es : List BlockCachedTable) (i : Nat) (mc mi : Int),
      ((∀ (j : Nat) (e : BlockCachedTable), es[j]? = some e → e.ref = 0 → mc ≤ e.cache_hits) →
        (find_entry_loop es i mc mi).1 = mi) ∧
      ((∃ (j : Nat) (e : BlockCachedTable), es[j]? = some e ∧ e.ref = 0 ∧ e.cache_hits < mc) →
        ∃ (k : Nat) (ek : BlockCachedTable), (find_entry_loop es i mc mi).1 = ((i + k : Nat) : Int) ∧
          first_min_unpinned es k ∧ es[k]? = some ek ∧ ek.cache_hits < mc) := by
  intro es
  induction es with
  | nil =>
    intro i mc mi
    refine ⟨fun _ => rfl, ?_⟩
    rintro ⟨j, e, h, _⟩
    simp at h
  | cons e rest ih =>
    intro i mc mi
    unfold find_entry_loop
    by_cases hr : e.ref ≠ 0
    · rw [if_pos hr]
      obtain ⟨ih1, ih2⟩ := ih (i + 1) mc mi
      constructor
      · intro hall
        apply ih1
        intro j e' hj hr'
        exact hall (j + 1) e' (by simpa using hj) hr'
      · rintro ⟨j, e', hj, hr', hlt⟩
        have hj0 : j ≠ 0 := by
          rintro rfl
          simp only [List.getElem?_cons_zero, Option.some.injEq] at hj
          subst hj
          exact hr hr'
        obtain ⟨j', rfl⟩ := Nat.exists_eq_succ_of_ne_zero hj0
        simp only [Nat.succ_eq_add_one, List.getElem?_cons_succ] at hj
        obtain ⟨k, ek, hk, ⟨em, hem, hemr, hmin⟩, hek, hklt⟩ := ih2 ⟨j', e', hj, hr', hlt⟩
        refine ⟨k + 1, ek, ?_, ⟨em, by simpa using hem, hemr, ?_⟩, by simpa using hek, hklt⟩
        · rw [hk]; push_cast; ring
        · intro j2 e2 hj2 hr2
          cases j2 with
          | zero =>
            simp only [List.getElem?_cons_zero, Option.some.injEq] at hj2
            subst hj2
            exact absurd hr2 hr
          | succ j3 =>
            simp only [List.getElem?_cons_succ] at hj2
            obtain ⟨h1, h2⟩ := hmin j3 e2 hj2 hr2
            exact ⟨h1, fun hlt2 => h2 (by omega)⟩
    · rw [if_neg hr]
      have hr0 : e.ref = 0 := by simpa using hr
      by_cases hlt : e.cache_hits < mc
      · simp only [hlt, if_true]
        obtain ⟨ih1, ih2⟩ := ih (i + 1) e.cache_hits (i : Int)
        constructor
        · intro hall
          have := hall 0 e (by simp) hr0
          omega
        · intro _
          by_cases hbetter : ∃ (j : Nat) (e' : BlockCachedTable), rest[j]? = some e' ∧ e'.ref = 0 ∧ e'.cache_hits < e.cache_hits
          · obtain ⟨k, ek, hk, ⟨em, hem, hemr, hmin⟩, hek, hklt⟩ := ih2 hbetter
            have hemek : em = ek := by
              rw [hem] at hek; exact Option.some.inj hek
            refine ⟨k + 1, ek, ?_, ⟨em, by simpa using hem, hemr, ?_⟩, by simpa using hek, by omega⟩
            · rw [hk]; push_cast; ring
            · intro j2 e2 hj2 hr2
              cases j2 with
              | zero =>
                simp only [List.getElem?_cons_zero, Option.some.injEq] at hj2
                subst hj2
                rw [hemek]
                exact ⟨by omega, fun _ => hklt⟩
              | succ j3 =>
                simp only [List.getElem?_cons_succ] at hj2
                obtain ⟨h1, h2⟩ := hmin j3 e2 hj2 hr2
                exact ⟨h1, fun hlt2 => h2 (by omega)⟩
          · have hall : ∀ (j : Nat) (e' : BlockCachedTable), rest[j]? = some e' → e'.ref = 0 → e.cache_hits ≤ e'.cache_hits := by
              intro j e' hj hr'
              by_contra hcon
              exact hbetter ⟨j, e', hj, hr', by omega⟩
            refine ⟨0, e, ?_, ⟨e, by simp, hr0, ?_⟩, by simp, hlt⟩
            · rw [ih1 hall]; simp
            · intro j2 e2 hj2 hr2
              cases j2 with
              | zero =>
                simp only [List.getElem?_cons_zero, Option.some.injEq] at hj2
                subst hj2
                exact ⟨le_refl _, fun h => absurd h (by omega)⟩
              | succ j3 =>
                simp only [List.getElem?_cons_succ] at hj2
                exact ⟨hall j3 e2 hj2 hr2, fun h => absurd h (by omega)⟩
      · simp only [hlt, if_false]
        obtain ⟨ih1, ih2⟩ := ih (i + 1) mc mi
        constructor
        · intro hall
          apply ih1
          intro j e' hj hr'
          exact hall (j + 1) e' (by simpa using hj) hr'
        · rintro ⟨j, e', hj, hr', hlt'⟩
          have hj0 : j ≠ 0 := by
            rintro rfl
            simp only [List.getElem?_cons_zero, Option.some.injEq] at hj
            subst hj
            exact hlt hlt'
          obtain ⟨j', rfl⟩ := Nat.exists_eq_succ_of_ne_zero hj0
          simp only [Nat.succ_eq_add_one, List.getElem?_cons_succ] at hj
          obtain ⟨k, ek, hk, ⟨em, hem, hemr, hmin⟩, hek, hklt⟩ := ih2 ⟨j', e', hj, hr', hlt'⟩
          have hemek : em = ek := by
            rw [hem] at hek; exact Option.some.inj hek
          refine ⟨k + 1, ek, ?_, ⟨em, by simpa using hem, hemr, ?_⟩, by simpa using hek, hklt⟩
          · rw [hk]; push_cast; ring
          · intro j2 e2 hj2 hr2
            cases j2 with
            | zero =>
              simp only [List.getElem?_cons_zero, Option.some.injEq] at hj2
              subst hj2
              rw [hemek]
              exact ⟨by omega, fun _ => by omega⟩
            | succ j3 =>
              simp only [List.getElem?_cons_succ] at hj2
              obtain ⟨h1, h2⟩ := hmin j3 e2 hj2 hr2
              exact ⟨h1, fun hlt2 => h2 (by omega)⟩

/-- The scan returns the first least-used unpinned slot and ages the unpinned
slots, whenever some unpinned slot has a hit counter below `INT_MAX`. -/
theorem find_entry_to_replace_spec (cache : BlockCache)
    (h : ∃ (j : Nat) (e : BlockCachedTable), cache.entries[j]? = some e ∧ e.ref = 0 ∧ e.cache_hits < INT_MAX) :
    ∃ m : Nat, block_cache_find_entry_to_replace cache
        = .ok ((m : Int), { cache with entries := cache.entries.map aged }) ∧
      first_min_unpinned cache.entries m := by
  obtain ⟨k, ek, hk, hmin, _, _⟩ := (find_entry_loop_index cache.entries 0 INT_MAX (-1)).2 h
  have hents := find_entry_loop_entries cache.entries 0 INT_MAX (-1)
  refine ⟨k, ?_, hmin⟩
  unfold block_cache_find_entry_to_replace
  cases hl : find_entry_loop cache.entries 0 INT_MAX (-1) with
  | mk m es1 =>
    rw [hl] at hk hents
    simp only at hk hents
    simp only [Nat.zero_add] at hk
    subst hk
    subst hents
    have : ¬ ((k : Int) = -1) := by omega
    simp [this]

/-- The scan finds no victim when every unpinned slot has its hit counter at
`INT_MAX` or above: `min_index` is still -1 after the loop and the `abort()`
is reached. -/
theorem find_entry_to_replace_abort (cache : BlockCache)
    (h : ∀ (j : Nat) (e : BlockCachedTable), cache.entries[j]? = some e → e.ref = 0 →
      INT_MAX ≤ e.cache_hits) :
    block_cache_find_entry_to_replace cache = .error .aborted := by
  have hi := (find_entry_loop_index cache.entries 0 INT_MAX (-1)).1 h
  unfold block_cache_find_entry_to_replace
  cases hl : find_entry_loop cache.entries 0 INT_MAX (-1) with
  | mk m es1 =>
    rw [hl] at hi
    simp only at hi
    subst hi
    simp

/-! ### The abort of the eviction scan -/

theorem c6_world_first : ReachableBy borrow_ops (c6_world 33) := by
  have h0 := (ReachableBy.initial [] : ReachableBy borrow_ops (World.initial []))
  have h1 := ReachableBy.step (.create 1 1 .BLOCK_TABLE_L2) _ _ h0 trivial rfl
  have h2 := ReachableBy.step (.get_empty 1 0 0 5) _
    (world_after (block_cache_get_empty 1 0 0 5 (block_cache_create 1 1 .BLOCK_TABLE_L2
      (World.initial [])).2) (World.initial [])) h1 trivial (by decide)
  have h3 := ReachableBy.step (.put 0 1) _ (c6_world 33) h2 trivial (by decide)
  exact h3

theorem c6_world_hit (k : Int) (h1 : INT_MIN ≤ k) (h2 : k < INT_MAX)
    (h : ReachableBy borrow_ops (c6_world k)) : ReachableBy borrow_ops (c6_world (k + 1)) := by
  have hw : wrap_int (k + 1) = k + 1 := by
    unfold wrap_int; unfold INT_MIN at h1; unfold INT_MAX at h2; omega
  have hr : wrap_int 1 = 1 := by decide
  have hp : wrap_int 0 = 0 := by decide
  have hg : exec (.get 1 0 0 5) (c6_world k) = .ok
      { caches := [c6_cache (k + 1) 1], disk := [], log := [], script := [], brk := 1 } := by
    simp [exec, block_cache_get, block_cache_do_get, c6_world, c6_cache, find_offset,
      do_get_found, World.set_cache, BlockCache.set_entry, hw, hr, Except.map]
  have h3 := ReachableBy.step (.get 1 0 0 5) _ _ h trivial hg
  refine ReachableBy.step (.put 0 1) _ _ h3 trivial ?_
  simp [exec, block_cache_put, c6_world, c6_cache, find_table, World.set_cache,
    BlockCache.set_entry, Except.map, hp]

theorem c6_world_reachable (n : Nat) (h : 33 + (n : Int) ≤ INT_MAX) :
    ReachableBy borrow_ops (c6_world (33 + (n : Int))) := by
  induction n with
  | zero => simpa using c6_world_first
  | succ m ih =>
    have hm : 33 + (m : Int) ≤ INT_MAX := by push_cast at h; omega
    have := c6_world_hit (33 + (m : Int)) (by unfold INT_MIN; omega)
      (by push_cast at h; omega) (ih hm)
    have he : (33 : Int) + ((m + 1 : Nat) : Int) = 33 + (m : Int) + 1 := by push_cast; ring
    rw [he]
    exact this

/-- C6 (code defect): a world reached by create, get_empty(5), put and then
2147483614 rounds of get(5), put has a cache of capacity 1 whose only slot is
not borrowed; the get of offset 6, a miss, reaches `abort()` there. -/
theorem C6_abort_with_unpinned_slot :
    ReachableBy borrow_ops (c6_world INT_MAX) ∧
    (∀ cache, (c6_world INT_MAX).caches[0]? = some cache →
      cache.size = 1 ∧ (∀ e ∈ cache.entries, e.ref = 0) ∧
      find_offset cache.entries 6 0 = none) ∧
    block_cache_get 1 0 0 6 (c6_world INT_MAX) = .error .aborted ∧
    block_cache_get_empty 1 0 0 6 (c6_world INT_MAX) = .error .aborted := by
  refine ⟨?_, ?_, by decide, by decide⟩
  · have := c6_world_reachable 2147483614 (by unfold INT_MAX; norm_num)
    have he : (33 : Int) + ((2147483614 : Nat) : Int) = INT_MAX := by unfold INT_MAX; norm_num
    rw [he] at this
    exact this
  · intro cache hc
    have : cache = c6_cache INT_MAX 0 := by
      simp [c6_world] at hc
      exact hc.symm
    subst this
    refine ⟨rfl, ?_, by decide⟩
    intro e he
    simp [c6_cache] at he
    subst he
    rfl

/-! ### The victim of the eviction scan -/

/-- C5 (code defect): what `block_cache_find_entry_to_replace` does in every
cache state. With an unpinned slot whose hit counter is below `INT_MAX`, the
scan returns the lowest index among the unpinned slots with the least hit
counter; afterwards every unpinned slot has its hit counter divided by 2 with C
integer division (rounded toward zero, which is rounding down for the counters
that are not negative) and nothing else is changed. When every unpinned slot has
its hit counter at `INT_MAX`, the scan has no victim and reaches `abort()`,
whether or not there is an unpinned slot. -/
theorem C5_victim_selection (cache : BlockCache) :
    ((∃ (j : Nat) (e : BlockCachedTable), cache.entries[j]? = some e ∧ e.ref = 0 ∧
        e.cache_hits < INT_MAX) →
      ∃ m : Nat,
        block_cache_find_entry_to_replace cache
          = .ok ((m : Int), { cache with entries := cache.entries.map aged }) ∧
        first_min_unpinned cache.entries m ∧
        (∀ (i : Nat) (e : BlockCachedTable), cache.entries[i]? = some e →
          (cache.entries.map aged)[i]? = some (aged e) ∧
          (e.ref ≠ 0 → aged e = e) ∧
          (e.ref = 0 → aged e = { e with cache_hits := Int.tdiv e.cache_hits 2 }) ∧
          (e.ref = 0 → 0 ≤ e.cache_hits → (aged e).cache_hits = e.cache_hits / 2))) ∧
    ((∀ (j : Nat) (e : BlockCachedTable), cache.entries[j]? = some e → e.ref = 0 →
        INT_MAX ≤ e.cache_hits) →
      block_cache_find_entry_to_replace cache = .error .aborted) := by
  refine ⟨?_, find_entry_to_replace_abort cache⟩
  intro h
  obtain ⟨m, hm, hmin⟩ := find_entry_to_replace_spec cache h
  refine ⟨m, hm, hmin, ?_⟩
  intro i e hi
  refine ⟨by simp [hi], ?_, ?_, ?_⟩
  · intro hr; simp [aged, hr]
  · intro hr; simp [aged, hr]
  · intro hr h0
    simp only [aged, hr, ne_eq, not_true_eq_false, if_false]
    exact Int.tdiv_eq_ediv h0 (by decide)

/-- C5 at its failing input and at a state without defect. The world
`c6_world INT_MAX` is reached by create, get_empty(5), put and 2147483614
rounds of get(5), put; the only slot of its cache is unpinned with hit counter
`INT_MAX`, and the scan reaches `abort()`. In `c5_cache` slot 0 is pinned,
slots 2 and 3 share the least counter 4, and slot 2 is returned. An unpinned
slot with the hit counter -3 is aged to -1, while -3 divided by 2 rounded down
is -2. -/
theorem C5_victim_selection_witness :
    (ReachableBy borrow_ops (c6_world INT_MAX) ∧
      (c6_world INT_MAX).caches[0]? = some (c6_cache INT_MAX 0) ∧
      (∃ e ∈ (c6_cache INT_MAX 0).entries, e.ref = 0) ∧
      block_cache_find_entry_to_replace (c6_cache INT_MAX 0) = .error .aborted) ∧
    ((∃ (j : Nat) (e : BlockCachedTable), c5_cache.entries[j]? = some e ∧ e.ref = 0 ∧
        e.cache_hits < INT_MAX) ∧
      ∃ m : Nat,
        block_cache_find_entry_to_replace c5_cache
          = .ok ((m : Int), { c5_cache with entries := c5_cache.entries.map aged }) ∧
        first_min_unpinned c5_cache.entries m ∧
        (∀ (i : Nat) (e : BlockCachedTable), c5_cache.entries[i]? = some e →
          (c5_cache.entries.map aged)[i]? = some (aged e) ∧
          (e.ref ≠ 0 → aged e = e) ∧
          (e.ref = 0 → aged e = { e with cache_hits := Int.tdiv e.cache_hits 2 }) ∧
          (e.ref = 0 → 0 ≤ e.cache_hits → (aged e).cache_hits = e.cache_hits / 2))) ∧
    ((block_cache_find_entry_to_replace c5_cache_neg).toOption.map
        (fun p => p.2.entries.map (fun e => e.cache_hits)) = some [-1] ∧
      (-3 : Int) / 2 = -2) := by
  refine ⟨⟨?_, rfl, ⟨_, List.mem_singleton.mpr rfl, rfl⟩, ?_⟩,
    ⟨⟨1, _, rfl, rfl, by decide⟩, (C5_victim_selection c5_cache).1 ⟨1, _, rfl, rfl, by decide⟩⟩,
    by decide, by decide⟩
  · have := c6_world_reachable 2147483614 (by unfold INT_MAX; norm_num)
    have he : (33 : Int) + ((2147483614 : Nat) : Int) = INT_MAX := by unfold INT_MAX; norm_num
    rw [he] at this
    exact this
  · apply (C5_victim_selection (c6_cache INT_MAX 0)).2
    intro j e he _
    cases j with
    | zero =>
      simp only [c6_cache, List.getElem?_cons_zero, Option.some.injEq] at he
      subst he
      exact le_refl _
    | succ k => simp [c6_cache] at he

/-! ### Unfolding `block_cache_entry_flush` case by case -/

theorem caches_set_cache (w : World) (c : Nat) (x : BlockCache) :
    (w.set_cache c x).caches = w.caches.set c x := rfl

theorem getElem?_set_cache_self (w : World) (c : Nat) (x cache : BlockCache)
    (h : w.caches[c]? = some cache) : (w.set_cache c x).caches[c]? = some x := by
  have hlt : c < w.caches.length := by
    by_contra hcon
    rw [List.getElem?_eq_none (by omega)] at h
    exact Option.noConfusion h
  simp [caches_set_cache, List.getElem?_set, hlt]

theorem getElem?_set_cache_ne (w : World) (c y : Nat) (x : BlockCache) (h : c ≠ y) :
    (w.set_cache c x).caches[y]? = w.caches[y]? := by
  simp [caches_set_cache, List.getElem?_set, h]

theorem entry_flush_write_eq (bs c i : Nat) (w : World) (cache : BlockCache)
    (e : BlockCachedTable) (hc : w.caches[c]? = some cache) (he : cache.entries[i]? = some e) :
    entry_flush_write bs c i w =
      if w.script.headD 0 < 0 then
        .ok (w.script.headD 0, (bdrv_pwrite bs e.offset e.data cache.table_size w).2)
      else
        .ok (0, (bdrv_pwrite bs e.offset e.data cache.table_size w).2.set_cache c
          (cache.set_entry i { e with dirty := false })) := by
  simp only [entry_flush_write, hc, he, bdrv_pwrite]

theorem entry_flush_skip (fl : Nat → Nat → World → Res Int) (bs c i : Nat) (w : World)
    (cache : BlockCache) (e : BlockCachedTable) (hc : w.caches[c]? = some cache)
    (he : cache.entries[i]? = some e) (hd : e.dirty = false ∨ e.offset = 0) :
    block_cache_entry_flush fl bs c i w = .ok (0, w) := by
  simp only [block_cache_entry_flush, hc, he, hd, if_true]

theorem entry_flush_dep (fl : Nat → Nat → World → Res Int) (bs c i d : Nat) (w : World)
    (cache : BlockCache) (e : BlockCachedTable) (hc : w.caches[c]? = some cache)
    (he : cache.entries[i]? = some e) (hd : e.dirty = true) (ho : e.offset ≠ 0)
    (hdep : cache.depends = some d) :
    block_cache_entry_flush fl bs c i w =
      match fl bs d w with
      | .error f => .error f
      | .ok (ret, w1) =>
        if ret < 0 then .ok (ret, w1)
        else
          match w1.caches[c]? with
          | none => .error .bad_access
          | some cache1 =>
            entry_flush_write bs c i
              (w1.set_cache c { cache1 with depends := none, depends_on_flush := false }) := by
  simp only [block_cache_entry_flush, hc, he, hd, ho, hdep, block_cache_flush_dependency,
    Option.isSome_some, if_true, or_self, if_false, Bool.true_eq_false]
  cases hfl : fl bs d w with
  | error f => rfl
  | ok p =>
    obtain ⟨ret, w1⟩ := p
    simp only
    by_cases hr : ret < 0
    · simp only [hr, if_true]
    · simp only [hr, if_false]
      cases hc1 : w1.caches[c]? with
      | none => rfl
      | some cache1 => simp

theorem entry_flush_sync (fl : Nat → Nat → World → Res Int) (bs c i : Nat) (w : World)
    (cache : BlockCache) (e : BlockCachedTable) (hc : w.caches[c]? = some cache)
    (he : cache.entries[i]? = some e) (hd : e.dirty = true) (ho : e.offset ≠ 0)
    (hdep : cache.depends = none) (hf : cache.depends_on_flush = true) :
    block_cache_entry_flush fl bs c i w =
      if w.script.headD 0 < 0 then .ok (w.script.headD 0, (bdrv_flush bs w).2)
      else entry_flush_write bs c i
        ((bdrv_flush bs w).2.set_cache c { cache with depends_on_flush := false }) := by
  simp only [block_cache_entry_flush, hc, he, hd, ho, hdep, hf, bdrv_flush,
    Option.isSome_none, if_true, or_self, if_false, Bool.true_eq_false, Bool.false_eq_true]
  by_cases hr : w.script.headD 0 < 0
  · have : ¬ (0 ≤ w.script.headD 0) := by omega
    simp only [hr, this, if_true, if_false]
  · have : 0 ≤ w.script.headD 0 := by omega
    simp only [hr, this, if_true, if_false]

theorem entry_flush_plain (fl : Nat → Nat → World → Res Int) (bs c i : Nat) (w : World)
    (cache : BlockCache) (e : BlockCachedTable) (hc : w.caches[c]? = some cache)
    (he : cache.entries[i]? = some e) (hd : e.dirty = true) (ho : e.offset ≠ 0)
    (hdep : cache.depends = none) (hf : cache.depends_on_flush = false) :
    block_cache_entry_flush fl bs c i w = entry_flush_write bs c i w := by
  simp only [block_cache_entry_flush, hc, he, hd, ho, hdep, hf,
    Option.isSome_none, if_true, or_self, if_false, Bool.true_eq_false, Bool.false_eq_true]
  simp

/-! ### The order `world_le` -/

theorem slot_le_refl (e : BlockCachedTable) : slot_le e e := Or.inl rfl

theorem slot_le_trans {e2 e1 e : BlockCachedTable} (h21 : slot_le e2 e1) (h10 : slot_le e1 e) :
    slot_le e2 e := by
  rcases h21 with rfl | rfl
  · exact h10
  · rcases h10 with rfl | rfl
    · exact Or.inr rfl
    · exact Or.inr rfl

theorem slot_le_dirty {e1 e : BlockCachedTable} (h : slot_le e1 e) (hd : e1.dirty = true) :
    e1 = e := by
  rcases h with rfl | rfl
  · rfl
  · simp at hd

theorem cache_le_refl (c : BlockCache) : cache_le c c :=
  ⟨rfl, fun _ e he => ⟨e, he, slot_le_refl e⟩, Or.inl rfl, Or.inl rfl, rfl, rfl⟩

theorem cache_le_trans {c2 c1 c : BlockCache} (h21 : cache_le c2 c1) (h10 : cache_le c1 c) :
    cache_le c2 c := by
  refine ⟨h21.len.trans h10.len, ?_, ?_, ?_, h21.table_size.trans h10.table_size,
    h21.table_type.trans h10.table_type⟩
  · intro i e he
    obtain ⟨e1, he1, hle1⟩ := h10.slots i e he
    obtain ⟨e2, he2, hle2⟩ := h21.slots i e1 he1
    exact ⟨e2, he2, slot_le_trans hle2 hle1⟩
  · rcases h21.depends with h | h
    · rcases h10.depends with h' | h'
      · exact Or.inl (h.trans h')
      · exact Or.inr (h.trans h')
    · exact Or.inr h
  · rcases h21.on_flush with h | h
    · rcases h10.on_flush with h' | h'
      · exact Or.inl (h.trans h')
      · exact Or.inr (h.trans h')
    · exact Or.inr h

theorem getElem?_some_lt {α : Type} {l : List α} {i : Nat} {a : α} (h : l[i]? = some a) :
    i < l.length := by
  by_contra hcon
  rw [List.getElem?_eq_none (by omega)] at h
  exact Option.noConfusion h

theorem cache_le_slot_back {c1 c : BlockCache} (h : cache_le c1 c) {i : Nat}
    {e1 : BlockCachedTable} (he1 : c1.entries[i]? = some e1) :
    ∃ e, c.entries[i]? = some e ∧ slot_le e1 e := by
  have hlt : i < c.entries.length := by rw [← h.len]; exact getElem?_some_lt he1
  obtain ⟨e1', he1', hle⟩ := h.slots i (c.entries[i]) (List.getElem?_eq_getElem hlt)
  rw [he1] at he1'
  cases he1'
  exact ⟨_, List.getElem?_eq_getElem hlt, hle⟩

theorem world_le_cache_back {bs : Nat} {w1 w : World} (h : world_le bs w1 w) {c : Nat}
    {cache1 : BlockCache} (hc1 : w1.caches[c]? = some cache1) :
    ∃ cache, w.caches[c]? = some cache ∧ cache_le cache1 cache := by
  have hlt : c < w.caches.length := by rw [← h.len]; exact getElem?_some_lt hc1
  obtain ⟨c1', hc1', hle⟩ := h.caches c (w.caches[c]) (List.getElem?_eq_getElem hlt)
  rw [hc1] at hc1'
  cases hc1'
  exact ⟨_, List.getElem?_eq_getElem hlt, hle⟩

theorem has_dirty_mono {bs : Nat} {w1 w : World} (h : world_le bs w1 w) {c : Nat}
    (hd : has_dirty w1 c) : has_dirty w c := by
  obtain ⟨cache1, i, e1, hc1, he1, hdirty, hoff⟩ := hd
  obtain ⟨cache, hc, hle⟩ := world_le_cache_back h hc1
  obtain ⟨e, he, hsl⟩ := cache_le_slot_back hle he1
  have := slot_le_dirty hsl hdirty
  subst this
  exact ⟨cache, i, e1, hc, he, hdirty, hoff⟩

theorem world_le_refl (bs : Nat) (w : World) : world_le bs w w := by
  refine ⟨rfl, rfl, fun _ cache hc => ⟨cache, hc, cache_le_refl cache⟩, ⟨[], by simp, ?_⟩,
    fun h => h, ?_⟩
  · intro c cache cache1 i e e1 hc hc1 he he1 hd hd1
    rw [hc] at hc1
    cases hc1
    rw [he] at he1
    cases he1
    rw [hd] at hd1
    exact Bool.noConfusion hd1
  · intro y cy cy1 b hy hy1 hd hd1
    rw [hy] at hy1
    cases hy1
    rw [hd] at hd1
    exact Option.noConfusion hd1

theorem world_le_trans {bs : Nat} {w2 w1 w : World} (h21 : world_le bs w2 w1)
    (h10 : world_le bs w1 w) : world_le bs w2 w := by
  obtain ⟨evs1, hlog1, hw1⟩ := h10.log
  obtain ⟨evs2, hlog2, hw2⟩ := h21.log
  refine ⟨h21.len.trans h10.len, h21.brk.trans h10.brk, ?_, ⟨evs1 ++ evs2, ?_, ?_⟩,
    fun h => h21.script (h10.script h), ?_⟩
  rotate_left 3
  · intro y cy cy2 b hy hy2 hd hd2
    obtain ⟨cy1, hy1, hle1⟩ := h10.caches y cy hy
    rcases hle1.depends with h | h
    · exact h21.cleared y cy1 cy2 b hy1 hy2 (h.trans hd) hd2
    · intro hdirty
      exact h10.cleared y cy cy1 b hy hy1 hd h (has_dirty_mono h21 hdirty)
  · intro c cache hc
    obtain ⟨cache1, hc1, hle1⟩ := h10.caches c cache hc
    obtain ⟨cache2, hc2, hle2⟩ := h21.caches c cache1 hc1
    exact ⟨cache2, hc2, cache_le_trans hle2 hle1⟩
  · rw [hlog2, hlog1, List.append_assoc]
  · intro c cache cache2 i e e2 hc hc2 he he2 hd hd2
    obtain ⟨cache1, hc1, hle1⟩ := h10.caches c cache hc
    obtain ⟨e1, he1, hsl1⟩ := hle1.slots i e he
    by_cases hd1 : e1.dirty = true
    · have h1e : e1 = e := slot_le_dirty hsl1 hd1
      subst h1e
      obtain ⟨r, hr, hmem⟩ := hw2 c cache1 cache2 i e1 e2 hc1 hc2 he1 he2 hd hd2
      rw [hle1.table_size] at hmem
      exact ⟨r, hr, List.mem_append_right _ hmem⟩
    · have hd1' : e1.dirty = false := by simpa using hd1
      obtain ⟨r, hr, hmem⟩ := hw1 c cache cache1 i e e1 hc hc1 he he1 hd hd1'
      exact ⟨r, hr, List.mem_append_left _ hmem⟩

/-- A step that keeps every slot, appends to the log and replaces a cache by a
smaller one with the same slots. -/
theorem world_le_of_same_slots (bs : Nat) (w1 w : World) (c : Nat) (cache x : BlockCache)
    (hc : w.caches[c]? = some cache) (hcaches : w1.caches = w.caches.set c x)
    (hx : cache_le x cache) (hents : x.entries = cache.entries) (hbrk : w1.brk = w.brk)
    (hlog : ∃ evs, w1.log = w.log ++ evs) (hscript : w.script = [] → w1.script = [])
    (hq : ∀ b, cache.depends = some b → x.depends = none → ¬ has_dirty w1 b) :
    world_le bs w1 w := by
  have hlt : c < w.caches.length := by
    by_contra hcon
    rw [List.getElem?_eq_none (by omega)] at hc
    exact Option.noConfusion hc
  obtain ⟨evs, hevs⟩ := hlog
  refine ⟨by rw [hcaches, List.length_set], hbrk, ?_, ⟨evs, hevs, ?_⟩, hscript, ?_⟩
  rotate_left 2
  · intro y cy cy1 b hy hy1 hd hd1
    by_cases hyc : c = y
    · subst hyc
      rw [hc] at hy
      cases hy
      rw [hcaches] at hy1
      simp only [List.getElem?_set, hlt, if_true, Option.some.injEq] at hy1
      subst hy1
      exact hq b hd hd1
    · rw [hcaches, List.getElem?_set_ne hyc, hy] at hy1
      cases hy1
      rw [hd] at hd1
      exact Option.noConfusion hd1
  · intro y cy hy
    by_cases hyc : c = y
    · subst hyc
      rw [hc] at hy
      cases hy
      exact ⟨x, by rw [hcaches]; simp [List.getElem?_set, hlt], hx⟩
    · exact ⟨cy, by rw [hcaches, List.getElem?_set_ne hyc]; exact hy, cache_le_refl cy⟩
  · intro y cy cy1 i e e1 hy hy1 he he1 hd hd1
    exfalso
    by_cases hyc : c = y
    · subst hyc
      rw [hc] at hy
      cases hy
      rw [hcaches] at hy1
      simp only [List.getElem?_set, hlt, if_true, Option.some.injEq] at hy1
      subst hy1
      rw [hents, he] at he1
      cases he1
      rw [hd] at hd1
      exact Bool.noConfusion hd1
    · rw [hcaches, List.getElem?_set_ne hyc, hy] at hy1
      cases hy1
      rw [he] at he1
      cases he1
      rw [hd] at hd1
      exact Bool.noConfusion hd1

/-- A step that changes no cache. -/
theorem world_le_of_same_caches (bs : Nat) (w1 w : World) (hcaches : w1.caches = w.caches)
    (hbrk : w1.brk = w.brk) (hlog : ∃ evs, w1.log = w.log ++ evs)
    (hscript : w.script = [] → w1.script = []) : world_le bs w1 w := by
  obtain ⟨evs, hevs⟩ := hlog
  refine ⟨by rw [hcaches], hbrk, ?_, ⟨evs, hevs, ?_⟩, hscript, ?_⟩
  rotate_left 2
  · intro y cy cy1 b hy hy1 hd hd1
    rw [hcaches, hy] at hy1
    cases hy1
    rw [hd] at hd1
    exact Option.noConfusion hd1
  · intro y cy hy
    exact ⟨cy, by rw [hcaches]; exact hy, cache_le_refl cy⟩
  · intro y cy cy1 i e e1 hy hy1 he he1 hd hd1
    exfalso
    rw [hcaches, hy] at hy1
    cases hy1
    rw [he] at he1
    cases he1
    rw [hd] at hd1
    exact Bool.noConfusion hd1

theorem tail_nil_of_nil {α : Type} (l : List α) (h : l = []) : l.tail = [] := by
  subst h; rfl

theorem world_le_bdrv_flush (bs : Nat) (w : World) : world_le bs (bdrv_flush bs w).2 w :=
  world_le_of_same_caches bs _ w rfl rfl ⟨_, rfl⟩ (tail_nil_of_nil _)

theorem world_le_bdrv_pwrite (bs offset : Nat) (buf : List Nat) (count : Nat) (w : World) :
    world_le bs (bdrv_pwrite bs offset buf count w).2 w :=
  world_le_of_same_caches bs _ w rfl rfl ⟨_, rfl⟩ (tail_nil_of_nil _)

/-- The successful end of `block_cache_entry_flush`: the table is written and
the slot cleaned. -/
theorem world_le_write_clean (bs c i : Nat) (w : World) (cache : BlockCache)
    (e : BlockCachedTable) (hc : w.caches[c]? = some cache) (he : cache.entries[i]? = some e)
    (hs : ¬ w.script.headD 0 < 0) :
    world_le bs ((bdrv_pwrite bs e.offset e.data cache.table_size w).2.set_cache c
      (cache.set_entry i { e with dirty := false })) w := by
  have hlt : c < w.caches.length := by
    by_contra hcon
    rw [List.getElem?_eq_none (by omega)] at hc
    exact Option.noConfusion hc
  have hilt : i < cache.entries.length := by
    by_contra hcon
    rw [List.getElem?_eq_none (by omega)] at he
    exact Option.noConfusion he
  refine ⟨by simp [caches_set_cache, bdrv_pwrite], rfl, ?_,
    ⟨[BdrvCall.pwrite bs e.offset (e.data.take cache.table_size) (w.script.headD 0)], rfl, ?_⟩,
    tail_nil_of_nil _, ?_⟩
  rotate_left 2
  · intro y cy cy1 b hy hy1 hd hd1
    by_cases hyc : c = y
    · subst hyc
      rw [hc] at hy
      cases hy
      simp only [caches_set_cache, bdrv_pwrite, List.getElem?_set, hlt, if_true,
        Option.some.injEq] at hy1
      subst hy1
      simp only [BlockCache.set_entry] at hd1
      rw [hd] at hd1
      exact Option.noConfusion hd1
    · simp only [caches_set_cache, bdrv_pwrite, List.getElem?_set_ne hyc] at hy1
      rw [hy] at hy1
      cases hy1
      rw [hd] at hd1
      exact Option.noConfusion hd1
  · intro y cy hy
    by_cases hyc : c = y
    · subst hyc
      rw [hc] at hy
      cases hy
      refine ⟨cache.set_entry i { e with dirty := false },
        by simp [caches_set_cache, bdrv_pwrite, List.getElem?_set, hlt], ?_⟩
      refine ⟨by simp [BlockCache.set_entry], ?_, Or.inl rfl, Or.inl rfl, rfl, rfl⟩
      intro j ej hj
      by_cases hji : i = j
      · subst hji
        rw [he] at hj
        cases hj
        exact ⟨_, by simp [BlockCache.set_entry, List.getElem?_set, hilt], Or.inr rfl⟩
      · exact ⟨ej, by simp [BlockCache.set_entry, List.getElem?_set_ne hji, hj], Or.inl rfl⟩
    · exact ⟨cy, by simp [caches_set_cache, bdrv_pwrite, List.getElem?_set_ne hyc, hy],
        cache_le_refl cy⟩
  · intro y cy cy1 j ej ej1 hy hy1 hj hj1 hd hd1
    by_cases hyc : c = y
    · subst hyc
      rw [hc] at hy
      cases hy
      simp only [caches_set_cache, bdrv_pwrite, List.getElem?_set, hlt, if_true,
        Option.some.injEq] at hy1
      subst hy1
      by_cases hji : i = j
      · subst hji
        rw [he] at hj
        cases hj
        exact ⟨w.script.headD 0, by omega, List.mem_singleton.mpr rfl⟩
      · exfalso
        simp only [BlockCache.set_entry, List.getElem?_set_ne hji] at hj1
        rw [hj] at hj1
        cases hj1
        rw [hd] at hd1
        exact Bool.noConfusion hd1
    · exfalso
      simp only [caches_set_cache, bdrv_pwrite, List.getElem?_set_ne hyc] at hy1
      rw [hy] at hy1
      cases hy1
      rw [hj] at hj1
      cases hj1
      rw [hd] at hd1
      exact Bool.noConfusion hd1

theorem dep_mono {bs : Nat} {w1 w : World} (h : world_le bs w1 w) {c d : Nat}
    (hd : dep w1 c = some d) : dep w c = some d := by
  unfold dep at hd ⊢
  cases hc1 : w1.caches[c]? with
  | none => simp [hc1] at hd
  | some cache1 =>
    obtain ⟨cache, hc, hle⟩ := world_le_cache_back h hc1
    simp only [hc1] at hd
    simp only [hc]
    rcases hle.depends with h' | h'
    · rw [← h']; exact hd
    · rw [h'] at hd; exact Option.noConfusion hd

theorem BusyPath_mono {bs : Nat} {w1 w : World} (h : world_le bs w1 w) {x y : Nat}
    (hp : BusyPath w1 x y) : BusyPath w x y := by
  induction hp with
  | here x hd => exact BusyPath.here x (has_dirty_mono h hd)
  | next x d y hd hdep _ ih => exact BusyPath.next x d y (has_dirty_mono h hd) (dep_mono h hdep) ih

theorem slot_clean_mono {bs : Nat} {w1 w : World} (h : world_le bs w1 w) {c i : Nat}
    (hcl : slot_clean w c i) : slot_clean w1 c i := by
  intro cache1 e1 hc1 he1
  obtain ⟨cache, hc, hle⟩ := world_le_cache_back h hc1
  obtain ⟨e, he, hsl⟩ := cache_le_slot_back hle he1
  rcases hsl with rfl | rfl
  · exact hcl cache e1 hc he
  · exact Or.inl rfl

/-- The write at the end of `block_cache_entry_flush`. -/
theorem entry_flush_write_spec (bs c i : Nat) (w : World) (r : Int) (w1 : World)
    (h : entry_flush_write bs c i w = .ok (r, w1)) :
    world_le bs w1 w ∧ (∀ y, c ≠ y → w1.caches[y]? = w.caches[y]?) ∧
    (w.script = [] → r = 0) ∧ r ≤ 0 ∧ (0 ≤ r → slot_clean w1 c i) := by
  cases hc : w.caches[c]? with
  | none => simp [entry_flush_write, hc] at h
  | some cache =>
    cases he : cache.entries[i]? with
    | none => simp [entry_flush_write, hc, he] at h
    | some e =>
      rw [entry_flush_write_eq bs c i w cache e hc he] at h
      by_cases hs : w.script.headD 0 < 0
      · simp only [hs, if_true, Except.ok.injEq, Prod.mk.injEq] at h
        obtain ⟨hr, hw⟩ := h
        subst hw
        subst hr
        refine ⟨world_le_bdrv_pwrite _ _ _ _ _, fun y _ => rfl, ?_, by omega, by omega⟩
        intro hnil
        rw [hnil] at hs
        simp at hs
      · simp only [hs, if_false, Except.ok.injEq, Prod.mk.injEq] at h
        obtain ⟨hr, hw⟩ := h
        subst hw
        subst hr
        refine ⟨world_le_write_clean bs c i w cache e hc he hs, ?_, fun _ => rfl, le_refl _, ?_⟩
        · intro y hy
          simp [caches_set_cache, bdrv_pwrite, List.getElem?_set_ne hy]
        · intro _ cache1 e1 hc1 he1
          have hlt := getElem?_some_lt hc
          have hilt := getElem?_some_lt he
          simp only [caches_set_cache, bdrv_pwrite, List.getElem?_set, hlt, if_true,
            Option.some.injEq] at hc1
          subst hc1
          simp only [BlockCache.set_entry, List.getElem?_set, hilt, if_true,
            Option.some.injEq] at he1
          subst he1
          exact Or.inl rfl

theorem has_dirty_of_slot {w : World} {c i : Nat} {cache : BlockCache} {e : BlockCachedTable}
    (hc : w.caches[c]? = some cache) (he : cache.entries[i]? = some e) (hd : e.dirty = true)
    (ho : e.offset ≠ 0) : has_dirty w c :=
  ⟨cache, i, e, hc, he, hd, ho⟩

theorem dep_of_cache {w : World} {c : Nat} {cache : BlockCache}
    (hc : w.caches[c]? = some cache) : dep w c = cache.depends := by
  simp [dep, hc]

/-- Clearing the obligations of a cache is a step down in `world_le`. -/
theorem has_dirty_set_cache (w : World) (c b : Nat) (cache x : BlockCache)
    (hc : w.caches[c]? = some cache) (hents : x.entries = cache.entries)
    (h : has_dirty (w.set_cache c x) b) : has_dirty w b := by
  obtain ⟨cb, i, e, hcb, he, hd, ho⟩ := h
  by_cases hbc : c = b
  · subst hbc
    rw [getElem?_set_cache_self w c x cache hc] at hcb
    cases hcb
    exact ⟨cache, i, e, hc, by rw [← hents]; exact he, hd, ho⟩
  · rw [getElem?_set_cache_ne w c b x hbc] at hcb
    exact ⟨cb, i, e, hcb, he, hd, ho⟩

theorem world_le_resolve (bs c : Nat) (w : World) (cache : BlockCache)
    (hc : w.caches[c]? = some cache) (hq : ∀ b, cache.depends = some b → ¬ has_dirty w b) :
    world_le bs (w.set_cache c { cache with depends := none, depends_on_flush := false }) w :=
  world_le_of_same_slots bs _ w c cache _ hc rfl
    ⟨rfl, fun _ e he => ⟨e, he, slot_le_refl e⟩, Or.inr rfl, Or.inr rfl, rfl, rfl⟩ rfl rfl
    ⟨[], by simp [World.set_cache]⟩ (fun h => h)
    (fun b hb _ hdirty => hq b hb (has_dirty_set_cache w c b cache
      { cache with depends := none, depends_on_flush := false } hc rfl hdirty))

theorem world_le_clear_flag (bs c : Nat) (w : World) (cache : BlockCache)
    (hc : w.caches[c]? = some cache) :
    world_le bs (w.set_cache c { cache with depends_on_flush := false }) w :=
  world_le_of_same_slots bs _ w c cache _ hc rfl
    ⟨rfl, fun _ e he => ⟨e, he, slot_le_refl e⟩, Or.inl rfl, Or.inr rfl, rfl, rfl⟩ rfl rfl
    ⟨[], by simp [World.set_cache]⟩ (fun h => h)
    (fun b hb hn => by rw [hb] at hn; exact Option.noConfusion hn)

/-- The effects of one `block_cache_entry_flush`, for a callee that meets
`flush_spec`. -/
theorem entry_flush_spec (fl : Nat → Nat → World → Res Int) (hfl : flush_spec fl)
    (bs c i : Nat) (w : World) (r : Int) (w1 : World)
    (h : block_cache_entry_flush fl bs c i w = .ok (r, w1)) :
    world_le bs w1 w ∧ (∀ y, ¬ BusyPath w c y → w1.caches[y]? = w.caches[y]?) ∧
    (w.script = [] → r = 0) ∧ r ≤ 0 ∧ (0 ≤ r → slot_clean w1 c i) := by
  cases hc : w.caches[c]? with
  | none => simp [block_cache_entry_flush, hc] at h
  | some cache =>
    cases he : cache.entries[i]? with
    | none => simp [block_cache_entry_flush, hc, he] at h
    | some e =>
      by_cases hskip : e.dirty = false ∨ e.offset = 0
      · rw [entry_flush_skip fl bs c i w cache e hc he hskip] at h
        simp only [Except.ok.injEq, Prod.mk.injEq] at h
        obtain ⟨hr, hw⟩ := h
        subst hw
        subst hr
        refine ⟨world_le_refl bs w, fun _ _ => rfl, fun _ => rfl, le_refl _, ?_⟩
        intro _ cache' e' hc' he'
        rw [hc] at hc'
        cases hc'
        rw [he] at he'
        cases he'
        exact hskip
      · have hd : e.dirty = true := by
          cases hdd : e.dirty with
          | true => rfl
          | false => exact absurd (Or.inl hdd) hskip
        have ho : e.offset ≠ 0 := fun h0 => hskip (Or.inr h0)
        have hbusy : has_dirty w c := has_dirty_of_slot hc he hd ho
        have hne : ∀ y, ¬ BusyPath w c y → c ≠ y := by
          intro y hy hcy
          subst hcy
          exact hy (BusyPath.here c hbusy)
        cases hdep : cache.depends with
        | some d =>
          rw [entry_flush_dep fl bs c i d w cache e hc he hd ho hdep] at h
          cases hfd : fl bs d w with
          | error f => simp [hfd] at h
          | ok p =>
            obtain ⟨rd, wd⟩ := p
            obtain ⟨hle, hframe, hnil, hok⟩ := hfl bs d w rd wd hfd
            have hframe' : ∀ y, ¬ BusyPath w c y → wd.caches[y]? = w.caches[y]? := by
              intro y hy
              apply hframe
              intro hdy
              exact hy (BusyPath.next c d y hbusy ((dep_of_cache hc).trans hdep) hdy)
            simp only [hfd] at h
            by_cases hrd : rd < 0
            · simp only [hrd, if_true, Except.ok.injEq, Prod.mk.injEq] at h
              obtain ⟨hr, hw⟩ := h
              subst hw
              subst hr
              refine ⟨hle, hframe', ?_, by omega, by omega⟩
              intro hs
              have := hnil hs
              omega
            · simp only [hrd, if_false] at h
              obtain ⟨cache1, hc1, hcle⟩ := hle.caches c cache hc
              simp only [hc1] at h
              have hc2 := getElem?_set_cache_self wd c
                { cache1 with depends := none, depends_on_flush := false } cache1 hc1
              obtain ⟨hwle, hwframe, hwnil, hwr, hwclean⟩ := entry_flush_write_spec bs c i _ r w1 h
              have hq : ∀ b, cache1.depends = some b → ¬ has_dirty wd b := by
                intro b hb
                have hbd : b = d := by
                  rcases hcle.depends with h' | h'
                  · rw [h', hdep] at hb
                    exact (Option.some.inj hb).symm
                  · rw [h'] at hb
                    exact Option.noConfusion hb
                rw [hbd]
                exact (hok (by omega)).2.2
              have hres := world_le_resolve bs c wd cache1 hc1 hq
              refine ⟨world_le_trans hwle (world_le_trans hres hle), ?_, ?_, hwr, hwclean⟩
              · intro y hy
                rw [hwframe y (hne y hy), getElem?_set_cache_ne _ _ _ _ (hne y hy)]
                exact hframe' y hy
              · intro hs
                exact hwnil ((world_le_trans hres hle).script hs)
        | none =>
          by_cases hf : cache.depends_on_flush = true
          · rw [entry_flush_sync fl bs c i w cache e hc he hd ho hdep hf] at h
            by_cases hs : w.script.headD 0 < 0
            · simp only [hs, if_true, Except.ok.injEq, Prod.mk.injEq] at h
              obtain ⟨hr, hw⟩ := h
              subst hw
              subst hr
              refine ⟨world_le_bdrv_flush bs w, fun _ _ => rfl, ?_, by omega, by omega⟩
              intro hnil
              rw [hnil] at hs
              simp at hs
            · simp only [hs, if_false] at h
              have hcf : (bdrv_flush bs w).2.caches[c]? = some cache := hc
              obtain ⟨hwle, hwframe, hwnil, hwr, hwclean⟩ := entry_flush_write_spec bs c i _ r w1 h
              have hres := world_le_clear_flag bs c (bdrv_flush bs w).2 cache hcf
              have hall := world_le_trans hres (world_le_bdrv_flush bs w)
              refine ⟨world_le_trans hwle hall, ?_, ?_, hwr, hwclean⟩
              · intro y hy
                rw [hwframe y (hne y hy), getElem?_set_cache_ne _ _ _ _ (hne y hy)]
                rfl
              · intro hs'
                exact hwnil (hall.script hs')
          · have hf' : cache.depends_on_flush = false := by simpa using hf
            rw [entry_flush_plain fl bs c i w cache e hc he hd ho hdep hf'] at h
            obtain ⟨hwle, hwframe, hwnil, hwr, hwclean⟩ := entry_flush_write_spec bs c i _ r w1 h
            exact ⟨hwle, fun y hy => hwframe y (hne y hy), hwnil, hwr, hwclean⟩

/-- The effects of the sweep of `block_cache_flush` over the slots `l`. -/
theorem flush_loop_spec (fl : Nat → Nat → World → Res Int) (hfl : flush_spec fl) (bs c : Nat) :
    ∀ (l : List Nat) (res : Int) (w : World) (r : Int) (w1 : World),
      flush_loop (fun i w2 => block_cache_entry_flush fl bs c i w2) l res w = .ok (r, w1) →
      world_le bs w1 w ∧ (∀ y, ¬ BusyPath w c y → w1.caches[y]? = w.caches[y]?) ∧
      (w.script = [] → r = res) ∧ (res ≤ 0 → r ≤ 0) ∧ (res < 0 → r < 0) ∧
      (r = 0 → res = 0 ∧ ∀ i ∈ l, slot_clean w1 c i) := by
  intro l
  induction l with
  | nil =>
    intro res w r w1 h
    simp only [flush_loop, Except.ok.injEq, Prod.mk.injEq] at h
    obtain ⟨hr, hw⟩ := h
    subst hw
    subst hr
    exact ⟨world_le_refl bs w, fun _ _ => rfl, fun _ => rfl, fun h => h, fun h => h,
      fun h => ⟨h, fun i hi => absurd hi (List.not_mem_nil i)⟩⟩
  | cons i rest ih =>
    intro res w r w1 h
    simp only [flush_loop] at h
    cases hef : block_cache_entry_flush fl bs c i w with
    | error f => simp [hef] at h
    | ok p =>
      obtain ⟨ret, w2⟩ := p
      simp only [hef] at h
      obtain ⟨hle, hframe, hnil, hret, hclean⟩ := entry_flush_spec fl hfl bs c i w ret w2 hef
      obtain ⟨ihle, ihframe, ihnil, ihle0, ihlt0, ihz⟩ := ih _ _ _ _ h
      refine ⟨world_le_trans ihle hle, ?_, ?_, ?_, ?_, ?_⟩
      · intro y hy
        rw [ihframe y (fun hp => hy (BusyPath_mono hle hp))]
        exact hframe y hy
      · intro hs
        have hr0 := hnil hs
        have := ihnil (hle.script hs)
        rw [this, hr0]
        simp
      · intro hres
        apply ihle0
        split
        · exact hret
        · exact hres
      · intro hres
        apply ihlt0
        split
        · rename_i hc; exact hc.1
        · exact hres
      · intro hr
        obtain ⟨hres', hrest⟩ := ihz hr
        have hcond : ¬ (ret < 0 ∧ res ≠ -ENOSPC) := by
          intro hc
          rw [if_pos hc] at hres'
          omega
        rw [if_neg hcond] at hres'
        have hret0 : 0 ≤ ret := by
          by_contra hneg
          apply hcond
          refine ⟨by omega, ?_⟩
          rw [hres']
          decide
        refine ⟨hres', ?_⟩
        intro j hj
        rcases List.mem_cons.mp hj with rfl | hj'
        · exact slot_clean_mono ihle (hclean hret0)
        · exact hrest j hj'

theorem not_has_dirty_of_clean {w : World} {c : Nat} {cache : BlockCache}
    (hc : w.caches[c]? = some cache) (h : ∀ i ∈ List.range cache.size, slot_clean w c i) :
    ¬ has_dirty w c := by
  rintro ⟨cache', i, e, hc', he, hd, ho⟩
  rw [hc] at hc'
  cases hc'
  have hlt := getElem?_some_lt he
  rcases h i (List.mem_range.mpr hlt) cache e hc he with h1 | h1
  · rw [hd] at h1; exact Bool.noConfusion h1
  · exact ho h1

/-- Every `block_cache_flush` meets `flush_spec`. -/
theorem block_cache_flush_spec : ∀ fuel : Nat, flush_spec (block_cache_flush fuel) := by
  intro fuel
  induction fuel with
  | zero =>
    intro bs x w r w1 h
    simp [block_cache_flush] at h
  | succ fuel ih =>
    intro bs x w r w1 h
    cases hc : w.caches[x]? with
    | none => simp [block_cache_flush, hc] at h
    | some cache =>
      simp only [block_cache_flush, hc] at h
      cases hl : flush_loop
          (fun i w2 => block_cache_entry_flush (block_cache_flush fuel) bs x i w2)
          (List.range cache.size) 0 w with
      | error f => simp [hl] at h
      | ok p =>
        obtain ⟨res, w2⟩ := p
        simp only [hl] at h
        obtain ⟨hle, hframe, hnil, hle0, _, hz⟩ := flush_loop_spec _ ih bs x _ _ _ _ _ hl
        by_cases hres : res = 0
        · simp only [hres, if_true, bdrv_flush] at h
          obtain ⟨_, hclean⟩ := hz hres
          obtain ⟨cache2, hc2, hcle⟩ := hle.caches x cache hc
          have hsize : cache2.size = cache.size := hcle.len
          have hnd : ¬ has_dirty w2 x := not_has_dirty_of_clean hc2 (by rw [hsize]; exact hclean)
          obtain ⟨evs, hevs, _⟩ := hle.log
          by_cases hs : w2.script.headD 0 < 0
          · simp only [hs, if_true, Except.ok.injEq, Prod.mk.injEq] at h
            obtain ⟨hr, hw⟩ := h
            subst hw
            subst hr
            refine ⟨world_le_trans (world_le_bdrv_flush bs w2) hle, hframe, ?_, ?_⟩
            · intro hs'
              rw [hle.script hs'] at hs
              simp at hs
            · intro h0
              omega
          · simp only [hs, if_false, Except.ok.injEq, Prod.mk.injEq] at h
            obtain ⟨hr, hw⟩ := h
            subst hw
            subst hr
            refine ⟨world_le_trans (world_le_bdrv_flush bs w2) hle, hframe, fun _ => rfl,
              fun _ => ⟨rfl, ⟨evs, w2.script.headD 0, ?_, by omega⟩, hnd⟩⟩
            simp [hevs]
        · simp only [hres, if_false, Except.ok.injEq, Prod.mk.injEq] at h
          obtain ⟨hr, hw⟩ := h
          subst hw
          subst hr
          have hneg := hle0 (le_refl 0)
          refine ⟨hle, hframe, hnil, ?_⟩
          intro h0
          omega

/-! ### Flushes that never return -/

theorem flush_loop_stuck (fl : Nat → Nat → World → Res Int) (bs c d : Nat) (w : World)
    (cache : BlockCache) (f : Fault) (hc : w.caches[c]? = some cache)
    (hdep : cache.depends = some d) (hfl : fl bs d w = .error f) :
    ∀ (l : List Nat) (res : Int), (∀ i ∈ l, i < cache.entries.length) →
      (∃ i ∈ l, ∃ e, cache.entries[i]? = some e ∧ e.dirty = true ∧ e.offset ≠ 0) →
      flush_loop (fun i w2 => block_cache_entry_flush fl bs c i w2) l res w = .error f := by
  intro l
  induction l with
  | nil =>
    intro res _ hex
    obtain ⟨i, hi, _⟩ := hex
    exact absurd hi (List.not_mem_nil i)
  | cons i rest ih =>
    intro res hlt hex
    have hilt : i < cache.entries.length := hlt i (List.mem_cons_self i rest)
    have he : cache.entries[i]? = some cache.entries[i] := List.getElem?_eq_getElem hilt
    simp only [flush_loop]
    by_cases hskip : (cache.entries[i]).dirty = false ∨ (cache.entries[i]).offset = 0
    · rw [entry_flush_skip fl bs c i w cache _ hc he hskip]
      simp only
      apply ih _ (fun j hj => hlt j (List.mem_cons_of_mem i hj))
      obtain ⟨j, hj, e, hje, hjd, hjo⟩ := hex
      rcases List.mem_cons.mp hj with rfl | hj'
      · rw [he] at hje
        cases hje
        rcases hskip with h1 | h1
        · rw [hjd] at h1; exact Bool.noConfusion h1
        · exact absurd h1 hjo
      · exact ⟨j, hj', e, hje, hjd, hjo⟩
    · have hd : (cache.entries[i]).dirty = true := by
        cases hdd : (cache.entries[i]).dirty with
        | true => rfl
        | false => exact absurd (Or.inl hdd) hskip
      have ho : (cache.entries[i]).offset ≠ 0 := fun h0 => hskip (Or.inr h0)
      rw [entry_flush_dep fl bs c i d w cache _ hc he hd ho hdep, hfl]

/-- When every cache on a dependency cycle has a slot to write, a flush of any
of them nests without end: it exceeds every fuel. -/
theorem flush_diverges (w : World) (c d : Nat)
    (hdep : dep w c = some d) (hcyc : BusyPath w d c) :
    ∀ (fuel bs y : Nat), BusyPath w y c → block_cache_flush fuel bs y w = .error .out_of_fuel := by
  intro fuel
  induction fuel with
  | zero => intro bs y _; rfl
  | succ fuel ih =>
    intro bs y hy
    have hstep : has_dirty w y ∧ ∃ d1, dep w y = some d1 ∧ BusyPath w d1 c := by
      cases hy with
      | here _ hd => exact ⟨hd, d, hdep, hcyc⟩
      | next _ d1 _ hd hdep1 hp => exact ⟨hd, d1, hdep1, hp⟩
    obtain ⟨⟨cache, i, e, hc, he, hd, ho⟩, d1, hdep1, hp1⟩ := hstep
    have hcd : cache.depends = some d1 := by rw [← dep_of_cache hc]; exact hdep1
    have hstuck := flush_loop_stuck (block_cache_flush fuel) bs y d1 w cache .out_of_fuel hc hcd
      (ih bs d1 hp1) (List.range cache.size) 0
      (fun j hj => List.mem_range.mp hj)
      ⟨i, List.mem_range.mpr (getElem?_some_lt he), e, he, hd, ho⟩
    simp only [block_cache_flush, hc, hstuck]

/-- A flush of the dependency of a cache leaves that cache as it is, whenever
the flush returns. -/
theorem dep_flush_frame (fuel bs c d : Nat) (w : World) (r : Int) (w1 : World)
    (hdep : dep w c = some d)
    (h : block_cache_flush fuel bs d w = .ok (r, w1)) : w1.caches[c]? = w.caches[c]? := by
  by_cases hp : BusyPath w d c
  · rw [flush_diverges w c d hdep hp fuel bs d hp] at h
    exact Except.noConfusion h
  · exact (block_cache_flush_spec fuel bs d w r w1 h).2.1 c hp

/-! ### Dependency ordering -/

/-- After a flush that did not fail, every slot of the flushed cache that was
dirty with an offset other than 0 has a successful write in the new part of the
log and is clean. -/
theorem flush_ok_written (fuel bs x : Nat) (w : World) (r : Int) (w1 : World)
    (h : block_cache_flush fuel bs x w = .ok (r, w1)) (hr : 0 ≤ r) :
    ∃ evs, w1.log = w.log ++ evs ∧
      ∀ (cache : BlockCache) (i : Nat) (e : BlockCachedTable),
        w.caches[x]? = some cache → cache.entries[i]? = some e →
        e.dirty = true → e.offset ≠ 0 →
        (∃ ret, 0 ≤ ret ∧
          BdrvCall.pwrite bs e.offset (e.data.take cache.table_size) ret ∈ evs) ∧
        ∃ cache1, w1.caches[x]? = some cache1 ∧
          cache1.entries[i]? = some { e with dirty := false } := by
  obtain ⟨hle, _, _, hok⟩ := block_cache_flush_spec fuel bs x w r w1 h
  obtain ⟨_, _, hnd⟩ := hok hr
  obtain ⟨evs, hevs, hwr⟩ := hle.log
  refine ⟨evs, hevs, ?_⟩
  intro cache i e hc he hd ho
  obtain ⟨cache1, hc1, hcle⟩ := hle.caches x cache hc
  obtain ⟨e1, he1, hsl⟩ := hcle.slots i e he
  have hcl : e1 = { e with dirty := false } := by
    rcases hsl with rfl | rfl
    · exact absurd ⟨cache1, i, e1, hc1, he1, hd, ho⟩ hnd
    · rfl
  subst hcl
  exact ⟨hwr x cache cache1 i e _ hc hc1 he he1 hd rfl, cache1, hc1, he1⟩

theorem drop_eq_cons_of_getElem? {α : Type} {l : List α} {s : Nat} {a : α}
    (h : l[s]? = some a) : l.drop s = a :: l.drop (s + 1) := by
  have hlt := getElem?_some_lt h
  rw [List.getElem?_eq_getElem hlt] at h
  cases h
  exact List.drop_eq_getElem_cons hlt

/-- The sweep over the slots from `s` on, for a cache without ordering
obligation over a backing store without failures. -/
theorem sweep_plain (fl : Nat → Nat → World → Res Int) (bs c : Nat) :
    ∀ (m s : Nat) (res : Int) (w : World) (cache : BlockCache),
      w.caches[c]? = some cache → cache.depends = none → cache.depends_on_flush = false →
      w.script = [] → s + m = cache.entries.length →
      ∃ w1, flush_loop (fun i w2 => block_cache_entry_flush fl bs c i w2)
          (List.range' s m) res w = .ok (res, w1) ∧
        w1.log = w.log ++ dirty_writes bs cache.table_size (cache.entries.drop s) ∧
        w1.script = [] ∧
        w1.disk = apply_writes (dirty_writes bs cache.table_size (cache.entries.drop s))
          w.disk := by
  intro m
  induction m with
  | zero =>
    intro s res w cache hc _ _ hs hlen
    have : cache.entries.drop s = [] := List.drop_eq_nil_of_le (by omega)
    rw [this]
    exact ⟨w, rfl, by simp [dirty_writes], hs, rfl⟩
  | succ m ih =>
    intro s res w cache hc hdep hf hs hlen
    have hslt : s < cache.entries.length := by omega
    have he : cache.entries[s]? = some cache.entries[s] := List.getElem?_eq_getElem hslt
    rw [drop_eq_cons_of_getElem? he]
    simp only [List.range'_succ, flush_loop]
    by_cases hskip : (cache.entries[s]).dirty = false ∨ (cache.entries[s]).offset = 0
    · rw [entry_flush_skip fl bs c s w cache _ hc he hskip]
      obtain ⟨w1, hw1, hlog, hscr, hdisk⟩ := ih (s + 1) res w cache hc hdep hf hs (by omega)
      have hnot : ¬ ((cache.entries[s]).dirty = true ∧ (cache.entries[s]).offset ≠ 0) := by
        rintro ⟨h1, h2⟩
        rcases hskip with h | h
        · rw [h1] at h; exact Bool.noConfusion h
        · exact h2 h
      refine ⟨w1, ?_, ?_, hscr, ?_⟩
      · simpa using hw1
      · rw [hlog]
        simp only [dirty_writes, hnot, if_false]
      · rw [hdisk]
        simp only [dirty_writes, hnot, if_false]
    · have hd : (cache.entries[s]).dirty = true := by
        cases hdd : (cache.entries[s]).dirty with
        | true => rfl
        | false => exact absurd (Or.inl hdd) hskip
      have ho : (cache.entries[s]).offset ≠ 0 := fun h0 => hskip (Or.inr h0)
      rw [entry_flush_plain fl bs c s w cache _ hc he hd ho hdep hf,
        entry_flush_write_eq bs c s w cache _ hc he]
      have hh : ¬ (w.script.headD 0 < 0) := by rw [hs]; simp
      have hh0 : w.script.headD 0 = 0 := by rw [hs]; rfl
      simp only [hh, if_false]
      obtain ⟨w1, hw1, hlog, hscr, hdisk⟩ := ih (s + 1) res
        ((bdrv_pwrite bs (cache.entries[s]).offset (cache.entries[s]).data cache.table_size
          w).2.set_cache c (cache.set_entry s { cache.entries[s] with dirty := false }))
        (cache.set_entry s { cache.entries[s] with dirty := false })
        (getElem?_set_cache_self _ c _ cache hc) hdep hf
        (by simp [World.set_cache, bdrv_pwrite, hs])
        (by simp [BlockCache.set_entry]; omega)
      refine ⟨w1, ?_, ?_, hscr, ?_⟩
      · simpa using hw1
      · rw [hlog]
        simp only [dirty_writes, hd, ho, ne_eq, not_false_eq_true, and_self, if_true,
          World.set_cache, bdrv_pwrite, BlockCache.set_entry, hh0, List.append_assoc,
          List.singleton_append, List.drop_set_of_lt _ _ (Nat.lt_succ_self s)]
      · rw [hdisk]
        have h00 : ¬ ((0 : Int) < 0) := by decide
        simp only [dirty_writes, hd, ho, ne_eq, not_false_eq_true, and_self, if_true,
          World.set_cache, bdrv_pwrite, BlockCache.set_entry, hh0, apply_writes, h00, if_false,
          List.drop_set_of_lt _ _ (Nat.lt_succ_self s)]

/-- The sweep over the slots from `s` on, for a cache with a dependency whose
flush returns without error, over a backing store without failures: the first
dirty slot flushes the dependency, then the dirty slots are written in order. -/
theorem sweep_dep (fl : Nat → Nat → World → Res Int) (bs c b : Nat) (w wb : World) (rb : Int)
    (cache : BlockCache) (hc : w.caches[c]? = some cache) (hdep : cache.depends = some b)
    (hfl : fl bs b w = .ok (rb, wb)) (hrb : ¬ rb < 0) (hcb : wb.caches[c]? = some cache)
    (hsb : wb.script = []) :
    ∀ (m s : Nat) (res : Int), s + m = cache.entries.length →
      (∃ (i : Nat) (e : BlockCachedTable), s ≤ i ∧ cache.entries[i]? = some e ∧
        e.dirty = true ∧ e.offset ≠ 0) →
      ∃ w1, flush_loop (fun i w2 => block_cache_entry_flush fl bs c i w2)
          (List.range' s m) res w = .ok (res, w1) ∧
        w1.log = wb.log ++ dirty_writes bs cache.table_size (cache.entries.drop s) ∧
        w1.script = [] := by
  intro m
  induction m with
  | zero =>
    intro s res hlen hex
    obtain ⟨i, e, hsi, he, _, _⟩ := hex
    have := getElem?_some_lt he
    omega
  | succ m ih =>
    intro s res hlen hex
    have hslt : s < cache.entries.length := by omega
    have he : cache.entries[s]? = some cache.entries[s] := List.getElem?_eq_getElem hslt
    rw [drop_eq_cons_of_getElem? he]
    simp only [List.range'_succ, flush_loop]
    by_cases hskip : (cache.entries[s]).dirty = false ∨ (cache.entries[s]).offset = 0
    · rw [entry_flush_skip fl bs c s w cache _ hc he hskip]
      have hnot : ¬ ((cache.entries[s]).dirty = true ∧ (cache.entries[s]).offset ≠ 0) := by
        rintro ⟨h1, h2⟩
        rcases hskip with h | h
        · rw [h1] at h; exact Bool.noConfusion h
        · exact h2 h
      have hex' : ∃ (i : Nat) (e : BlockCachedTable), s + 1 ≤ i ∧ cache.entries[i]? = some e ∧
          e.dirty = true ∧ e.offset ≠ 0 := by
        obtain ⟨i, e, hsi, hie, hd, ho⟩ := hex
        refine ⟨i, e, ?_, hie, hd, ho⟩
        by_contra hcon
        have : i = s := by omega
        subst this
        rw [he] at hie
        cases hie
        exact hnot ⟨hd, ho⟩
      obtain ⟨w1, hw1, hlog, hscr⟩ := ih (s + 1) res (by omega) hex'
      refine ⟨w1, ?_, ?_, hscr⟩
      · simpa using hw1
      · rw [hlog]
        simp only [dirty_writes, hnot, if_false]
    · have hd : (cache.entries[s]).dirty = true := by
        cases hdd : (cache.entries[s]).dirty with
        | true => rfl
        | false => exact absurd (Or.inl hdd) hskip
      have ho : (cache.entries[s]).offset ≠ 0 := fun h0 => hskip (Or.inr h0)
      have hh : ¬ (wb.script.headD 0 < 0) := by rw [hsb]; simp
      have hh0 : wb.script.headD 0 = 0 := by rw [hsb]; rfl
      rw [entry_flush_dep fl bs c s b w cache _ hc he hd ho hdep, hfl]
      simp only [hrb, if_false, hcb]
      rw [entry_flush_write_eq bs c s _ { cache with depends := none, depends_on_flush := false }
        _ (getElem?_set_cache_self wb c _ cache hcb) he]
      have hh' : ¬ ((wb.set_cache c
          { cache with depends := none, depends_on_flush := false }).script.headD 0 < 0) := hh
      simp only [hh', if_false]
      obtain ⟨w1, hw1, hlog, hscr, _⟩ := sweep_plain fl bs c m (s + 1) res
        ((bdrv_pwrite bs (cache.entries[s]).offset (cache.entries[s]).data cache.table_size
          (wb.set_cache c { cache with depends := none, depends_on_flush := false })).2.set_cache c
          (BlockCache.set_entry { cache with depends := none, depends_on_flush := false } s
            { cache.entries[s] with dirty := false }))
        (BlockCache.set_entry { cache with depends := none, depends_on_flush := false } s
            { cache.entries[s] with dirty := false })
        (getElem?_set_cache_self _ c _ { cache with depends := none, depends_on_flush := false }
          (getElem?_set_cache_self wb c _ cache hcb)) rfl rfl
        (by simp [World.set_cache, bdrv_pwrite, hsb])
        (by simp [BlockCache.set_entry]; omega)
      refine ⟨w1, ?_, ?_, hscr⟩
      · simpa using hw1
      · rw [hlog]
        simp only [dirty_writes, hd, ho, ne_eq, not_false_eq_true, and_self, if_true,
          World.set_cache, bdrv_pwrite, BlockCache.set_entry, hh0, List.append_assoc,
          List.singleton_append, List.drop_set_of_lt _ _ (Nat.lt_succ_self s)]

/-- A returning `block_cache_entry_flush` of a dirty slot of a cache `a` that
depends on `b`: the flush of `b` returned first and left `a` alone; on its
failure nothing else was done, on its success the write of the slot is the one
call logged after it. -/
theorem entry_flush_after_dep (fuel bs a b i : Nat) (w : World) (cache : BlockCache)
    (e : BlockCachedTable) (r : Int) (w1 : World) (hc : w.caches[a]? = some cache)
    (hdep : cache.depends = some b) (he : cache.entries[i]? = some e) (hd : e.dirty = true)
    (ho : e.offset ≠ 0)
    (h : block_cache_entry_flush (block_cache_flush fuel) bs a i w = .ok (r, w1)) :
    ∃ rb wb, block_cache_flush fuel bs b w = .ok (rb, wb) ∧ wb.caches[a]? = some cache ∧
      ((rb < 0 ∧ r = rb ∧ w1 = wb) ∨
       (rb = 0 ∧ w1.log = wb.log ++
          [BdrvCall.pwrite bs e.offset (e.data.take cache.table_size)
            (wb.script.headD 0)])) := by
  have hdepw : dep w a = some b := (dep_of_cache hc).trans hdep
  rw [entry_flush_dep _ bs a i b w cache e hc he hd ho hdep] at h
  cases hfb : block_cache_flush fuel bs b w with
  | error f => simp [hfb] at h
  | ok p =>
    obtain ⟨rb, wb⟩ := p
    have hframe := dep_flush_frame fuel bs a b w rb wb hdepw hfb
    rw [hc] at hframe
    refine ⟨rb, wb, rfl, hframe, ?_⟩
    simp only [hfb] at h
    by_cases hrb : rb < 0
    · simp only [hrb, if_true, Except.ok.injEq, Prod.mk.injEq] at h
      exact Or.inl ⟨hrb, h.1.symm, h.2.symm⟩
    · simp only [hrb, if_false, hframe] at h
      have hrb0 : rb = 0 := ((block_cache_flush_spec fuel bs b w rb wb hfb).2.2.2 (by omega)).1
      refine Or.inr ⟨hrb0, ?_⟩
      rw [entry_flush_write_eq bs a i _ { cache with depends := none, depends_on_flush := false }
        e (getElem?_set_cache_self wb a _ cache hframe) he] at h
      by_cases hs : wb.script.headD 0 < 0
      · have hs' : (wb.set_cache a
            { cache with depends := none, depends_on_flush := false }).script.headD 0 < 0 := hs
        simp only [hs', if_true, Except.ok.injEq, Prod.mk.injEq] at h
        rw [← h.2]
        rfl
      · have hs' : ¬ (wb.set_cache a
            { cache with depends := none, depends_on_flush := false }).script.headD 0 < 0 := hs
        simp only [hs', if_false, Except.ok.injEq, Prod.mk.injEq] at h
        rw [← h.2]
        rfl

/-! ### Round trip through the backing store -/

theorem do_get_found_eq (c i : Nat) (w : World) (cache : BlockCache) (e : BlockCachedTable)
    (hc : w.caches[c]? = some cache) (he : cache.entries[i]? = some e) :
    do_get_found c i w = .ok ((0, some e.table),
      w.set_cache c (cache.set_entry i
        { e with cache_hits := wrap_int (e.cache_hits + 1), ref := wrap_int (e.ref + 1) })) := by
  simp only [do_get_found, hc, he]

theorem getElem?_set_entry_self (cache : BlockCache) (i : Nat) (x e : BlockCachedTable)
    (h : cache.entries[i]? = some e) : (cache.set_entry i x).entries[i]? = some x := by
  simp [BlockCache.set_entry, List.getElem?_set, getElem?_some_lt h]

/-- A get that misses and hands out a buffer hands out the bytes that the
backing store holds at the offset when the call returns. -/
theorem get_miss_reads_disk (fuel bs c offset : Nat) (w : World) (cache : BlockCache)
    (r : Int) (t : Nat) (w1 : World) (hc : w.caches[c]? = some cache)
    (hmiss : find_offset cache.entries offset 0 = none)
    (h : block_cache_get fuel bs c offset w = .ok ((r, some t), w1)) :
    r = 0 ∧ table_holds w1 c t (disk_read w1.disk bs offset cache.table_size) := by
  simp only [block_cache_get, block_cache_do_get, hc, hmiss] at h
  cases hf : block_cache_find_entry_to_replace cache with
  | error f => simp [hf] at h
  | ok p =>
    obtain ⟨mi, cache1⟩ := p
    simp only [hf] at h
    by_cases hmi : mi < 0
    · simp [hmi] at h
    · simp only [hmi, if_false] at h
      cases hef : block_cache_entry_flush (block_cache_flush fuel) bs c mi.toNat
          (w.set_cache c cache1) with
      | error f => simp [hef] at h
      | ok q =>
        obtain ⟨ret, w2⟩ := q
        simp only [hef] at h
        by_cases hret : ret < 0
        · simp [hret] at h
        · simp only [hret, if_false] at h
          have hts1 : cache1.table_size = cache.table_size := by
            unfold block_cache_find_entry_to_replace at hf
            split at hf
            split at hf
            · exact Except.noConfusion hf
            · simp only [Except.ok.injEq, Prod.mk.injEq] at hf
              rw [← hf.2]
          have hle := (entry_flush_spec _ (block_cache_flush_spec fuel) bs c mi.toNat _ ret w2
            hef).1
          obtain ⟨cache2, hc2, hcle⟩ := hle.caches c cache1
            (getElem?_set_cache_self w c cache1 cache hc)
          simp only [hc2] at h
          cases he2 : cache2.entries[mi.toNat]? with
          | none => simp [he2] at h
          | some e2 =>
            simp only [he2, if_true] at h
            rcases hp : bdrv_pread bs offset e2.data cache2.table_size w2 with ⟨ret3, data3, w3⟩
            have hp1 : ret3 = w2.script.headD 0 := by rw [bdrv_pread] at hp; cases hp; rfl
            have hp2 : data3 = if ret3 < 0 then e2.data
                else disk_read w2.disk bs offset cache2.table_size := by
              rw [bdrv_pread] at hp; cases hp; rfl
            have hp3 : w3.caches = w2.caches := by rw [bdrv_pread] at hp; cases hp; rfl
            have hp4 : w3.disk = w2.disk := by rw [bdrv_pread] at hp; cases hp; rfl
            simp only [hp] at h
            by_cases hs : ret3 < 0
            · simp [hs] at h
            · simp only [hs, if_false] at h
              have hc3 : w3.caches[c]? = some cache2 := by rw [hp3]; exact hc2
              rw [do_get_found_eq c mi.toNat _ _ _
                (getElem?_set_cache_self w3 c _ cache2 hc3)
                (getElem?_set_entry_self cache2 _ _ e2 he2)] at h
              simp only [Except.ok.injEq, Prod.mk.injEq, Option.some.injEq] at h
              obtain ⟨⟨hr, ht⟩, hw⟩ := h
              subst hw
              refine ⟨hr.symm, _, mi.toNat, _,
                getElem?_set_cache_self _ c _ _ (getElem?_set_cache_self w3 c _ cache2 hc3),
                getElem?_set_entry_self _ _ _ _ (getElem?_set_entry_self cache2 _ _ e2 he2),
                ht, ?_⟩
              simp [World.set_cache, hcle.table_size, hts1, hp2, hs, hp4]

theorem alloc_entries_succ (brk n ts : Nat) :
    alloc_entries brk (n + 1) ts =
      { table := brk + 1, data := List.replicate ts 0, offset := 0, dirty := false,
        cache_hits := 0, ref := 0 } :: alloc_entries (brk + 1) n ts := by
  simp only [alloc_entries, List.range_succ_eq_map, List.map_cons, List.map_map, Nat.add_zero,
    List.cons.injEq, true_and]
  apply List.map_congr_left
  intro i _
  simp only [Function.comp, Nat.succ_eq_add_one, BlockCachedTable.mk.injEq, and_true]
  omega

theorem alloc_entries_idle (brk n ts : Nat) : all_idle (alloc_entries brk n ts) := by
  intro e he
  simp only [alloc_entries, List.mem_map] at he
  obtain ⟨i, _, rfl⟩ := he
  exact ⟨rfl, rfl, rfl, rfl⟩

theorem find_offset_none (offset : Nat) :
    ∀ (es : List BlockCachedTable) (i : Nat), (∀ e ∈ es, e.offset ≠ offset) →
      find_offset es offset i = none := by
  intro es
  induction es with
  | nil => intro i _; rfl
  | cons e rest ih =>
    intro i h
    have he := h e (List.mem_cons_self e rest)
    simp only [find_offset, he, if_false]
    exact ih (i + 1) (fun e' he' => h e' (List.mem_cons_of_mem e he'))

theorem find_entry_loop_idle :
    ∀ (es : List BlockCachedTable) (i : Nat) (mc mi : Int), all_idle es → mc ≤ 0 →
      find_entry_loop es i mc mi = (mi, es) := by
  intro es
  induction es with
  | nil => intro i mc mi _ _; rfl
  | cons e rest ih =>
    intro i mc mi hidle hmc
    obtain ⟨_, _, hh, hr⟩ := hidle e (List.mem_cons_self e rest)
    have hrest : all_idle rest := fun e' he' => hidle e' (List.mem_cons_of_mem e he')
    have hr' : ¬ (e.ref ≠ 0) := by simp [hr]
    have hlt : ¬ (e.cache_hits < mc) := by omega
    unfold find_entry_loop
    rw [if_neg hr']
    simp only [hlt, if_false, ih (i + 1) mc mi hrest hmc]
    have : ({ e with cache_hits := Int.tdiv e.cache_hits 2 } : BlockCachedTable) = e := by
      cases e
      simp only [BlockCachedTable.mk.injEq, true_and, and_true] at hh ⊢
      subst hh
      rfl
    rw [this]

theorem find_entry_to_replace_idle (cache : BlockCache) (e0 : BlockCachedTable)
    (rest : List BlockCachedTable) (hents : cache.entries = e0 :: rest)
    (hidle : all_idle (e0 :: rest)) :
    block_cache_find_entry_to_replace cache = .ok (0, cache) := by
  obtain ⟨_, _, hh, hr⟩ := hidle e0 (List.mem_cons_self e0 rest)
  have hrest : all_idle rest := fun e' he' => hidle e' (List.mem_cons_of_mem e0 he')
  have hr' : ¬ (e0.ref ≠ 0) := by simp [hr]
  have hlt : e0.cache_hits < INT_MAX := by rw [hh]; decide
  have h0 : ({ e0 with cache_hits := Int.tdiv e0.cache_hits 2 } : BlockCachedTable) = e0 := by
    cases e0
    simp only [BlockCachedTable.mk.injEq, true_and, and_true] at hh ⊢
    subst hh
    rfl
  unfold block_cache_find_entry_to_replace
  rw [hents]
  unfold find_entry_loop
  rw [if_neg hr']
  simp only [hlt, if_true]
  rw [find_entry_loop_idle rest 1 e0.cache_hits _ hrest (by omega), h0]
  simp only [Nat.cast_zero]
  have : ¬ ((0 : Int) = -1) := by decide
  rw [if_neg this, ← hents]

theorem list_set_self {α : Type} : ∀ (l : List α) (i : Nat) (a : α), l[i]? = some a →
    l.set i a = l := by
  intro l
  induction l with
  | nil => intro i a _; rfl
  | cons b rest ih =>
    intro i a h
    cases i with
    | zero =>
      simp only [List.getElem?_cons_zero, Option.some.injEq] at h
      subst h
      rfl
    | succ j =>
      simp only [List.getElem?_cons_succ] at h
      simp only [List.set_cons_succ, ih j a h]

/-- A get on a cache whose slots are all idle, over a backing store without
failures: slot 0 is taken, read if asked for, and handed out. -/
theorem do_get_idle (fuel bs c offset : Nat) (rd : Bool) (w : World) (cache : BlockCache)
    (e0 : BlockCachedTable) (rest : List BlockCachedTable) (hc : w.caches[c]? = some cache)
    (hents : cache.entries = e0 :: rest) (hidle : all_idle (e0 :: rest)) (ho : offset ≠ 0)
    (hs : w.script = []) :
    block_cache_do_get fuel bs c offset rd w = .ok ((0, some e0.table),
      { w with
        caches := w.caches.set c { cache with entries :=
          { e0 with
            data := if rd = true then disk_read w.disk bs offset cache.table_size else e0.data
            offset := offset, cache_hits := 33, ref := 1 } :: rest }
        log := if rd = true then w.log ++ [BdrvCall.pread bs offset cache.table_size 0]
          else w.log }) := by
  obtain ⟨ho0, hd0, hh0, hr0⟩ := hidle e0 (List.mem_cons_self e0 rest)
  have hmiss : find_offset cache.entries offset 0 = none := by
    apply find_offset_none
    intro e he
    rw [hents] at he
    rw [(hidle e he).1]
    exact fun h => ho h.symm
  have hlt : c < w.caches.length := getElem?_some_lt hc
  have hcc : (w.set_cache c cache).caches[c]? = some cache :=
    getElem?_set_cache_self w c cache cache hc
  have he0 : cache.entries[(0 : Int).toNat]? = some e0 := by rw [hents]; simp
  have hself : w.set_cache c cache = w := by
    cases w
    simp only [World.set_cache, World.mk.injEq, and_true, true_and]
    simp only at hc
    exact list_set_self _ c cache hc
  have h33 : wrap_int 33 = 33 := by decide
  have h1 : wrap_int (e0.ref + 1) = 1 := by rw [hr0]; decide
  simp only [block_cache_do_get, hc, hmiss, find_entry_to_replace_idle cache e0 rest hents hidle,
    lt_self_iff_false, if_false,
    hself, entry_flush_skip _ bs c (0 : Int).toNat w cache e0 hc he0 (Or.inl hd0), he0]
  cases rd with
  | true =>
    simp only [if_true, bdrv_pread, hs, List.headD_nil, lt_self_iff_false, if_false,
      List.tail_nil]
    have hc3 : ∀ (l : List BdrvCall) (s : List Int),
        ({ w with log := l, script := s } : World).caches[c]? = some cache := fun _ _ => hc
    rw [do_get_found_eq c (0 : Int).toNat _ _ _ (getElem?_set_cache_self _ c _ cache (hc3 _ _))
      (getElem?_set_entry_self cache _ _ e0 he0)]
    simp [World.set_cache, BlockCache.set_entry, hents, h33, h1, hs]
  | false =>
    simp only [Bool.false_eq_true, if_false]
    rw [do_get_found_eq c (0 : Int).toNat _ _ _ (getElem?_set_cache_self _ c _ cache hc)
      (getElem?_set_entry_self cache _ _ e0 he0)]
    simp [World.set_cache, BlockCache.set_entry, hents, h33, h1, hs]

theorem table_store_head (a t : Nat) (bytes : List Nat) (w : World) (cache : BlockCache)
    (e : BlockCachedTable) (rest : List BlockCachedTable) (hc : w.caches[a]? = some cache)
    (hents : cache.entries = e :: rest) (ht : e.table = t) :
    table_store a t bytes w =
      .ok (w.set_cache a { cache with entries := { e with data := bytes } :: rest }) := by
  simp [table_store, hc, hents, find_table, ht, BlockCache.set_entry]

theorem mark_dirty_head (a t : Nat) (w : World) (cache : BlockCache)
    (e : BlockCachedTable) (rest : List BlockCachedTable) (hc : w.caches[a]? = some cache)
    (hents : cache.entries = e :: rest) (ht : e.table = t) :
    block_cache_entry_mark_dirty a t w =
      .ok (w.set_cache a { cache with entries := { e with dirty := true } :: rest }) := by
  simp [block_cache_entry_mark_dirty, hc, hents, find_table, ht, BlockCache.set_entry]

theorem put_head (a t : Nat) (w : World) (cache : BlockCache)
    (e : BlockCachedTable) (rest : List BlockCachedTable) (hc : w.caches[a]? = some cache)
    (hents : cache.entries = e :: rest) (ht : e.table = t) (hr : e.ref = 1) :
    block_cache_put a t w =
      .ok ((0, none), w.set_cache a { cache with entries := { e with ref := 0 } :: rest }) := by
  have h0 : wrap_int 0 = 0 := by decide
  simp [block_cache_put, hc, hents, find_table, ht, BlockCache.set_entry, hr, h0]

theorem dirty_writes_idle (bs ts : Nat) :
    ∀ (es : List BlockCachedTable), all_idle es → dirty_writes bs ts es = [] := by
  intro es
  induction es with
  | nil => intro _; rfl
  | cons e rest ih =>
    intro h
    have hd := (h e (List.mem_cons_self e rest)).2.1
    simp only [dirty_writes, hd, Bool.false_eq_true, false_and, if_false]
    exact ih (fun e' he' => h e' (List.mem_cons_of_mem e he'))

/-- Reading back an extent that was just written gives the written bytes. -/
theorem disk_read_written (disk : List (Nat × Nat × List Nat)) (bs offset : Nat)
    (bytes : List Nat) : disk_read ((bs, offset, bytes) :: disk) bs offset bytes.length = bytes := by
  apply List.ext_getElem
  · simp [disk_read]
  · intro k h1 h2
    simp only [disk_read, List.getElem_map, List.getElem_range, disk_byte, true_and]
    have hk : offset ≤ offset + k ∧ offset + k < offset + bytes.length := by omega
    simp only [hk, and_self, if_true, Nat.add_sub_cancel_left]
    simp [List.getD_eq_getElem?_getD, List.getElem?_eq_getElem h2]

theorem getElem?_create (n ts : Nat) (ty : BlockTableType) (w : World) :
    (block_cache_create n ts ty w).2.caches[w.caches.length]? =
      some { entries := alloc_entries w.brk n ts, depends := none, table_size := ts,
             table_type := ty, depends_on_flush := false } := by
  simp [block_cache_create]

/-- The round trip on a freshly created cache with at least one slot, over a
backing store whose calls all succeed: `get_empty(offset)` hands out a buffer,
the pattern is stored in it, `mark_dirty`, `put` and `flush` succeed, and then
the store holds the pattern at `offset`; a get of `offset` on a freshly created
cache over the same store hands out a buffer holding the pattern; and so does
any later get of `offset` that misses, in any cache of that table size, as long
as the store holds the pattern at `offset` when it returns. -/
theorem round_trip_fresh (fuel bs n ts offset : Nat) (ty : BlockTableType) (pattern : List Nat)
    (w : World) (hs : w.script = []) (ho : offset ≠ 0) (hp : pattern.length = ts) :
    ∃ (t : Nat) (w2 w3 w4 w5 w6 : World),
      block_cache_get_empty fuel bs w.caches.length offset
        (block_cache_create (n + 1) ts ty w).2 = .ok ((0, some t), w2) ∧
      table_store w.caches.length t pattern w2 = .ok w3 ∧
      block_cache_entry_mark_dirty w.caches.length t w3 = .ok w4 ∧
      block_cache_put w.caches.length t w4 = .ok ((0, none), w5) ∧
      block_cache_flush (fuel + 1) bs w.caches.length w5 = .ok (0, w6) ∧
      disk_read w6.disk bs offset ts = pattern ∧
      (∀ (fuel2 n2 : Nat) (ty2 : BlockTableType), ∃ t2 w8,
        block_cache_get fuel2 bs w6.caches.length offset
          (block_cache_create (n2 + 1) ts ty2 w6).2 = .ok ((0, some t2), w8) ∧
        table_holds w8 w6.caches.length t2 pattern) ∧
      (∀ (fuel2 c2 : Nat) (w7 : World) (cache7 : BlockCache) (r : Int) (t2 : Nat) (w8 : World),
        w7.caches[c2]? = some cache7 → cache7.table_size = ts →
        find_offset cache7.entries offset 0 = none →
        block_cache_get fuel2 bs c2 offset w7 = .ok ((r, some t2), w8) →
        disk_read w8.disk bs offset ts = pattern →
        r = 0 ∧ table_holds w8 c2 t2 pattern) := by
  have hidle : all_idle (BlockCachedTable.mk (w.brk + 1) (List.replicate ts 0) 0 false 0 0 :: alloc_entries (w.brk + 1) n ts) := by
    rw [← alloc_entries_succ]
    exact alloc_entries_idle _ _ _
  have hrest : all_idle (alloc_entries (w.brk + 1) n ts) := alloc_entries_idle _ _ _
  have h1 := do_get_idle fuel bs w.caches.length offset false
    (block_cache_create (n + 1) ts ty w).2 _ _ _ (getElem?_create (n + 1) ts ty w)
    (alloc_entries_succ w.brk n ts) hidle ho hs
  have hc1 := getElem?_create (n + 1) ts ty w
  have hc2 := getElem?_set_cache_self (block_cache_create (n + 1) ts ty w).2 w.caches.length
    (BlockCache.mk (BlockCachedTable.mk (w.brk + 1) (List.replicate ts 0) offset false 33 1 ::
      alloc_entries (w.brk + 1) n ts) none ts ty false) _ hc1
  have h2 := table_store_head w.caches.length (w.brk + 1) pattern _ _ _ _ hc2 rfl rfl
  have hc3 := getElem?_set_cache_self _ w.caches.length
    (BlockCache.mk (BlockCachedTable.mk (w.brk + 1) (pattern) offset false 33 1 ::
      alloc_entries (w.brk + 1) n ts) none ts ty false) _ hc2
  have h3 := mark_dirty_head w.caches.length (w.brk + 1) _ _ _ _ hc3 rfl rfl
  have hc4 := getElem?_set_cache_self _ w.caches.length
    (BlockCache.mk (BlockCachedTable.mk (w.brk + 1) (pattern) offset true 33 1 ::
      alloc_entries (w.brk + 1) n ts) none ts ty false) _ hc3
  have h4 := put_head w.caches.length (w.brk + 1) _ _ _ _ hc4 rfl rfl rfl
  have hc5 := getElem?_set_cache_self _ w.caches.length
    (BlockCache.mk (BlockCachedTable.mk (w.brk + 1) (pattern) offset true 33 0 ::
      alloc_entries (w.brk + 1) n ts) none ts ty false) _ hc4
  obtain ⟨w6, hloop, _, hscr, hdisk⟩ := sweep_plain (block_cache_flush fuel) bs w.caches.length
    (n + 1) 0 0 _ _ hc5 rfl rfl hs (by simp [alloc_entries])
  have htake : pattern.take ts = pattern := by rw [← hp]; exact List.take_length pattern
  have h00 : ¬ ((0 : Int) < 0) := by decide
  have hwrites : dirty_writes bs ts
      (BlockCachedTable.mk (w.brk + 1) pattern offset true 33 0 ::
        alloc_entries (w.brk + 1) n ts) = [BdrvCall.pwrite bs offset pattern 0] := by
    simp only [dirty_writes, ho, ne_eq, not_false_eq_true, and_self, if_true, htake,
      dirty_writes_idle bs ts _ hrest]
  simp only [List.drop_zero, hwrites, apply_writes, h00, if_false] at hdisk
  have hread : disk_read (bdrv_flush bs w6).2.disk bs offset ts = pattern := by
    show disk_read w6.disk bs offset ts = pattern
    rw [hdisk, ← hp]
    exact disk_read_written _ bs offset pattern
  refine ⟨w.brk + 1, _, _, _, _, (bdrv_flush bs w6).2, ?_, h2, h3, h4, ?_, hread, ?_, ?_⟩
  · rw [block_cache_get_empty, h1]
    simp [World.set_cache]
  · have hlen : (alloc_entries (w.brk + 1) n ts).length = n := by simp [alloc_entries]
    simp only [block_cache_flush, hc5, BlockCache.size, List.range_eq_range', List.length_cons,
      hlen, hloop, if_true, bdrv_flush, hscr]
    simp
  · intro fuel2 n2 ty2
    have hidle2 : all_idle
        (BlockCachedTable.mk ((bdrv_flush bs w6).2.brk + 1) (List.replicate ts 0) 0 false 0 0 ::
          alloc_entries ((bdrv_flush bs w6).2.brk + 1) n2 ts) := by
      rw [← alloc_entries_succ]
      exact alloc_entries_idle _ _ _
    have hs6 : (block_cache_create (n2 + 1) ts ty2 (bdrv_flush bs w6).2).2.script = [] := by
      simp [block_cache_create, bdrv_flush, hscr]
    have h7 := do_get_idle fuel2 bs (bdrv_flush bs w6).2.caches.length offset true
      (block_cache_create (n2 + 1) ts ty2 (bdrv_flush bs w6).2).2 _ _ _
      (getElem?_create (n2 + 1) ts ty2 (bdrv_flush bs w6).2)
      (alloc_entries_succ _ n2 ts) hidle2 ho hs6
    have hlt : (bdrv_flush bs w6).2.caches.length <
        (block_cache_create (n2 + 1) ts ty2 (bdrv_flush bs w6).2).2.caches.length := by
      simp [block_cache_create]
    refine ⟨_, _, h7, ?_⟩
    unfold table_holds
    simp only [List.getElem?_set, hlt, if_true, Option.some.injEq, exists_eq_left']
    exact ⟨_, 0, _, rfl, List.getElem?_cons_zero, rfl, hread⟩
  · intro fuel2 c2 w7 cache7 r t2 w8 hc7 hts7 hmiss hget hdisk8
    have := get_miss_reads_disk fuel2 bs c2 offset w7 cache7 r t2 w8 hc7 hmiss hget
    rw [hts7, hdisk8] at this
    exact this

/-! ### get and get_empty: what they change -/

/-- A scan that does not abort returns the index of an unpinned slot and ages
the slots. -/
theorem find_entry_to_replace_ok (cache cache1 : BlockCache) (mi : Int)
    (h : block_cache_find_entry_to_replace cache = .ok (mi, cache1)) :
    ∃ (m : Nat) (ev : BlockCachedTable), mi = (m : Int) ∧ cache.entries[m]? = some ev ∧
      ev.ref = 0 ∧ cache1 = { cache with entries := cache.entries.map aged } := by
  unfold block_cache_find_entry_to_replace at h
  have hents := find_entry_loop_entries cache.entries 0 INT_MAX (-1)
  obtain ⟨hsame, himp⟩ := find_entry_loop_index cache.entries 0 INT_MAX (-1)
  cases hl : find_entry_loop cache.entries 0 INT_MAX (-1) with
  | mk m es1 =>
    rw [hl] at h hents hsame himp
    simp only at h hents hsame himp
    by_cases hm : m = -1
    · simp [hm] at h
    · simp only [hm, if_false, Except.ok.injEq, Prod.mk.injEq] at h
      obtain ⟨hmi, hc1⟩ := h
      by_cases hex : ∃ (j : Nat) (e : BlockCachedTable),
          cache.entries[j]? = some e ∧ e.ref = 0 ∧ e.cache_hits < INT_MAX
      · obtain ⟨k, ek, hk, ⟨em, hem, hemr, _⟩, _, _⟩ := himp hex
        refine ⟨k, em, ?_, hem, hemr, ?_⟩
        · rw [← hmi, hk]; simp
        · rw [← hc1, hents]
      · exfalso
        apply hm
        apply hsame
        intro j e hj hr
        by_contra hcon
        exact hex ⟨j, e, hj, hr, by omega⟩

/-- A `block_cache_entry_flush` of slot `i` of cache `c` leaves every other slot
of `c` as it is. -/
theorem entry_flush_slots (fuel bs c i : Nat) (w : World) (cache : BlockCache) (r : Int)
    (w1 : World) (hc : w.caches[c]? = some cache)
    (h : block_cache_entry_flush (block_cache_flush fuel) bs c i w = .ok (r, w1)) :
    ∃ cache1, w1.caches[c]? = some cache1 ∧
      (∀ j, j ≠ i → cache1.entries[j]? = cache.entries[j]?) ∧
      (∀ e, cache.entries[i]? = some e → ∃ e1, cache1.entries[i]? = some e1 ∧ slot_le e1 e) := by
  cases he : cache.entries[i]? with
  | none => simp [block_cache_entry_flush, hc, he] at h
  | some e =>
    have hwrite : ∀ (w0 : World) (cache0 : BlockCache), w0.caches[c]? = some cache0 →
        cache0.entries = cache.entries → entry_flush_write bs c i w0 = .ok (r, w1) →
        ∃ cache1, w1.caches[c]? = some cache1 ∧
          (∀ j, j ≠ i → cache1.entries[j]? = cache.entries[j]?) ∧
          (∀ e', some e = some e' → ∃ e1, cache1.entries[i]? = some e1 ∧ slot_le e1 e') := by
      intro w0 cache0 hc0 hents hw
      have he0 : cache0.entries[i]? = some e := by rw [hents]; exact he
      rw [entry_flush_write_eq bs c i w0 cache0 e hc0 he0] at hw
      by_cases hs : w0.script.headD 0 < 0
      · simp only [hs, if_true, Except.ok.injEq, Prod.mk.injEq] at hw
        rw [← hw.2]
        refine ⟨cache0, hc0, fun j _ => by rw [hents], ?_⟩
        intro e' he'
        cases he'
        exact ⟨e, he0, slot_le_refl e⟩
      · simp only [hs, if_false, Except.ok.injEq, Prod.mk.injEq] at hw
        rw [← hw.2]
        refine ⟨_, getElem?_set_cache_self _ c _ cache0 hc0, ?_, ?_⟩
        · intro j hj
          simp only [BlockCache.set_entry, List.getElem?_set_ne (Ne.symm hj), hents]
        · intro e' he'
          cases he'
          exact ⟨_, getElem?_set_entry_self cache0 i _ e he0, Or.inr rfl⟩
    by_cases hskip : e.dirty = false ∨ e.offset = 0
    · rw [entry_flush_skip _ bs c i w cache e hc he hskip] at h
      simp only [Except.ok.injEq, Prod.mk.injEq] at h
      rw [← h.2]
      exact ⟨cache, hc, fun _ _ => rfl, fun e' he' => ⟨e', he'.symm ▸ he, slot_le_refl e'⟩⟩
    · have hd : e.dirty = true := by
        cases hdd : e.dirty with
        | true => rfl
        | false => exact absurd (Or.inl hdd) hskip
      have ho : e.offset ≠ 0 := fun h0 => hskip (Or.inr h0)
      cases hdep : cache.depends with
      | some d =>
        rw [entry_flush_dep _ bs c i d w cache e hc he hd ho hdep] at h
        cases hfd : block_cache_flush fuel bs d w with
        | error f => simp [hfd] at h
        | ok p =>
          obtain ⟨rd, wd⟩ := p
          have hframe := dep_flush_frame fuel bs c d w rd wd ((dep_of_cache hc).trans hdep) hfd
          rw [hc] at hframe
          simp only [hfd] at h
          by_cases hrd : rd < 0
          · simp only [hrd, if_true, Except.ok.injEq, Prod.mk.injEq] at h
            rw [← h.2]
            exact ⟨cache, hframe, fun _ _ => rfl, fun e' he' => ⟨e', he'.symm ▸ he, slot_le_refl e'⟩⟩
          · simp only [hrd, if_false, hframe] at h
            exact hwrite _ { cache with depends := none, depends_on_flush := false }
              (getElem?_set_cache_self wd c _ cache hframe) rfl h
      | none =>
        by_cases hf : cache.depends_on_flush = true
        · rw [entry_flush_sync _ bs c i w cache e hc he hd ho hdep hf] at h
          by_cases hs : w.script.headD 0 < 0
          · simp only [hs, if_true, Except.ok.injEq, Prod.mk.injEq] at h
            rw [← h.2]
            exact ⟨cache, hc, fun _ _ => rfl, fun e' he' => ⟨e', he'.symm ▸ he, slot_le_refl e'⟩⟩
          · simp only [hs, if_false] at h
            have hcf : (bdrv_flush bs w).2.caches[c]? = some cache := hc
            exact hwrite _ { cache with depends_on_flush := false }
              (getElem?_set_cache_self _ c _ cache hcf) rfl h
        · have hf' : cache.depends_on_flush = false := by simpa using hf
          rw [entry_flush_plain _ bs c i w cache e hc he hd ho hdep hf'] at h
          exact hwrite w cache hc rfl h

theorem find_offset_some (offset : Nat) :
    ∀ (es : List BlockCachedTable) (k i : Nat), find_offset es offset k = some i →
      ∃ (j : Nat) (e : BlockCachedTable), i = k + j ∧ es[j]? = some e ∧ e.offset = offset := by
  intro es
  induction es with
  | nil => intro k i h; simp [find_offset] at h
  | cons e rest ih =>
    intro k i h
    simp only [find_offset] at h
    by_cases he : e.offset = offset
    · simp only [he, if_true, Option.some.injEq] at h
      exact ⟨0, e, by omega, List.getElem?_cons_zero, he⟩
    · simp only [he, if_false] at h
      obtain ⟨j, e', hi, hj, ho⟩ := ih (k + 1) i h
      exact ⟨j + 1, e', by omega, by simpa using hj, ho⟩

theorem slot_le_fields {e1 e : BlockCachedTable} (h : slot_le e1 e) :
    e1.table = e.table ∧ e1.data = e.data ∧ e1.offset = e.offset ∧
    e1.cache_hits = e.cache_hits ∧ e1.ref = e.ref := by
  rcases h with rfl | rfl
  · exact ⟨rfl, rfl, rfl, rfl, rfl⟩
  · exact ⟨rfl, rfl, rfl, rfl, rfl⟩

theorem aged_fields (e : BlockCachedTable) :
    (aged e).table = e.table ∧ (aged e).data = e.data ∧ (aged e).offset = e.offset ∧
    (aged e).dirty = e.dirty ∧ (aged e).ref = e.ref := by
  unfold aged
  split <;> exact ⟨rfl, rfl, rfl, rfl, rfl⟩

/-- What a returning `block_cache_do_get` on cache `c` has done: other caches
are at most cleaner; on a hit one slot has its counters raised; on a miss the
slots are aged and only the victim slot, which was unpinned, is replaced. -/
theorem do_get_effect (fuel bs c offset : Nat) (rd : Bool) (w : World) (cache : BlockCache)
    (r : Int) (t : Option Nat) (w1 : World) (hc : w.caches[c]? = some cache)
    (h : block_cache_do_get fuel bs c offset rd w = .ok ((r, t), w1)) :
    w1.caches.length = w.caches.length ∧
    (∀ (y : Nat) (cy : BlockCache), y ≠ c → w.caches[y]? = some cy →
      ∃ cy1, w1.caches[y]? = some cy1 ∧ cache_le cy1 cy) ∧
    ((∃ (i : Nat) (e : BlockCachedTable), find_offset cache.entries offset 0 = some i ∧
        cache.entries[i]? = some e ∧ e.offset = offset ∧ r = 0 ∧ t = some e.table ∧
        w1 = w.set_cache c (cache.set_entry i
          { e with cache_hits := wrap_int (e.cache_hits + 1), ref := wrap_int (e.ref + 1) })) ∨
     (find_offset cache.entries offset 0 = none ∧
      ∃ (m : Nat) (ev : BlockCachedTable) (cache1 : BlockCache) (e1 : BlockCachedTable),
        cache.entries[m]? = some ev ∧ ev.ref = 0 ∧
        w1.caches[c]? = some cache1 ∧ cache1.entries.length = cache.entries.length ∧
        (∀ j, j ≠ m → ∀ ej, cache.entries[j]? = some ej →
          ∃ ej1, cache1.entries[j]? = some ej1 ∧ slot_le ej1 (aged ej) ∧
            (ej.ref ≠ 0 → ej1 = ej)) ∧
        cache1.entries[m]? = some e1 ∧ e1.table = ev.table ∧
        ((t = none ∧ r < 0 ∧ (e1.offset = ev.offset ∨ e1.offset = 0)) ∨
         (t = some ev.table ∧ r = 0 ∧ e1.offset = offset ∧ e1.ref = 1 ∧
            e1.cache_hits = 33)))) := by
  simp only [block_cache_do_get, hc] at h
  cases hfind : find_offset cache.entries offset 0 with
  | some i =>
    simp only [hfind] at h
    obtain ⟨j, e, hij, hj, ho⟩ := find_offset_some offset cache.entries 0 i hfind
    have hij' : i = j := by omega
    subst hij'
    rw [do_get_found_eq c i w cache e hc hj] at h
    simp only [Except.ok.injEq, Prod.mk.injEq] at h
    obtain ⟨⟨hr, ht⟩, hw⟩ := h
    refine ⟨?_, ?_, Or.inl ⟨i, e, rfl, hj, ho, hr.symm, ht.symm, hw.symm⟩⟩
    · rw [← hw]; simp [caches_set_cache]
    · intro y cy hy hcy
      rw [← hw, getElem?_set_cache_ne _ _ _ _ (Ne.symm hy)]
      exact ⟨cy, hcy, cache_le_refl cy⟩
  | none =>
    simp only [hfind] at h
    cases hf : block_cache_find_entry_to_replace cache with
    | error f => simp [hf] at h
    | ok p =>
      obtain ⟨mi, cacheA⟩ := p
      obtain ⟨m, ev, hmi, hev, hevr, hcA⟩ := find_entry_to_replace_ok cache cacheA mi hf
      subst hmi
      subst hcA
      have hmi : ¬ ((m : Int) < 0) := by omega
      simp only [hf, hmi, if_false, Int.toNat_ofNat] at h
      have hcA := getElem?_set_cache_self w c { cache with entries := cache.entries.map aged }
        cache hc
      cases hef : block_cache_entry_flush (block_cache_flush fuel) bs c m
          (w.set_cache c { cache with entries := cache.entries.map aged }) with
      | error f => simp [hef] at h
      | ok q =>
        obtain ⟨ret, w2⟩ := q
        simp only [hef] at h
        have hle := (entry_flush_spec _ (block_cache_flush_spec fuel) bs c m _ ret w2 hef).1
        obtain ⟨cache2, hc2, hothers, hvictim⟩ := entry_flush_slots fuel bs c m _ _ ret w2 hcA hef
        obtain ⟨cache2', hc2', hcle⟩ := hle.caches c _ hcA
        rw [hc2] at hc2'
        cases hc2'
        have hlen2 : cache2.entries.length = cache.entries.length := by
          rw [hcle.len]; simp
        have hevA : (cache.entries.map aged)[m]? = some (aged ev) := by simp [hev]
        obtain ⟨e2, he2, hsl2⟩ := hvictim (aged ev) hevA
        have hlen01 : w2.caches.length = w.caches.length := by
          rw [hle.len]; simp [caches_set_cache]
        have hother_caches : ∀ (y : Nat) (cy : BlockCache), y ≠ c → w.caches[y]? = some cy →
            ∃ cy1, w2.caches[y]? = some cy1 ∧ cache_le cy1 cy := by
          intro y cy hy hcy
          exact hle.caches y cy (by rw [getElem?_set_cache_ne _ _ _ _ (Ne.symm hy)]; exact hcy)
        have hslots2 : ∀ j, j ≠ m → ∀ ej, cache.entries[j]? = some ej →
            ∃ ej1, cache2.entries[j]? = some ej1 ∧ slot_le ej1 (aged ej) ∧
              (ej.ref ≠ 0 → ej1 = ej) := by
          intro j hj ej hej
          refine ⟨aged ej, by rw [hothers j hj]; simp [hej], slot_le_refl _, ?_⟩
          intro hr
          simp [aged, hr]
        have hf2 := slot_le_fields hsl2
        have ha := aged_fields ev
        by_cases hret : ret < 0
        · simp only [hret, if_true, Except.ok.injEq, Prod.mk.injEq] at h
          obtain ⟨⟨hr, ht⟩, hw⟩ := h
          subst hw
          refine ⟨hlen01, hother_caches, Or.inr ⟨rfl, m, ev, cache2, e2, hev, hevr, hc2, hlen2,
            hslots2, he2, by rw [hf2.1, ha.1], Or.inl ⟨ht.symm, by omega, Or.inl ?_⟩⟩⟩
          rw [hf2.2.2.1, ha.2.2.1]
        · simp only [hret, if_false, hc2, he2] at h
          -- the slots of the final cache, given the final content of the victim slot
          have hfinal : ∀ (w3 : World) (x : BlockCachedTable), w3.caches = w2.caches →
              (w3.set_cache c (cache2.set_entry m x)).caches.length = w.caches.length ∧
              (∀ (y : Nat) (cy : BlockCache), y ≠ c → w.caches[y]? = some cy →
                ∃ cy1, (w3.set_cache c (cache2.set_entry m x)).caches[y]? = some cy1 ∧
                  cache_le cy1 cy) ∧
              (w3.set_cache c (cache2.set_entry m x)).caches[c]? = some (cache2.set_entry m x) ∧
              (cache2.set_entry m x).entries.length = cache.entries.length ∧
              (∀ j, j ≠ m → ∀ ej, cache.entries[j]? = some ej →
                ∃ ej1, (cache2.set_entry m x).entries[j]? = some ej1 ∧ slot_le ej1 (aged ej) ∧
                  (ej.ref ≠ 0 → ej1 = ej)) ∧
              (cache2.set_entry m x).entries[m]? = some x := by
            intro w3 x hw3
            have hc3 : w3.caches[c]? = some cache2 := by rw [hw3]; exact hc2
            refine ⟨?_, ?_, getElem?_set_cache_self w3 c _ cache2 hc3, ?_, ?_,
              getElem?_set_entry_self cache2 m x e2 he2⟩
            · simp [caches_set_cache, hw3, hlen01]
            · intro y cy hy hcy
              rw [getElem?_set_cache_ne _ _ _ _ (Ne.symm hy), hw3]
              exact hother_caches y cy hy hcy
            · simp [BlockCache.set_entry, hlen2]
            · intro j hj ej hej
              simp only [BlockCache.set_entry, List.getElem?_set_ne (Ne.symm hj)]
              exact hslots2 j hj ej hej
          have hw1 : wrap_int (e2.ref + 1) = 1 := by
            rw [hf2.2.2.2.2, ha.2.2.2.2, hevr]; decide
          have h33 : wrap_int (32 + 1) = 33 := by decide
          cases rd with
          | true =>
            simp only [if_true] at h
            rcases hp : bdrv_pread bs offset e2.data cache2.table_size w2 with ⟨ret3, data3, w3⟩
            have hp3 : w3.caches = w2.caches := by rw [bdrv_pread] at hp; cases hp; rfl
            simp only [hp] at h
            by_cases hs : ret3 < 0
            · simp only [hs, if_true, Except.ok.injEq, Prod.mk.injEq] at h
              obtain ⟨⟨hr, ht⟩, hw⟩ := h
              subst hw
              obtain ⟨g1, g2, g3, g4, g5, g6⟩ := hfinal w3 _ hp3
              exact ⟨g1, g2, Or.inr ⟨rfl, m, ev, _, _, hev, hevr, g3, g4, g5, g6,
                by rw [hf2.1, ha.1], Or.inl ⟨ht.symm, by omega, Or.inr rfl⟩⟩⟩
            · simp only [hs, if_false] at h
              obtain ⟨g1, g2, g3, g4, g5, g6⟩ := hfinal w3
                { e2 with offset := offset, data := data3, cache_hits := 32 } hp3
              rw [do_get_found_eq c m _ _ _ g3 g6] at h
              simp only [Except.ok.injEq, Prod.mk.injEq] at h
              obtain ⟨⟨hr, ht⟩, hw⟩ := h
              subst hw
              refine ⟨by simpa [caches_set_cache] using g1, ?_, Or.inr ⟨rfl, m, ev, _, _, hev,
                hevr, getElem?_set_cache_self _ c _ _ g3, ?_, ?_,
                getElem?_set_entry_self _ m _ _ g6, by rw [hf2.1, ha.1],
                Or.inr ⟨by rw [← ht, hf2.1, ha.1], hr.symm, rfl, hw1, h33⟩⟩⟩
              · intro y cy hy hcy
                rw [getElem?_set_cache_ne _ _ _ _ (Ne.symm hy)]
                exact g2 y cy hy hcy
              · simpa [BlockCache.set_entry] using g4
              · intro j hj ej hej
                simp only [BlockCache.set_entry, List.getElem?_set_ne (Ne.symm hj)]
                simpa [BlockCache.set_entry, List.getElem?_set_ne (Ne.symm hj)] using
                  g5 j hj ej hej
          | false =>
            simp only [Bool.false_eq_true, if_false] at h
            obtain ⟨g1, g2, g3, g4, g5, g6⟩ := hfinal w2
              { e2 with offset := offset, cache_hits := 32 } rfl
            rw [do_get_found_eq c m _ _ _ g3 g6] at h
            simp only [Except.ok.injEq, Prod.mk.injEq] at h
            obtain ⟨⟨hr, ht⟩, hw⟩ := h
            subst hw
            refine ⟨by simpa [caches_set_cache] using g1, ?_, Or.inr ⟨rfl, m, ev, _, _, hev,
              hevr, getElem?_set_cache_self _ c _ _ g3, ?_, ?_,
              getElem?_set_entry_self _ m _ _ g6, by rw [hf2.1, ha.1],
              Or.inr ⟨by rw [← ht, hf2.1, ha.1], hr.symm, rfl, hw1, h33⟩⟩⟩
            · intro y cy hy hcy
              rw [getElem?_set_cache_ne _ _ _ _ (Ne.symm hy)]
              exact g2 y cy hy hcy
            · simpa [BlockCache.set_entry] using g4
            · intro j hj ej hej
              simp only [BlockCache.set_entry, List.getElem?_set_ne (Ne.symm hj)]
              simpa [BlockCache.set_entry, List.getElem?_set_ne (Ne.symm hj)] using
                g5 j hj ej hej

/-- C3: a slot with a pin count above 0 is left exactly as it is (offset, buffer
contents, dirty flag, pin count, hit counter) by every returning get (`rd` true)
or get_empty (`rd` false) for another offset, hit or miss, success or failure,
and a buffer handed out by the call belongs to another slot. -/
theorem C3_pinned_slot_untouched (fuel bs c offset s : Nat) (rd : Bool) (w : World)
    (cache : BlockCache) (es : BlockCachedTable) (r : Int) (t : Option Nat) (w1 : World)
    (hc : w.caches[c]? = some cache) (hs : cache.entries[s]? = some es) (hpin : 0 < es.ref)
    (hoff : es.offset ≠ offset)
    (h : block_cache_do_get fuel bs c offset rd w = .ok ((r, t), w1)) :
    ∃ cache1, w1.caches[c]? = some cache1 ∧ cache1.entries[s]? = some es ∧
      ∀ handle, t = some handle →
        ∃ (i : Nat) (e : BlockCachedTable), i ≠ s ∧ cache1.entries[i]? = some e ∧
          e.table = handle := by
  obtain ⟨_, _, hcase⟩ := do_get_effect fuel bs c offset rd w cache r t w1 hc h
  rcases hcase with ⟨i, e, _, hi, ho, _, ht, hw⟩ | ⟨_, m, ev, cache1, e1, hev, hevr, hc1, _,
      hslots, he1, htab, hres⟩
  · have his : i ≠ s := by
      rintro rfl
      rw [hs] at hi
      cases hi
      exact hoff ho
    subst hw
    refine ⟨_, getElem?_set_cache_self w c _ cache hc, ?_, ?_⟩
    · simp only [BlockCache.set_entry, List.getElem?_set_ne his]
      exact hs
    · intro handle hh
      rw [ht] at hh
      cases hh
      exact ⟨i, _, his, getElem?_set_entry_self cache i _ e hi, rfl⟩
  · have hms : s ≠ m := by
      rintro rfl
      rw [hs] at hev
      cases hev
      omega
    obtain ⟨ej1, hej1, _, hsame⟩ := hslots s hms es hs
    have : ej1 = es := hsame (by omega)
    subst this
    refine ⟨cache1, hc1, hej1, ?_⟩
    intro handle hh
    rcases hres with ⟨ht, _, _⟩ | ⟨ht, _, _, _, _⟩
    · rw [ht] at hh
      exact Option.noConfusion hh
    · rw [ht] at hh
      cases hh
      exact ⟨m, e1, Ne.symm hms, he1, htab⟩

/-- C3 witness: slot 0 is pinned twice and dirty; the get of offset 300 misses,
picks slot 1 and fails in its write-back; slot 0 is as before. -/
theorem C3_pinned_slot_untouched_witness :
    (c3_world.caches[0]? = some c3_cache ∧
      c3_cache.entries[0]? = some (BlockCachedTable.mk 1 [7] 100 true 3 2) ∧
      (0 : Int) < (BlockCachedTable.mk 1 [7] 100 true 3 2).ref ∧
      (BlockCachedTable.mk 1 [7] 100 true 3 2).offset ≠ 300 ∧
      block_cache_do_get 0 0 0 300 true c3_world
        = .ok ((-5, none), world_after (block_cache_do_get 0 0 0 300 true c3_world) c3_world)) ∧
    ∃ cache1, (world_after (block_cache_do_get 0 0 0 300 true c3_world) c3_world).caches[0]?
        = some cache1 ∧
      cache1.entries[0]? = some (BlockCachedTable.mk 1 [7] 100 true 3 2) ∧
      ∀ handle, (none : Option Nat) = some handle →
        ∃ (i : Nat) (e : BlockCachedTable), i ≠ 0 ∧ cache1.entries[i]? = some e ∧
          e.table = handle :=
  ⟨⟨rfl, rfl, by decide, by decide, by decide⟩,
   C3_pinned_slot_untouched 0 0 0 300 0 true c3_world _ _ (-5) none _ rfl rfl (by decide)
     (by decide) (by decide)⟩

/-- The calls into the backing store of a returning `block_cache_do_get`: none on
a hit; on a miss those of the `block_cache_entry_flush` of the victim slot, and
after its success at most one read. -/
theorem do_get_log (fuel bs c offset : Nat) (rd : Bool) (w : World) (cache : BlockCache)
    (r : Int) (t : Option Nat) (w1 : World) (hc : w.caches[c]? = some cache)
    (h : block_cache_do_get fuel bs c offset rd w = .ok ((r, t), w1)) :
    (∃ i, find_offset cache.entries offset 0 = some i ∧ w1.log = w.log ∧ w1.disk = w.disk ∧
      w1.script = w.script) ∨
    (find_offset cache.entries offset 0 = none ∧
      ∃ (m : Nat) (ev : BlockCachedTable) (ret : Int) (w2 : World),
        cache.entries[m]? = some ev ∧ ev.ref = 0 ∧
        block_cache_entry_flush (block_cache_flush fuel) bs c m
          (w.set_cache c { cache with entries := cache.entries.map aged }) = .ok (ret, w2) ∧
        ((ret < 0 ∧ r = ret ∧ t = none ∧ w1 = w2) ∨
         (0 ≤ ret ∧ rd = false ∧ r = 0 ∧ w1.log = w2.log ∧ w1.disk = w2.disk ∧
            w1.script = w2.script) ∨
         (0 ≤ ret ∧ rd = true ∧ r = (if w2.script.headD 0 < 0 then w2.script.headD 0 else 0) ∧
            w1.log = w2.log ++ [BdrvCall.pread bs offset cache.table_size (w2.script.headD 0)] ∧
            w1.disk = w2.disk ∧ w1.script = w2.script.tail))) := by
  simp only [block_cache_do_get, hc] at h
  cases hfind : find_offset cache.entries offset 0 with
  | some i =>
    simp only [hfind] at h
    obtain ⟨j, e, hij, hj, _⟩ := find_offset_some offset cache.entries 0 i hfind
    have hij' : i = j := by omega
    subst hij'
    rw [do_get_found_eq c i w cache e hc hj] at h
    simp only [Except.ok.injEq, Prod.mk.injEq] at h
    rw [← h.2]
    exact Or.inl ⟨i, rfl, rfl, rfl, rfl⟩
  | none =>
    right
    simp only [hfind] at h
    refine ⟨rfl, ?_⟩
    cases hf : block_cache_find_entry_to_replace cache with
    | error f => simp [hf] at h
    | ok p =>
      obtain ⟨mi, cacheA⟩ := p
      obtain ⟨m, ev, hmi, hev, hevr, hcA⟩ := find_entry_to_replace_ok cache cacheA mi hf
      subst hmi
      subst hcA
      have hmi : ¬ ((m : Int) < 0) := by omega
      simp only [hf, hmi, if_false, Int.toNat_ofNat] at h
      have hcA := getElem?_set_cache_self w c { cache with entries := cache.entries.map aged }
        cache hc
      cases hef : block_cache_entry_flush (block_cache_flush fuel) bs c m
          (w.set_cache c { cache with entries := cache.entries.map aged }) with
      | error f => simp [hef] at h
      | ok q =>
        obtain ⟨ret, w2⟩ := q
        simp only [hef] at h
        refine ⟨m, ev, ret, w2, hev, hevr, hef, ?_⟩
        by_cases hret : ret < 0
        · simp only [hret, if_true, Except.ok.injEq, Prod.mk.injEq] at h
          exact Or.inl ⟨hret, h.1.1.symm, h.1.2.symm, h.2.symm⟩
        · simp only [hret, if_false] at h
          have hle := (entry_flush_spec _ (block_cache_flush_spec fuel) bs c m _ ret w2 hef).1
          obtain ⟨cache2, hc2, hcle⟩ := hle.caches c _ hcA
          simp only [hc2] at h
          cases he2 : cache2.entries[m]? with
          | none => simp [he2] at h
          | some e2 =>
            simp only [he2] at h
            have hts : cache2.table_size = cache.table_size := hcle.table_size
            cases rd with
            | true =>
              simp only [if_true] at h
              rcases hp : bdrv_pread bs offset e2.data cache2.table_size w2 with ⟨ret3, data3, w3⟩
              have hp1 : ret3 = w2.script.headD 0 := by rw [bdrv_pread] at hp; cases hp; rfl
              have hp3 : w3.caches = w2.caches := by rw [bdrv_pread] at hp; cases hp; rfl
              have hp4 : w3.disk = w2.disk := by rw [bdrv_pread] at hp; cases hp; rfl
              have hp5 : w3.log = w2.log ++
                  [BdrvCall.pread bs offset cache2.table_size ret3] := by
                rw [bdrv_pread] at hp; cases hp; rfl
              have hp6 : w3.script = w2.script.tail := by rw [bdrv_pread] at hp; cases hp; rfl
              have hc3 : w3.caches[c]? = some cache2 := by rw [hp3]; exact hc2
              simp only [hp] at h
              refine Or.inr (Or.inr ⟨by omega, rfl, ?_⟩)
              by_cases hs : ret3 < 0
              · simp only [hs, if_true, Except.ok.injEq, Prod.mk.injEq] at h
                rw [← h.2, ← h.1.1, ← hp1, if_pos hs, ← hts]
                exact ⟨rfl, hp5, hp4, hp6⟩
              · simp only [hs, if_false] at h
                rw [do_get_found_eq c m _ _ _ (getElem?_set_cache_self w3 c _ cache2 hc3)
                  (getElem?_set_entry_self cache2 _ _ e2 he2)] at h
                simp only [Except.ok.injEq, Prod.mk.injEq] at h
                rw [← h.2, ← h.1.1, ← hp1, if_neg hs, ← hts]
                exact ⟨rfl, hp5, hp4, hp6⟩
            | false =>
              simp only [Bool.false_eq_true, if_false] at h
              rw [do_get_found_eq c m _ _ _ (getElem?_set_cache_self w2 c _ cache2 hc2)
                (getElem?_set_entry_self cache2 _ _ e2 he2)] at h
              simp only [Except.ok.injEq, Prod.mk.injEq] at h
              rw [← h.2, ← h.1.1]
              exact Or.inr (Or.inl ⟨by omega, rfl, rfl, rfl, rfl, rfl⟩)

/-! ### The device-flush obligation -/

/-- C7: `block_cache_depends_on_flush` sets the flag. While the flag is set, a
`block_cache_entry_flush` of a dirty slot that returns has either written the
slot right after a successful device sync (the own sync of the call, or the one
that ends the flush of the dependency) and left the flag cleared, or has
returned an error with the cache, its flag included, as before; in the second
case, without a dependency, the failed sync is the only call issued. Without a
dependency the call always returns. -/
theorem C7_device_flush_obligation (fuel bs c i : Nat) (w0 : World) (cache0 : BlockCache)
    (e : BlockCachedTable) (hc0 : w0.caches[c]? = some cache0)
    (he : cache0.entries[i]? = some e) (hd : e.dirty = true) (ho : e.offset ≠ 0) :
    ∃ w, block_cache_depends_on_flush c w0 = .ok w ∧
      w.caches[c]? = some { cache0 with depends_on_flush := true } ∧
      (∀ (r : Int) (w1 : World),
        block_cache_entry_flush (block_cache_flush fuel) bs c i w = .ok (r, w1) →
        (∃ pre s ret, 0 ≤ s ∧
          w1.log = w.log ++ pre ++ [BdrvCall.flush bs s,
            BdrvCall.pwrite bs e.offset (e.data.take cache0.table_size) ret] ∧
          (∃ cache1, w1.caches[c]? = some cache1 ∧ cache1.depends_on_flush = false) ∧
          r = if ret < 0 then ret else 0) ∨
        (r < 0 ∧ w1.caches[c]? = some { cache0 with depends_on_flush := true } ∧
          (cache0.depends = none → w1.log = w.log ++ [BdrvCall.flush bs r]) ∧
          (∀ d, cache0.depends = some d → block_cache_flush fuel bs d w = .ok (r, w1)))) ∧
      (cache0.depends = none →
        ∃ r w1, block_cache_entry_flush (block_cache_flush fuel) bs c i w = .ok (r, w1)) := by
  have hw : block_cache_depends_on_flush c w0
      = .ok (w0.set_cache c { cache0 with depends_on_flush := true }) := by
    simp only [block_cache_depends_on_flush, hc0]
  have hc := getElem?_set_cache_self w0 c { cache0 with depends_on_flush := true } cache0 hc0
  have he' : ({ cache0 with depends_on_flush := true } : BlockCache).entries[i]? = some e := he
  refine ⟨_, hw, hc, ?_, ?_⟩
  · intro r w1 h
    rcases Option.eq_none_or_eq_some cache0.depends with hdep | ⟨d, hdep⟩
    · rw [entry_flush_sync _ bs c i _ _ e hc he' hd ho hdep rfl] at h
      by_cases hs : (w0.set_cache c { cache0 with depends_on_flush := true }).script.headD 0 < 0
      · simp only [hs, if_true, Except.ok.injEq, Prod.mk.injEq] at h
        obtain ⟨hr, hw1⟩ := h
        subst hw1
        subst hr
        refine Or.inr ⟨hs, hc, fun _ => rfl, fun d hd' => ?_⟩
        rw [hdep] at hd'
        exact Option.noConfusion hd'
      · simp only [hs, if_false] at h
        have hcf : (bdrv_flush bs (w0.set_cache c { cache0 with depends_on_flush := true })).2.caches[c]?
            = some { cache0 with depends_on_flush := true } := hc
        have hc2 := getElem?_set_cache_self _ c
          { ({ cache0 with depends_on_flush := true } : BlockCache) with
            depends_on_flush := false } _ hcf
        rw [entry_flush_write_eq bs c i _ _ e hc2 he] at h
        left
        refine ⟨[], (w0.set_cache c { cache0 with depends_on_flush := true }).script.headD 0,
          (w0.set_cache c { cache0 with depends_on_flush := true }).script.tail.headD 0,
          by omega, ?_⟩
        split at h
        · rename_i hs2
          simp only [Except.ok.injEq, Prod.mk.injEq] at h
          obtain ⟨hr, hw1⟩ := h
          subst hw1
          refine ⟨by simp [bdrv_pwrite, bdrv_flush, World.set_cache], ⟨_, hc2, rfl⟩, ?_⟩
          rw [← hr]
          simp only [World.set_cache, bdrv_flush] at hs2 ⊢
          rw [if_pos hs2]
        · rename_i hs2
          simp only [Except.ok.injEq, Prod.mk.injEq] at h
          obtain ⟨hr, hw1⟩ := h
          subst hw1
          refine ⟨by simp [bdrv_pwrite, bdrv_flush, World.set_cache],
            ⟨_, getElem?_set_cache_self _ c _ _ hc2, rfl⟩, ?_⟩
          rw [← hr]
          simp only [World.set_cache, bdrv_flush] at hs2 ⊢
          rw [if_neg hs2]
    · rw [entry_flush_dep _ bs c i d _ _ e hc he' hd ho hdep] at h
      cases hfd : block_cache_flush fuel bs d
          (w0.set_cache c { cache0 with depends_on_flush := true }) with
      | error f => simp [hfd] at h
      | ok p =>
        obtain ⟨rd, wd⟩ := p
        have hframe := dep_flush_frame fuel bs c d _ rd wd ((dep_of_cache hc).trans hdep) hfd
        rw [hc] at hframe
        simp only [hfd] at h
        by_cases hrd : rd < 0
        · simp only [hrd, if_true, Except.ok.injEq, Prod.mk.injEq] at h
          obtain ⟨hr, hw1⟩ := h
          subst hw1
          subst hr
          refine Or.inr ⟨hrd, hframe, fun hn => ?_, fun d' hd' => ?_⟩
          · rw [hdep] at hn
            exact Option.noConfusion hn
          · rw [hdep] at hd'
            cases hd'
            exact hfd
        · simp only [hrd, if_false, hframe] at h
          obtain ⟨_, ⟨pre, s, hlog, hs⟩, _⟩ :=
            (block_cache_flush_spec fuel bs d _ rd wd hfd).2.2.2 (by omega)
          have hc2 := getElem?_set_cache_self wd c
            { ({ cache0 with depends_on_flush := true } : BlockCache) with
              depends := none, depends_on_flush := false } _ hframe
          rw [entry_flush_write_eq bs c i _ _ e hc2 he] at h
          left
          refine ⟨pre, s, wd.script.headD 0, hs, ?_⟩
          split at h
          · rename_i hs2
            simp only [Except.ok.injEq, Prod.mk.injEq] at h
            obtain ⟨hr, hw1⟩ := h
            subst hw1
            refine ⟨by simp [bdrv_pwrite, World.set_cache, hlog], ⟨_, hc2, rfl⟩, ?_⟩
            rw [← hr]
            simp only [World.set_cache] at hs2 ⊢
            rw [if_pos hs2]
          · rename_i hs2
            simp only [Except.ok.injEq, Prod.mk.injEq] at h
            obtain ⟨hr, hw1⟩ := h
            subst hw1
            refine ⟨by simp [bdrv_pwrite, World.set_cache, hlog],
              ⟨_, getElem?_set_cache_self _ c _ _ hc2, rfl⟩, ?_⟩
            rw [← hr]
            simp only [World.set_cache] at hs2 ⊢
            rw [if_neg hs2]
  · intro hdep
    rw [entry_flush_sync _ bs c i _ _ e hc he' hd ho hdep rfl]
    by_cases hs : (w0.set_cache c { cache0 with depends_on_flush := true }).script.headD 0 < 0
    · simp only [hs, if_true]
      exact ⟨_, _, rfl⟩
    · simp only [hs, if_false]
      have hcf : (bdrv_flush bs (w0.set_cache c { cache0 with depends_on_flush := true })).2.caches[c]?
          = some { cache0 with depends_on_flush := true } := hc
      have hc2 := getElem?_set_cache_self _ c
        { ({ cache0 with depends_on_flush := true } : BlockCache) with
          depends_on_flush := false } _ hcf
      rw [entry_flush_write_eq bs c i _ _ e hc2 he]
      split
      · exact ⟨_, _, rfl⟩
      · exact ⟨_, _, rfl⟩

/-- C7 witness: after `block_cache_depends_on_flush` the entry flush of the dirty
slot returns, and it logs the device sync before the write. -/
theorem C7_device_flush_obligation_witness :
    (c7_world.caches[0]? = some c7_cache ∧
      c7_cache.entries[0]? = some (BlockCachedTable.mk 1 [7] 100 true 0 0) ∧
      (BlockCachedTable.mk 1 [7] 100 true 0 0).dirty = true ∧
      (BlockCachedTable.mk 1 [7] 100 true 0 0).offset ≠ 0) ∧
    (∃ w, block_cache_depends_on_flush 0 c7_world = .ok w ∧
      ∃ r w1, block_cache_entry_flush (block_cache_flush 0) 0 0 0 w = .ok (r, w1)) ∧
    (match block_cache_depends_on_flush 0 c7_world with
      | .ok w => (block_cache_entry_flush (block_cache_flush 0) 0 0 0 w).toOption.map
          (fun p => (p.1, p.2.log))
      | .error _ => none) =
      some (0, [BdrvCall.flush 0 0, BdrvCall.pwrite 0 100 [7] 0]) := by
  refine ⟨⟨rfl, rfl, rfl, by decide⟩, ?_, by decide⟩
  obtain ⟨w, hw, _, _, hret⟩ :=
    C7_device_flush_obligation 0 0 0 0 c7_world c7_cache _ rfl rfl rfl (by decide)
  exact ⟨w, hw, hret rfl⟩

/-! ### set_dependency -/

/-- A returning `block_cache_flush_dependency` of cache `c`: the flush of the
dependency returned, did not touch `c`, and on success the obligations of `c`
are cleared. -/
theorem flush_dependency_spec (fuel bs c d : Nat) (w : World) (cache : BlockCache) (r : Int)
    (w1 : World) (hc : w.caches[c]? = some cache) (hdep : cache.depends = some d)
    (h : block_cache_flush_dependency (block_cache_flush fuel) bs c w = .ok (r, w1)) :
    world_le bs w1 w ∧
    ∃ rd wd, block_cache_flush fuel bs d w = .ok (rd, wd) ∧ wd.caches[c]? = some cache ∧
      ((rd < 0 ∧ r = rd ∧ w1 = wd) ∨
       (rd = 0 ∧ r = 0 ∧
        w1 = wd.set_cache c { cache with depends := none, depends_on_flush := false } ∧
        ¬ has_dirty wd d ∧
        ∃ pre s, w1.log = w.log ++ pre ++ [BdrvCall.flush bs s] ∧ 0 ≤ s)) := by
  simp only [block_cache_flush_dependency, hc, hdep] at h
  cases hfd : block_cache_flush fuel bs d w with
  | error f => simp [hfd] at h
  | ok p =>
    obtain ⟨rd, wd⟩ := p
    have hframe := dep_flush_frame fuel bs c d w rd wd ((dep_of_cache hc).trans hdep) hfd
    rw [hc] at hframe
    obtain ⟨hle, _, _, hok⟩ := block_cache_flush_spec fuel bs d w rd wd hfd
    simp only [hfd] at h
    by_cases hrd : rd < 0
    · simp only [hrd, if_true, Except.ok.injEq, Prod.mk.injEq] at h
      rw [← h.2]
      exact ⟨hle, rd, wd, rfl, hframe, Or.inl ⟨hrd, h.1.symm, rfl⟩⟩
    · simp only [hrd, if_false, hframe, Except.ok.injEq, Prod.mk.injEq] at h
      obtain ⟨hr0, hlog, hnd⟩ := hok (by omega)
      have hq : ∀ b, cache.depends = some b → ¬ has_dirty wd b := by
        intro b hb
        rw [hdep] at hb
        cases hb
        exact hnd
      rw [← h.2]
      refine ⟨world_le_trans (world_le_resolve bs c wd cache hframe hq) hle, rd, wd, rfl, hframe,
        Or.inr ⟨hr0, h.1.symm, rfl, hnd, ?_⟩⟩
      obtain ⟨pre, s, hl, hs⟩ := hlog
      exact ⟨pre, s, hl, hs⟩

theorem dep_set_cache_ne (w : World) (a y : Nat) (x : BlockCache) (h : a ≠ y) :
    dep (w.set_cache a x) y = dep w y := by
  simp only [dep, getElem?_set_cache_ne w a y x h]

/-- What a returning `block_cache_set_dependency(a, c)` has done: some flushes, leading to a world `w2` in which `c` has no dependency,
and then, on success, the new edge. -/
theorem set_dependency_effect (fuel bs a c : Nat) (w : World) (r : Int) (w1 : World)
    (h : block_cache_set_dependency fuel bs a c w = .ok (r, w1)) :
    ∃ w2, world_le bs w2 w ∧
      ((r < 0 ∧ w1 = w2) ∨
       (r = 0 ∧ dep w2 c = none ∧ (dep w2 a = none ∨ dep w2 a = some c) ∧
        (w2 = w ∨ ∃ pre s, w2.log = w.log ++ pre ++ [BdrvCall.flush bs s] ∧ 0 ≤ s) ∧
        ∃ ca2, w2.caches[a]? = some ca2 ∧
          w1 = w2.set_cache a { ca2 with depends := some c })) := by
  cases hcc : w.caches[c]? with
  | none => simp [block_cache_set_dependency, block_cache_set_dependency_two_bs, hcc] at h
  | some cc =>
  simp only [block_cache_set_dependency, block_cache_set_dependency_two_bs, hcc] at h
  -- first step: the dependency of `c`
  have step1 : ∃ (r1 : Int) (wA : World),
      (if cc.depends.isSome = true then
        block_cache_flush_dependency (block_cache_flush fuel) bs c w
       else .ok (0, w)) = .ok (r1, wA) ∧ world_le bs wA w ∧
      (r1 < 0 ∨ (r1 = 0 ∧ dep wA c = none ∧
        (wA = w ∨ ∃ pre s, wA.log = w.log ++ pre ++ [BdrvCall.flush bs s] ∧ 0 ≤ s))) := by
    cases hd : cc.depends with
    | none =>
      refine ⟨0, w, by simp, world_le_refl bs w, Or.inr ⟨rfl, ?_, Or.inl rfl⟩⟩
      rw [dep_of_cache hcc, hd]
    | some d =>
      simp only [hd, Option.isSome_some, if_true] at h ⊢
      cases hfd : block_cache_flush_dependency (block_cache_flush fuel) bs c w with
      | error f => simp [hfd] at h
      | ok p =>
        obtain ⟨r1, wA⟩ := p
        obtain ⟨hle, rd, wd, _, hframe, hcase⟩ :=
          flush_dependency_spec fuel bs c d w cc r1 wA hcc hd hfd
        refine ⟨r1, wA, rfl, hle, ?_⟩
        rcases hcase with ⟨hrd, hr, _⟩ | ⟨_, hr, hw, _, hlog⟩
        · exact Or.inl (by omega)
        · refine Or.inr ⟨hr, ?_, Or.inr hlog⟩
          rw [hw, dep_of_cache (getElem?_set_cache_self wd c _ cc hframe)]
  obtain ⟨r1, wA, hstep1, hleA, hres1⟩ := step1
  simp only [hstep1] at h
  rcases hres1 with hr1 | ⟨hr1, hdepc, hlogA⟩
  · simp only [hr1, if_true, Except.ok.injEq, Prod.mk.injEq] at h
    exact ⟨wA, hleA, Or.inl ⟨by omega, h.2.symm⟩⟩
  · subst hr1
    cases hcaA : wA.caches[a]? with
    | none => simp [hcaA] at h
    | some caA =>
    simp only [lt_self_iff_false, if_false, hcaA] at h
    by_cases hcond : caA.depends.isSome = true ∧ caA.depends ≠ some c
    · rw [if_pos hcond] at h
      obtain ⟨b, hb⟩ := Option.isSome_iff_exists.mp hcond.1
      cases hfd : block_cache_flush_dependency (block_cache_flush fuel) bs a wA with
      | error f => simp [hfd] at h
      | ok p =>
        obtain ⟨r2, wB⟩ := p
        obtain ⟨hle, rd, wd, _, hframe, hcase⟩ :=
          flush_dependency_spec fuel bs a b wA caA r2 wB hcaA hb hfd
        have hleB := world_le_trans hle hleA
        simp only [hfd] at h
        rcases hcase with ⟨hrd, hr, _⟩ | ⟨_, hr, hw, _, pre, s, hlog, hs⟩
        · have : r2 < 0 := by omega
          simp only [this, if_true, Except.ok.injEq, Prod.mk.injEq] at h
          exact ⟨wB, hleB, Or.inl ⟨by omega, h.2.symm⟩⟩
        · subst hr
          have hcB : wB.caches[a]? = some { caA with depends := none, depends_on_flush := false } := by
            rw [hw]; exact getElem?_set_cache_self wd a _ caA hframe
          simp only [lt_self_iff_false, if_false, hcB, Except.ok.injEq, Prod.mk.injEq] at h
          refine ⟨wB, hleB, Or.inr ⟨h.1.symm, ?_, Or.inl ?_, Or.inr ?_, _, hcB, h.2.symm⟩⟩
          · cases hdc : dep wB c with
            | none => rfl
            | some x =>
              have := dep_mono hle hdc
              rw [hdepc] at this
              exact Option.noConfusion this
          · rw [dep_of_cache hcB]
          · obtain ⟨evsA, hevsA, _⟩ := hleA.log
            exact ⟨evsA ++ pre, s, by rw [hlog, hevsA]; simp, hs⟩
    · rw [if_neg hcond] at h
      simp only [lt_self_iff_false, if_false, hcaA, Except.ok.injEq, Prod.mk.injEq] at h
      refine ⟨wA, hleA, Or.inr ⟨h.1.symm, hdepc, ?_, hlogA, caA, hcaA, h.2.symm⟩⟩
      rw [dep_of_cache hcaA]
      cases hd : caA.depends with
      | none => exact Or.inl rfl
      | some x =>
        right
        by_contra hne
        apply hcond
        rw [hd]
        exact ⟨rfl, hne⟩

theorem reachable_run (allowed : Op → Prop) :
    ∀ (ops : List Op) (w w1 : World), ReachableBy allowed w → (∀ op ∈ ops, allowed op) →
      run_ops ops w = .ok w1 → ReachableBy allowed w1 := by
  intro ops
  induction ops with
  | nil =>
    intro w w1 hw _ h
    simp only [run_ops, Except.ok.injEq] at h
    rw [← h]
    exact hw
  | cons op rest ih =>
    intro w w1 hw hall h
    simp only [run_ops] at h
    cases he : exec op w with
    | error f => simp [he] at h
    | ok w2 =>
      simp only [he] at h
      exact ih w2 w1 (ReachableBy.step op w w2 hw (hall op (List.mem_cons_self op rest)) he)
        (fun o ho => hall o (List.mem_cons_of_mem op ho)) h

/-- C9 (as stated, refuted): after creating three caches with a dirty table each
and calling `set_dependency(0, 1)` and `set_dependency(1, 2)`, cache 0 depends on
cache 1 and cache 1, its dependency, depends on cache 2; the flush of cache 0
then flushes two hops: it writes the table of cache 2, then that of cache 1,
then its own. -/
theorem C9_counterexample :
    ReachableBy dep_ops c9_world ∧ dep c9_world 0 = some 1 ∧ dep c9_world 1 = some 2 ∧
    (block_cache_flush 3 0 0 c9_world).toOption.map (fun p => (p.1, p.2.log)) =
      some (0, [BdrvCall.pwrite 0 300 [9] 0, BdrvCall.flush 0 0,
                BdrvCall.pwrite 0 200 [8] 0, BdrvCall.flush 0 0,
                BdrvCall.pwrite 0 100 [7] 0, BdrvCall.flush 0 0]) := by
  refine ⟨?_, by decide, by decide, by decide⟩
  apply reachable_run dep_ops c9_ops (World.initial []) c9_world (ReachableBy.initial [])
  · intro op hop
    simp only [c9_ops, List.mem_cons, List.mem_singleton, List.not_mem_nil, or_false] at hop
    rcases hop with h | h | h | h | h | h | h | h | h | h | h | h | h | h | h | h | h <;>
      subst h <;> simp [dep_ops]
  · decide

/-- When the new dependency has no dependency of its own and the cache has none
or the very same one, `block_cache_set_dependency` flushes nothing and only
records the edge. -/
theorem set_dependency_plain (fuel bs a c : Nat) (w : World) (ca cc : BlockCache)
    (hca : w.caches[a]? = some ca) (hcc : w.caches[c]? = some cc) (hdc : cc.depends = none)
    (hda : ca.depends = none ∨ ca.depends = some c) :
    block_cache_set_dependency fuel bs a c w
      = .ok (0, w.set_cache a { ca with depends := some c }) := by
  simp only [block_cache_set_dependency, block_cache_set_dependency_two_bs, hcc, hdc,
    Option.isSome_none, Bool.false_eq_true, if_false]
  have h0 : ¬ ((0 : Int) < 0) := by decide
  simp only [h0, if_false, hca]
  rcases hda with hda | hda
  · simp [hda, hca]
  · simp [hda, hca]

/-- C9 (amended): a `set_dependency(a, c)` with `a` other than `c` that returns
success leaves `a` depending on `c` and `c` without dependency of its own, and
creates no other edge: an edge of another cache that is there afterwards was
there before. A flush creates no edge. When `c` has no dependency and `a` has
none or depends on `c` already, the call returns success having flushed nothing
and only recorded the edge: every other cache has the dependency it had, so a
cache that depended on `a` then heads a chain of two hops. -/
theorem C9_edge_depth_at_assignment (fuel bs a c : Nat) (w : World) (hac : a ≠ c) :
    (∀ w1, block_cache_set_dependency fuel bs a c w = .ok (0, w1) →
      dep w1 a = some c ∧ dep w1 c = none ∧
      ∀ y d, y ≠ a → dep w1 y = some d → dep w y = some d) ∧
    (∀ x r w1, block_cache_flush fuel bs x w = .ok (r, w1) →
      ∀ y d, dep w1 y = some d → dep w y = some d) ∧
    (∀ ca cc, w.caches[a]? = some ca → w.caches[c]? = some cc → cc.depends = none →
      (ca.depends = none ∨ ca.depends = some c) →
      ∃ w1, block_cache_set_dependency fuel bs a c w = .ok (0, w1) ∧
        w1 = w.set_cache a { ca with depends := some c } ∧
        (∀ y, y ≠ a → dep w1 y = dep w y) ∧
        ∀ y, y ≠ a → dep w y = some a → dep w1 y = some a ∧ dep w1 a = some c) := by
  refine ⟨?_, ?_, ?_⟩
  · intro w1 h
    obtain ⟨w2, hle, hcase⟩ := set_dependency_effect fuel bs a c w 0 w1 h
    rcases hcase with ⟨hneg, _⟩ | ⟨_, hdepc, _, _, ca2, hca2, hw1⟩
    · omega
    · subst hw1
      refine ⟨?_, ?_, ?_⟩
      · rw [dep_of_cache (getElem?_set_cache_self w2 a _ ca2 hca2)]
      · rw [dep_set_cache_ne w2 a c _ hac]
        exact hdepc
      · intro y d hy hd
        rw [dep_set_cache_ne w2 a y _ (Ne.symm hy)] at hd
        exact dep_mono hle hd
  · intro x r w1 h y d hd
    exact dep_mono (block_cache_flush_spec fuel bs x w r w1 h).1 hd
  · intro ca cc hca hcc hdc hda
    refine ⟨_, set_dependency_plain fuel bs a c w ca cc hca hcc hdc hda, rfl, ?_, ?_⟩
    · intro y hy
      exact dep_set_cache_ne w a y _ (Ne.symm hy)
    · intro y hy hd
      refine ⟨?_, ?_⟩
      · rw [dep_set_cache_ne w a y _ (Ne.symm hy)]
        exact hd
      · rw [dep_of_cache (getElem?_set_cache_self w a _ ca hca)]

/-- C9 witness: `set_dependency(0, 2)` on three caches of which cache 0 depends on
cache 1; and `set_dependency(1, 2)` on the same caches, which leaves the chain
0 -> 1 -> 2. -/
theorem C9_edge_depth_at_assignment_witness :
    (((0 : Nat) ≠ 2 ∧
      block_cache_set_dependency 1 0 0 2 c8_world = .ok (0,
        world_after (block_cache_set_dependency 1 0 0 2 c8_world) c8_world)) ∧
    dep (world_after (block_cache_set_dependency 1 0 0 2 c8_world) c8_world) 0 = some 2 ∧
    dep (world_after (block_cache_set_dependency 1 0 0 2 c8_world) c8_world) 2 = none ∧
    ∀ y d, y ≠ 0 →
      dep (world_after (block_cache_set_dependency 1 0 0 2 c8_world) c8_world) y = some d →
      dep c8_world y = some d) ∧
    ((1 : Nat) ≠ 2 ∧ dep c8_world 0 = some 1 ∧
      ∃ w1, block_cache_set_dependency 1 0 1 2 c8_world = .ok (0, w1) ∧
        dep w1 0 = some 1 ∧ dep w1 1 = some 2) := by
  refine ⟨⟨⟨by decide, by decide⟩,
    (C9_edge_depth_at_assignment 1 0 0 2 c8_world (by decide)).1 _ (by decide)⟩,
    by decide, by decide, ?_⟩
  obtain ⟨w1, h, _, _, hchain⟩ :=
    (C9_edge_depth_at_assignment 1 0 1 2 c8_world (by decide)).2.2
      (dep_cache 2 200 8 none) (dep_cache 3 300 9 none) (by decide) (by decide) rfl (Or.inl rfl)
  exact ⟨w1, h, hchain 0 (by decide) (by decide)⟩

/-! ### Offset uniqueness -/

theorem unique_offsets_from {w1 w : World} (h : offsets_from w1 w) (hu : unique_offsets w) :
    unique_offsets w1 := by
  intro c cache1 i j ei ej hc hi hj hoff hne
  obtain ⟨cache, hc0, hslots⟩ := h c cache1 hc
  obtain ⟨ei0, hi0, hoi⟩ := hslots i ei hi
  obtain ⟨ej0, hj0, hoj⟩ := hslots j ej hj
  exact hu c cache i j ei0 ej0 hc0 hi0 hj0 (by rw [hoi, hoj, hoff]) (by rw [hoi]; exact hne)

theorem offsets_from_world_le {bs : Nat} {w1 w : World} (h : world_le bs w1 w) :
    offsets_from w1 w := by
  intro c cache1 hc1
  obtain ⟨cache, hc, hle⟩ := world_le_cache_back h hc1
  refine ⟨cache, hc, ?_⟩
  intro i e1 he1
  obtain ⟨e, he, hsl⟩ := cache_le_slot_back hle he1
  exact ⟨e, he, (slot_le_fields hsl).2.2.1.symm⟩

theorem offsets_from_trans {w2 w1 w : World} (h21 : offsets_from w2 w1)
    (h10 : offsets_from w1 w) : offsets_from w2 w := by
  intro c cache2 hc2
  obtain ⟨cache1, hc1, hs1⟩ := h21 c cache2 hc2
  obtain ⟨cache, hc, hs⟩ := h10 c cache1 hc1
  refine ⟨cache, hc, ?_⟩
  intro i e2 he2
  obtain ⟨e1, he1, ho1⟩ := hs1 i e2 he2
  obtain ⟨e, he, ho⟩ := hs i e1 he1
  exact ⟨e, he, ho.trans ho1⟩

/-- Replacing a cache by one whose slots have the same offsets. -/
theorem offsets_from_set_cache (w : World) (c : Nat) (cache x : BlockCache)
    (hc : w.caches[c]? = some cache)
    (hx : ∀ (i : Nat) (e1 : BlockCachedTable), x.entries[i]? = some e1 →
      ∃ e, cache.entries[i]? = some e ∧ e.offset = e1.offset) :
    offsets_from (w.set_cache c x) w := by
  intro y cy hy
  by_cases hyc : c = y
  · subst hyc
    rw [getElem?_set_cache_self w c x cache hc] at hy
    cases hy
    exact ⟨cache, hc, hx⟩
  · rw [getElem?_set_cache_ne w c y x hyc] at hy
    exact ⟨cy, hy, fun i e1 he1 => ⟨e1, he1, rfl⟩⟩

/-- Replacing one slot by a slot with the same offset. -/
theorem offsets_from_set_entry (w : World) (c i : Nat) (cache : BlockCache)
    (e x : BlockCachedTable) (hc : w.caches[c]? = some cache) (he : cache.entries[i]? = some e)
    (hx : x.offset = e.offset) : offsets_from (w.set_cache c (cache.set_entry i x)) w := by
  apply offsets_from_set_cache w c cache _ hc
  intro j e1 hj
  by_cases hji : i = j
  · subst hji
    rw [getElem?_set_entry_self cache i x e he] at hj
    cases hj
    exact ⟨e, he, hx.symm⟩
  · simp only [BlockCache.set_entry, List.getElem?_set_ne hji] at hj
    exact ⟨e1, hj, rfl⟩

theorem find_table_some (table : Nat) :
    ∀ (es : List BlockCachedTable) (k i : Nat), find_table es table k = some i →
      ∃ (j : Nat) (e : BlockCachedTable), i = k + j ∧ es[j]? = some e ∧ e.table = table := by
  intro es
  induction es with
  | nil => intro k i h; simp [find_table] at h
  | cons e rest ih =>
    intro k i h
    simp only [find_table] at h
    by_cases he : e.table = table
    · simp only [he, if_true, Option.some.injEq] at h
      exact ⟨0, e, by omega, List.getElem?_cons_zero, he⟩
    · simp only [he, if_false] at h
      obtain ⟨j, e', hi, hj, ho⟩ := ih (k + 1) i h
      exact ⟨j + 1, e', by omega, by simpa using hj, ho⟩

theorem find_offset_none_elim (offset : Nat) :
    ∀ (es : List BlockCachedTable) (k : Nat), find_offset es offset k = none →
      ∀ (j : Nat) (e : BlockCachedTable), es[j]? = some e → e.offset ≠ offset := by
  intro es
  induction es with
  | nil => intro k _ j e hj; simp at hj
  | cons e0 rest ih =>
    intro k h j e hj
    simp only [find_offset] at h
    by_cases he : e0.offset = offset
    · simp [he] at h
    · simp only [he, if_false] at h
      cases j with
      | zero =>
        simp only [List.getElem?_cons_zero, Option.some.injEq] at hj
        subst hj
        exact he
      | succ j' =>
        simp only [List.getElem?_cons_succ] at hj
        exact ih (k + 1) h j' e hj

/-- A returning get or get_empty keeps the offsets unique. -/
theorem unique_offsets_do_get (fuel bs c offset : Nat) (rd : Bool) (w : World) (r : Int)
    (t : Option Nat) (w1 : World) (hu : unique_offsets w)
    (h : block_cache_do_get fuel bs c offset rd w = .ok ((r, t), w1)) : unique_offsets w1 := by
  cases hc : w.caches[c]? with
  | none => simp [block_cache_do_get, hc] at h
  | some cache =>
    obtain ⟨hlen, hothers, hcase⟩ := do_get_effect fuel bs c offset rd w cache r t w1 hc h
    rcases hcase with ⟨i, e, _, hi, _, _, _, hw⟩ | ⟨hmiss, m, ev, cache1, e1, hev, _, hc1, hlen1,
        hslots, he1, _, hres⟩
    · rw [hw]
      exact unique_offsets_from (offsets_from_set_entry w c i cache e _ hc hi rfl) hu
    · have hoff1 : e1.offset = ev.offset ∨ e1.offset = 0 ∨ e1.offset = offset := by
        rcases hres with ⟨_, _, h' | h'⟩ | ⟨_, _, h', _, _⟩
        · exact Or.inl h'
        · exact Or.inr (Or.inl h')
        · exact Or.inr (Or.inr h')
      have hback : ∀ (j : Nat) (ej1 : BlockCachedTable), j ≠ m → cache1.entries[j]? = some ej1 →
          ∃ ej, cache.entries[j]? = some ej ∧ ej.offset = ej1.offset := by
        intro j ej1 hjm hj1
        have hjlt : j < cache.entries.length := by rw [← hlen1]; exact getElem?_some_lt hj1
        obtain ⟨ej1', hj1', hsl, _⟩ := hslots j hjm _ (List.getElem?_eq_getElem hjlt)
        rw [hj1] at hj1'
        cases hj1'
        refine ⟨_, List.getElem?_eq_getElem hjlt, ?_⟩
        rw [(slot_le_fields hsl).2.2.1, (aged_fields _).2.2.1]
      -- a slot other than the victim never has the offset of the new victim slot
      have hclash : ∀ (j : Nat) (ej1 : BlockCachedTable), j ≠ m → cache1.entries[j]? = some ej1 →
          ej1.offset = e1.offset → e1.offset ≠ 0 → False := by
        intro j ej1 hjm hj1 hoff hne
        obtain ⟨ej, hej, hoj⟩ := hback j ej1 hjm hj1
        rcases hoff1 with h' | h' | h'
        · exact hjm (hu c cache j m ej ev hc hej hev (by rw [hoj, hoff, h'])
            (by rw [hoj, hoff]; exact hne))
        · exact hne h'
        · exact find_offset_none_elim offset cache.entries 0 hmiss j ej hej
            (by rw [hoj, hoff, h'])
      intro y cy i j ei ej hy hi hj hoff hne
      by_cases hyc : y = c
      · subst hyc
        rw [hc1] at hy
        cases hy
        by_cases him : i = m
        · by_cases hjm : j = m
          · rw [him, hjm]
          · exfalso
            subst him
            rw [he1] at hi
            cases hi
            exact hclash j ej hjm hj hoff.symm hne
        · by_cases hjm : j = m
          · exfalso
            subst hjm
            rw [he1] at hj
            cases hj
            exact hclash i ei him hi hoff (by rw [← hoff]; exact hne)
          · obtain ⟨ei0, hi0, hoi⟩ := hback i ei him hi
            obtain ⟨ej0, hj0, hoj⟩ := hback j ej hjm hj
            exact hu y cache i j ei0 ej0 hc hi0 hj0 (by rw [hoi, hoj, hoff])
              (by rw [hoi]; exact hne)
      · have hylt : y < w.caches.length := by rw [← hlen]; exact getElem?_some_lt hy
        obtain ⟨cy1, hcy1, hcle⟩ := hothers y _ hyc (List.getElem?_eq_getElem hylt)
        rw [hy] at hcy1
        cases hcy1
        obtain ⟨ei0, hi0, hsi⟩ := cache_le_slot_back hcle hi
        obtain ⟨ej0, hj0, hsj⟩ := cache_le_slot_back hcle hj
        exact hu y _ i j ei0 ej0 (List.getElem?_eq_getElem hylt) hi0 hj0
          (by rw [← (slot_le_fields hsi).2.2.1, ← (slot_le_fields hsj).2.2.1, hoff])
          (by rw [← (slot_le_fields hsi).2.2.1]; exact hne)

theorem except_map_ok {α β : Type} {x : Except Fault α} {f : α → β} {b : β}
    (h : x.map f = .ok b) : ∃ a, x = .ok a ∧ f a = b := by
  cases x with
  | error e => simp [Except.map] at h
  | ok a =>
    simp only [Except.map, Except.ok.injEq] at h
    exact ⟨a, rfl, h⟩

theorem unique_offsets_create (n ts : Nat) (ty : BlockTableType) (w : World)
    (hu : unique_offsets w) : unique_offsets (block_cache_create n ts ty w).2 := by
  intro c cache i j ei ej hc hi hj hoff hne
  simp only [block_cache_create] at hc
  by_cases hlt : c < w.caches.length
  · rw [List.getElem?_append_left hlt] at hc
    exact hu c cache i j ei ej hc hi hj hoff hne
  · exfalso
    rw [List.getElem?_append_right (by omega)] at hc
    have hlt2 := getElem?_some_lt hc
    simp only [List.length_singleton] at hlt2
    have h0 : c - w.caches.length = 0 := by omega
    rw [h0] at hc
    simp only [List.getElem?_cons_zero, Option.some.injEq] at hc
    subst hc
    have := alloc_entries_idle w.brk n ts ei (List.getElem?_mem hi)
    exact hne this.1

/-- C10 for one call: every returning call keeps the offsets unique. -/
theorem unique_offsets_exec (op : Op) (w w1 : World) (hu : unique_offsets w)
    (h : exec op w = .ok w1) : unique_offsets w1 := by
  cases op with
  | create n ts ty =>
    simp only [exec, Except.ok.injEq] at h
    rw [← h]
    exact unique_offsets_create n ts ty w hu
  | get fuel bs c offset =>
    obtain ⟨⟨⟨r, t⟩, w2⟩, hg, hw⟩ := except_map_ok h
    simp only at hw
    subst hw
    exact unique_offsets_do_get fuel bs c offset true w r t w2 hu hg
  | get_empty fuel bs c offset =>
    obtain ⟨⟨⟨r, t⟩, w2⟩, hg, hw⟩ := except_map_ok h
    simp only at hw
    subst hw
    exact unique_offsets_do_get fuel bs c offset false w r t w2 hu hg
  | put c table =>
    obtain ⟨⟨⟨r, t⟩, w2⟩, hg, hw⟩ := except_map_ok h
    simp only at hw
    subst hw
    simp only [block_cache_put] at hg
    cases hc : w.caches[c]? with
    | none => simp [hc] at hg
    | some cache =>
      simp only [hc] at hg
      cases hf : find_table cache.entries table 0 with
      | none =>
        simp only [hf, Except.ok.injEq, Prod.mk.injEq] at hg
        rw [← hg.2]
        exact hu
      | some i =>
        simp only [hf] at hg
        cases he : cache.entries[i]? with
        | none => simp [he] at hg
        | some e =>
          simp only [he] at hg
          split at hg
          · exact Except.noConfusion hg
          · simp only [Except.ok.injEq, Prod.mk.injEq] at hg
            rw [← hg.2]
            exact unique_offsets_from (offsets_from_set_entry w c i cache e _ hc he rfl) hu
  | mark_dirty c table =>
    simp only [exec, block_cache_entry_mark_dirty] at h
    cases hc : w.caches[c]? with
    | none => simp [hc] at h
    | some cache =>
      simp only [hc] at h
      cases hf : find_table cache.entries table 0 with
      | none => simp [hf] at h
      | some i =>
        simp only [hf] at h
        cases he : cache.entries[i]? with
        | none => simp [he] at h
        | some e =>
          simp only [he, Except.ok.injEq] at h
          rw [← h]
          exact unique_offsets_from (offsets_from_set_entry w c i cache e _ hc he rfl) hu
  | store c table bytes =>
    simp only [exec, table_store] at h
    cases hc : w.caches[c]? with
    | none => simp [hc] at h
    | some cache =>
      simp only [hc] at h
      cases hf : find_table cache.entries table 0 with
      | none => simp [hf] at h
      | some i =>
        simp only [hf] at h
        cases he : cache.entries[i]? with
        | none => simp [he] at h
        | some e =>
          simp only [he, Except.ok.injEq] at h
          rw [← h]
          exact unique_offsets_from (offsets_from_set_entry w c i cache e _ hc he rfl) hu
  | flush fuel bs c =>
    obtain ⟨⟨r, w2⟩, hg, hw⟩ := except_map_ok h
    simp only at hw
    subst hw
    exact unique_offsets_from
      (offsets_from_world_le (block_cache_flush_spec fuel bs c w r w2 hg).1) hu
  | set_dependency fuel bs c dependency =>
    obtain ⟨⟨r, w2⟩, hg, hw⟩ := except_map_ok h
    simp only at hw
    subst hw
    obtain ⟨w3, hle, hcase⟩ := set_dependency_effect fuel bs c dependency w r w2 hg
    have hu3 := unique_offsets_from (offsets_from_world_le hle) hu
    rcases hcase with ⟨_, hw⟩ | ⟨_, _, _, _, ca2, hca2, hw⟩
    · rw [hw]
      exact hu3
    · rw [hw]
      exact unique_offsets_from
        (offsets_from_set_cache w3 c ca2 _ hca2 (fun i e1 he1 => ⟨e1, he1, rfl⟩)) hu3
  | depends_on_flush c =>
    simp only [exec, block_cache_depends_on_flush] at h
    cases hc : w.caches[c]? with
    | none => simp [hc] at h
    | some cache =>
      simp only [hc, Except.ok.injEq] at h
      rw [← h]
      exact unique_offsets_from
        (offsets_from_set_cache w c cache _ hc (fun i e1 he1 => ⟨e1, he1, rfl⟩)) hu
  | answers script =>
    simp only [exec, Except.ok.injEq] at h
    rw [← h]
    exact hu

/-- C10: in every world reached from the start, before any cache exists, by
returning calls of create, get, get_empty, put, mark_dirty, flush,
set_dependency and depends_on_flush with any arguments, stores into buffers
and any successes and failures of the backing store, no two different slots of
a cache hold the same offset other than 0. -/
theorem C10_offset_uniqueness (w : World) (h : ReachableBy all_ops w) : unique_offsets w := by
  induction h with
  | initial disk =>
    intro c cache i j ei ej hc
    simp [World.initial] at hc
  | step op w w1 _ _ hexec ih => exact unique_offsets_exec op w w1 ih hexec

/-- C10 witness: a cache whose two slots hold the offsets 100 and 200. -/
theorem C10_offset_uniqueness_witness :
    ReachableBy all_ops c10_world ∧
    c10_world.caches.map (fun c => c.entries.map (fun e => e.offset)) = [[100, 200]] ∧
    unique_offsets c10_world := by
  have hr : ReachableBy all_ops c10_world :=
    reachable_run all_ops c10_ops (World.initial []) c10_world (ReachableBy.initial [])
      (fun _ _ => trivial) (by decide)
  exact ⟨hr, by decide, C10_offset_uniqueness c10_world hr⟩

/-! ### Dependency ordering: the claim -/

/-- C1: let cache `a` depend on cache `b`. A `block_cache_entry_flush` of a dirty
slot of `a`, the only code that writes a table, first runs the full flush of
`b`; if that flush fails, the error is returned and nothing more is done, so no
write is issued, the slot of `a` is still dirty and `a` still depends on `b`; if
it succeeds, the write of the slot of `a` is the next call logged after it. A
returning get or get_empty on `a` has either issued no write at all, or has
started with the full flush of `b` and stopped there if it failed. Over a
backing store without failures a flush of `a` with a dirty slot logs the flush
of `b`, which holds a write of every dirty slot of `b`, then the writes of the
dirty slots of `a` and the device sync. -/
theorem C1_dependency_ordering (fuel bs a b : Nat) (w : World) (cache : BlockCache)
    (hc : w.caches[a]? = some cache) (hdep : cache.depends = some b) :
    (∀ (i : Nat) (e : BlockCachedTable) (r : Int) (w1 : World),
      cache.entries[i]? = some e → e.dirty = true → e.offset ≠ 0 →
      block_cache_entry_flush (block_cache_flush fuel) bs a i w = .ok (r, w1) →
      ∃ rb wb, block_cache_flush fuel bs b w = .ok (rb, wb) ∧ wb.caches[a]? = some cache ∧
        ((rb < 0 ∧ r = rb ∧ w1 = wb) ∨
         (rb = 0 ∧ w1.log = wb.log ++
            [BdrvCall.pwrite bs e.offset (e.data.take cache.table_size)
              (wb.script.headD 0)]))) ∧
    (∀ (offset : Nat) (rd : Bool) (r : Int) (t : Option Nat) (w1 : World),
      block_cache_do_get fuel bs a offset rd w = .ok ((r, t), w1) →
      (∃ evs, w1.log = w.log ++ evs ∧
        ∀ ev ∈ evs, ∃ o n r3, ev = BdrvCall.pread bs o n r3) ∨
      (∃ rb wb rest,
        block_cache_flush fuel bs b
          (w.set_cache a { cache with entries := cache.entries.map aged }) = .ok (rb, wb) ∧
        w1.log = wb.log ++ rest ∧ (rb < 0 → rest = [] ∧ r = rb ∧ t = none))) ∧
    (w.script = [] → has_dirty w a →
      ∀ (rb : Int) (wb : World), block_cache_flush fuel bs b w = .ok (rb, wb) →
      rb = 0 ∧ ∃ evs w1, wb.log = w.log ++ evs ∧
        (∀ (cb : BlockCache) (i : Nat) (e : BlockCachedTable),
          w.caches[b]? = some cb → cb.entries[i]? = some e → e.dirty = true → e.offset ≠ 0 →
          ∃ ret, 0 ≤ ret ∧ BdrvCall.pwrite bs e.offset (e.data.take cb.table_size) ret ∈ evs) ∧
        block_cache_flush (fuel + 1) bs a w = .ok (0, w1) ∧
        w1.log = wb.log ++ dirty_writes bs cache.table_size cache.entries ++
          [BdrvCall.flush bs 0]) := by
  have hdepw : dep w a = some b := (dep_of_cache hc).trans hdep
  refine ⟨?_, ?_, ?_⟩
  · intro i e r w1 he hd ho h
    exact entry_flush_after_dep fuel bs a b i w cache e r w1 hc hdep he hd ho h
  · intro offset rd r t w1 h
    rcases do_get_log fuel bs a offset rd w cache r t w1 hc h with
      ⟨_, _, hlog, _, _⟩ | ⟨_, m, ev, ret, w2, hev, _, hef, hcase⟩
    · exact Or.inl ⟨[], by simp [hlog], fun ev hev => absurd hev (List.not_mem_nil ev)⟩
    · have hcA := getElem?_set_cache_self w a { cache with entries := cache.entries.map aged }
        cache hc
      have hevA : (cache.entries.map aged)[m]? = some (aged ev) := by simp [hev]
      by_cases hskip : (aged ev).dirty = false ∨ (aged ev).offset = 0
      · rw [entry_flush_skip _ bs a m _ _ _ hcA hevA hskip] at hef
        simp only [Except.ok.injEq, Prod.mk.injEq] at hef
        obtain ⟨hret, hw2⟩ := hef
        subst hw2
        subst hret
        left
        rcases hcase with ⟨hneg, _⟩ | ⟨_, _, _, hlog, _⟩ | ⟨_, _, _, hlog, _⟩
        · omega
        · exact ⟨[], by simp [hlog, World.set_cache],
            fun ev hev => absurd hev (List.not_mem_nil ev)⟩
        · refine ⟨_, hlog, ?_⟩
          intro ev' hev'
          rw [List.mem_singleton] at hev'
          exact ⟨_, _, _, hev'⟩
      · have hd : (aged ev).dirty = true := by
          cases hdd : (aged ev).dirty with
          | true => rfl
          | false => exact absurd (Or.inl hdd) hskip
        have ho : (aged ev).offset ≠ 0 := fun h0 => hskip (Or.inr h0)
        obtain ⟨rb, wb, hfb, _, hres⟩ := entry_flush_after_dep fuel bs a b m _
          { cache with entries := cache.entries.map aged } (aged ev) ret w2 hcA hdep hevA hd ho
          hef
        right
        rcases hres with ⟨hrb, hret, hw2⟩ | ⟨hrb, hlog2⟩
        · rcases hcase with ⟨_, hr, ht, hw1⟩ | ⟨hpos, _⟩ | ⟨hpos, _⟩
          · refine ⟨rb, wb, [], hfb, by rw [hw1, hw2]; simp, fun _ => ⟨rfl, ?_, ht⟩⟩
            rw [hr, hret]
          · omega
          · omega
        · rcases hcase with ⟨_, _, _, hw1⟩ | ⟨_, _, _, hlog, _⟩ | ⟨_, _, _, hlog, _⟩
          · exact ⟨rb, wb, _, hfb, by rw [hw1]; exact hlog2, fun h' => by omega⟩
          · exact ⟨rb, wb, _, hfb, by rw [hlog]; exact hlog2, fun h' => by omega⟩
          · exact ⟨rb, wb, _, hfb, by rw [hlog, hlog2, List.append_assoc],
              fun h' => by omega⟩
  · intro hs hdirty rb wb hfb
    obtain ⟨hle, _, hnil, _⟩ := block_cache_flush_spec fuel bs b w rb wb hfb
    have hrb0 : rb = 0 := hnil hs
    have hframe := dep_flush_frame fuel bs a b w rb wb hdepw hfb
    rw [hc] at hframe
    obtain ⟨evs, hevs, hwritten⟩ := flush_ok_written fuel bs b w rb wb hfb (by omega)
    obtain ⟨ca, i, e, hca, he, hd, ho⟩ := hdirty
    rw [hc] at hca
    cases hca
    obtain ⟨w1, hw1, hlog, hscr⟩ := sweep_dep (block_cache_flush fuel) bs a b w wb rb cache hc hdep
      hfb (by omega) hframe (hle.script hs) cache.entries.length 0 0 (by omega)
      ⟨i, e, Nat.zero_le i, he, hd, ho⟩
    refine ⟨hrb0, evs, (bdrv_flush bs w1).2, hevs,
      fun cb j ej hcb hj hdj hoj => (hwritten cb j ej hcb hj hdj hoj).1, ?_, ?_⟩
    · simp only [block_cache_flush, hc, BlockCache.size, List.range_eq_range', hw1, if_true,
        bdrv_flush, hscr]
      simp
    · simp [bdrv_flush, hlog, hscr]

/-- C1 witness: cache 0 depends on cache 1 and both have a dirty slot. When the
write of the slot of cache 1 fails, the entry flush of cache 0 returns that
error and cache 0 is as before; without failures the flush of cache 0 returns 0
and logs the write of cache 1, its sync, the write of cache 0 and the sync. -/
theorem C1_dependency_ordering_witness :
    (c1_world.caches[0]? = some c1_cache_a ∧ c1_cache_a.depends = some 1) ∧
    (∃ rb wb, block_cache_flush 1 0 1 c1_world_fail = .ok (rb, wb) ∧
      wb.caches[0]? = some c1_cache_a ∧
      ((rb < 0 ∧ (-5 : Int) = rb ∧
          world_after (block_cache_entry_flush (block_cache_flush 1) 0 0 0 c1_world_fail)
            c1_world_fail = wb) ∨
       (rb = 0 ∧
          (world_after (block_cache_entry_flush (block_cache_flush 1) 0 0 0 c1_world_fail)
            c1_world_fail).log = wb.log ++
            [BdrvCall.pwrite 0 100 ([7].take c1_cache_a.table_size) (wb.script.headD 0)]))) ∧
    (∃ w1, block_cache_flush 2 0 0 c1_world = .ok (0, w1) ∧
      w1.log = [BdrvCall.pwrite 0 200 [9] 0, BdrvCall.flush 0 0] ++
        dirty_writes 0 c1_cache_a.table_size c1_cache_a.entries ++ [BdrvCall.flush 0 0]) := by
  refine ⟨⟨rfl, rfl⟩, ?_, ?_⟩
  · exact (C1_dependency_ordering 1 0 0 1 c1_world_fail c1_cache_a rfl rfl).1 0
      { table := 1, data := [7], offset := 100, dirty := true, cache_hits := 0, ref := 0 }
      (-5) _ rfl rfl (by decide) (by decide)
  · obtain ⟨_, evs, w1, _, _, hfl, hlog⟩ :=
      (C1_dependency_ordering 1 0 0 1 c1_world c1_cache_a rfl rfl).2.2 rfl
        ⟨c1_cache_a, 0, _, rfl, rfl, rfl, by decide⟩ 0
        (world_after (block_cache_flush 1 0 1 c1_world) c1_world) (by decide)
    exact ⟨w1, hfl, hlog⟩

/-! ### Flushes issue no read -/

theorem no_read_refl (w : World) : no_read_since w w :=
  ⟨[], by simp, fun ev h => absurd h (List.not_mem_nil ev)⟩

theorem no_read_trans {w2 w1 w : World} (h21 : no_read_since w2 w1) (h10 : no_read_since w1 w) :
    no_read_since w2 w := by
  obtain ⟨evs2, h2, hn2⟩ := h21
  obtain ⟨evs1, h1, hn1⟩ := h10
  refine ⟨evs1 ++ evs2, by rw [h2, h1, List.append_assoc], ?_⟩
  intro ev hev
  rcases List.mem_append.mp hev with h | h
  · exact hn1 ev h
  · exact hn2 ev h

theorem no_read_of_log {w1 w : World} (h : w1.log = w.log) : no_read_since w1 w :=
  ⟨[], by simp [h], fun ev h => absurd h (List.not_mem_nil ev)⟩

theorem no_read_bdrv_flush (bs : Nat) (w : World) : no_read_since (bdrv_flush bs w).2 w := by
  refine ⟨[BdrvCall.flush bs (w.script.headD 0)], rfl, ?_⟩
  intro ev hev b o n r
  rw [List.mem_singleton.mp hev]
  exact fun h => BdrvCall.noConfusion h

theorem no_read_bdrv_pwrite (bs offset : Nat) (buf : List Nat) (count : Nat) (w : World) :
    no_read_since (bdrv_pwrite bs offset buf count w).2 w := by
  refine ⟨[BdrvCall.pwrite bs offset (buf.take count) (w.script.headD 0)], rfl, ?_⟩
  intro ev hev b o n r
  rw [List.mem_singleton.mp hev]
  exact fun h => BdrvCall.noConfusion h

theorem entry_flush_write_no_read (bs c i : Nat) (w : World) (r : Int) (w1 : World)
    (h : entry_flush_write bs c i w = .ok (r, w1)) : no_read_since w1 w := by
  cases hc : w.caches[c]? with
  | none => simp [entry_flush_write, hc] at h
  | some cache =>
    cases he : cache.entries[i]? with
    | none => simp [entry_flush_write, hc, he] at h
    | some e =>
      rw [entry_flush_write_eq bs c i w cache e hc he] at h
      by_cases hs : w.script.headD 0 < 0
      · simp only [hs, if_true, Except.ok.injEq, Prod.mk.injEq] at h
        rw [← h.2]
        exact no_read_bdrv_pwrite _ _ _ _ _
      · simp only [hs, if_false, Except.ok.injEq, Prod.mk.injEq] at h
        rw [← h.2]
        exact no_read_trans (no_read_of_log rfl) (no_read_bdrv_pwrite bs e.offset e.data
          cache.table_size w)

/-- A `block_cache_entry_flush` issues no read when the flush it calls issues
none. -/
theorem entry_flush_no_read (fl : Nat → Nat → World → Res Int)
    (hfl : ∀ (bs x : Nat) (w : World) (r : Int) (w1 : World), fl bs x w = .ok (r, w1) →
      no_read_since w1 w)
    (bs c i : Nat) (w : World) (r : Int) (w1 : World)
    (h : block_cache_entry_flush fl bs c i w = .ok (r, w1)) : no_read_since w1 w := by
  cases hc : w.caches[c]? with
  | none => simp [block_cache_entry_flush, hc] at h
  | some cache =>
    cases he : cache.entries[i]? with
    | none => simp [block_cache_entry_flush, hc, he] at h
    | some e =>
      by_cases hskip : e.dirty = false ∨ e.offset = 0
      · rw [entry_flush_skip fl bs c i w cache e hc he hskip] at h
        simp only [Except.ok.injEq, Prod.mk.injEq] at h
        rw [← h.2]
        exact no_read_refl w
      · have hd : e.dirty = true := by
          cases hdd : e.dirty with
          | true => rfl
          | false => exact absurd (Or.inl hdd) hskip
        have ho : e.offset ≠ 0 := fun h0 => hskip (Or.inr h0)
        rcases Option.eq_none_or_eq_some cache.depends with hdep | ⟨d, hdep⟩
        · by_cases hf : cache.depends_on_flush = true
          · rw [entry_flush_sync fl bs c i w cache e hc he hd ho hdep hf] at h
            by_cases hs : w.script.headD 0 < 0
            · simp only [hs, if_true, Except.ok.injEq, Prod.mk.injEq] at h
              rw [← h.2]
              exact no_read_bdrv_flush bs w
            · simp only [hs, if_false] at h
              exact no_read_trans (entry_flush_write_no_read bs c i _ r w1 h)
                (no_read_trans (no_read_of_log rfl) (no_read_bdrv_flush bs w))
          · have hf' : cache.depends_on_flush = false := by simpa using hf
            rw [entry_flush_plain fl bs c i w cache e hc he hd ho hdep hf'] at h
            exact entry_flush_write_no_read bs c i w r w1 h
        · rw [entry_flush_dep fl bs c i d w cache e hc he hd ho hdep] at h
          cases hfd : fl bs d w with
          | error f => simp [hfd] at h
          | ok p =>
            obtain ⟨rd, wd⟩ := p
            have hnd := hfl bs d w rd wd hfd
            simp only [hfd] at h
            by_cases hrd : rd < 0
            · simp only [hrd, if_true, Except.ok.injEq, Prod.mk.injEq] at h
              rw [← h.2]
              exact hnd
            · simp only [hrd, if_false] at h
              cases hc1 : wd.caches[c]? with
              | none => simp [hc1] at h
              | some cache1 =>
                simp only [hc1] at h
                exact no_read_trans (entry_flush_write_no_read bs c i _ r w1 h)
                  (no_read_trans (no_read_of_log rfl) hnd)

theorem flush_loop_no_read (ef : Nat → World → Res Int)
    (hef : ∀ (i : Nat) (w : World) (r : Int) (w1 : World), ef i w = .ok (r, w1) →
      no_read_since w1 w) :
    ∀ (l : List Nat) (res : Int) (w : World) (r : Int) (w1 : World),
      flush_loop ef l res w = .ok (r, w1) → no_read_since w1 w := by
  intro l
  induction l with
  | nil =>
    intro res w r w1 h
    simp only [flush_loop, Except.ok.injEq, Prod.mk.injEq] at h
    rw [← h.2]
    exact no_read_refl w
  | cons i rest ih =>
    intro res w r w1 h
    simp only [flush_loop] at h
    cases h1 : ef i w with
    | error f => simp [h1] at h
    | ok p =>
      obtain ⟨ret, w2⟩ := p
      simp only [h1] at h
      exact no_read_trans (ih _ _ _ _ h) (hef i w ret w2 h1)

/-- A `block_cache_flush` issues writes and syncs only. -/
theorem block_cache_flush_no_read : ∀ (fuel bs x : Nat) (w : World) (r : Int) (w1 : World),
    block_cache_flush fuel bs x w = .ok (r, w1) → no_read_since w1 w := by
  intro fuel
  induction fuel with
  | zero =>
    intro bs x w r w1 h
    simp [block_cache_flush] at h
  | succ fuel ih =>
    intro bs x w r w1 h
    cases hc : w.caches[x]? with
    | none => simp [block_cache_flush, hc] at h
    | some cache =>
      simp only [block_cache_flush, hc] at h
      cases hl : flush_loop
          (fun i w2 => block_cache_entry_flush (block_cache_flush fuel) bs x i w2)
          (List.range cache.size) 0 w with
      | error f => simp [hl] at h
      | ok p =>
        obtain ⟨res, w2⟩ := p
        simp only [hl] at h
        have hn := flush_loop_no_read _
          (fun i w3 r3 w4 h3 => entry_flush_no_read _ (ih) bs x i w3 r3 w4 h3) _ _ _ _ _ hl
        by_cases hres : res = 0
        · simp only [hres, if_true] at h
          by_cases hs : w2.script.headD 0 < 0
          · have hb : (bdrv_flush bs w2).1 < 0 := hs
            simp only [hb, if_true, Except.ok.injEq, Prod.mk.injEq] at h
            rw [← h.2]
            exact no_read_trans (no_read_bdrv_flush bs w2) hn
          · have hb : ¬ (bdrv_flush bs w2).1 < 0 := hs
            simp only [hb, if_false, Except.ok.injEq, Prod.mk.injEq] at h
            rw [← h.2]
            exact no_read_trans (no_read_bdrv_flush bs w2) hn
        · simp only [hres, if_false, Except.ok.injEq, Prod.mk.injEq] at h
          rw [← h.2]
          exact hn

/-! ### The paths of `block_cache_do_get` -/

/-- The lookup loop finds the lowest index that holds the offset. -/
theorem find_offset_first (offset : Nat) :
    ∀ (es : List BlockCachedTable) (k i : Nat) (e : BlockCachedTable), es[i]? = some e →
      e.offset = offset →
      (∀ (j : Nat) (ej : BlockCachedTable), j < i → es[j]? = some ej → ej.offset ≠ offset) →
      find_offset es offset k = some (k + i) := by
  intro es
  induction es with
  | nil => intro k i e he; simp at he
  | cons a rest ih =>
    intro k i e he ho hfirst
    cases i with
    | zero =>
      simp only [List.getElem?_cons_zero, Option.some.injEq] at he
      subst he
      simp [find_offset, ho]
    | succ i =>
      have ha : a.offset ≠ offset := hfirst 0 a (Nat.succ_pos i) (by simp)
      simp only [List.getElem?_cons_succ] at he
      simp only [find_offset, ha, if_false]
      rw [ih (k + 1) i e he ho (fun j ej hj hej => hfirst (j + 1) ej (by omega) (by simpa using hej))]
      congr 1
      omega

theorem set_cache_set_cache (w : World) (c : Nat) (x y : BlockCache) :
    (w.set_cache c x).set_cache c y = w.set_cache c y := by
  simp [World.set_cache, List.set_set]

theorem set_entry_set_entry (cache : BlockCache) (i : Nat) (x y : BlockCachedTable) :
    (cache.set_entry i x).set_entry i y = cache.set_entry i y := by
  simp [BlockCache.set_entry, List.set_set]

/-- The hit path of `block_cache_do_get`. -/
theorem do_get_hit_eq (fuel bs c offset : Nat) (rd : Bool) (w : World) (cache : BlockCache)
    (i : Nat) (e : BlockCachedTable) (hc : w.caches[c]? = some cache)
    (hfind : find_offset cache.entries offset 0 = some i) (he : cache.entries[i]? = some e) :
    block_cache_do_get fuel bs c offset rd w = .ok ((0, some e.table),
      w.set_cache c (cache.set_entry i
        { e with cache_hits := wrap_int (e.cache_hits + 1), ref := wrap_int (e.ref + 1) })) := by
  simp only [block_cache_do_get, hc, hfind]
  exact do_get_found_eq c i w cache e hc he

/-- The miss path of `block_cache_do_get` when the write-back of the victim
fails. -/
theorem do_get_miss_fail_eq (fuel bs c offset : Nat) (rd : Bool) (w : World)
    (cache cache1 : BlockCache) (m : Nat) (ret : Int) (w2 : World)
    (hc : w.caches[c]? = some cache) (hmiss : find_offset cache.entries offset 0 = none)
    (hv : block_cache_find_entry_to_replace cache = .ok ((m : Int), cache1))
    (hf : block_cache_entry_flush (block_cache_flush fuel) bs c m (w.set_cache c cache1)
      = .ok (ret, w2))
    (hret : ret < 0) :
    block_cache_do_get fuel bs c offset rd w = .ok ((ret, none), w2) := by
  have hmi : ¬ ((m : Int) < 0) := by omega
  simp only [block_cache_do_get, hc, hmiss, hv, hmi, if_false, Int.toNat_ofNat, hf, hret,
    if_true]

/-- The miss path of `block_cache_do_get` without a read, after a successful
write-back of the victim. -/
theorem do_get_miss_empty_eq (fuel bs c offset : Nat) (w : World)
    (cache cache1 cache2 : BlockCache) (m : Nat) (ret : Int) (w2 : World) (e2 : BlockCachedTable)
    (hc : w.caches[c]? = some cache) (hmiss : find_offset cache.entries offset 0 = none)
    (hv : block_cache_find_entry_to_replace cache = .ok ((m : Int), cache1))
    (hf : block_cache_entry_flush (block_cache_flush fuel) bs c m (w.set_cache c cache1)
      = .ok (ret, w2))
    (hret : 0 ≤ ret) (hc2 : w2.caches[c]? = some cache2) (he2 : cache2.entries[m]? = some e2) :
    block_cache_do_get fuel bs c offset false w = .ok ((0, some e2.table),
      w2.set_cache c (cache2.set_entry m
        { e2 with offset := offset, cache_hits := 33, ref := wrap_int (e2.ref + 1) })) := by
  have hmi : ¬ ((m : Int) < 0) := by omega
  have hret' : ¬ ret < 0 := by omega
  simp only [block_cache_do_get, hc, hmiss, hv, hmi, if_false, Int.toNat_ofNat, hf, hret',
    hc2, he2, Bool.false_eq_true]
  rw [do_get_found_eq c m _ _ _ (getElem?_set_cache_self w2 c _ cache2 hc2)
    (getElem?_set_entry_self cache2 _ _ e2 he2)]
  rw [set_cache_set_cache, set_entry_set_entry]
  rfl

/-- The miss path of `block_cache_do_get` with a read, after a successful
write-back of the victim. -/
theorem do_get_miss_read_eq (fuel bs c offset : Nat) (w : World)
    (cache cache1 cache2 : BlockCache) (m : Nat) (ret : Int) (w2 : World) (e2 : BlockCachedTable)
    (hc : w.caches[c]? = some cache) (hmiss : find_offset cache.entries offset 0 = none)
    (hv : block_cache_find_entry_to_replace cache = .ok ((m : Int), cache1))
    (hf : block_cache_entry_flush (block_cache_flush fuel) bs c m (w.set_cache c cache1)
      = .ok (ret, w2))
    (hret : 0 ≤ ret) (hc2 : w2.caches[c]? = some cache2) (he2 : cache2.entries[m]? = some e2) :
    block_cache_do_get fuel bs c offset true w =
      if w2.script.headD 0 < 0 then
        .ok ((w2.script.headD 0, none),
          (bdrv_pread bs offset e2.data cache2.table_size w2).2.2.set_cache c
            (cache2.set_entry m { e2 with offset := 0 }))
      else
        .ok ((0, some e2.table),
          (bdrv_pread bs offset e2.data cache2.table_size w2).2.2.set_cache c
            (cache2.set_entry m
              { e2 with data := disk_read w2.disk bs offset cache2.table_size,
                        offset := offset, cache_hits := 33,
                        ref := wrap_int (e2.ref + 1) })) := by
  have hmi : ¬ ((m : Int) < 0) := by omega
  have hret' : ¬ ret < 0 := by omega
  simp only [block_cache_do_get, hc, hmiss, hv, hmi, if_false, Int.toNat_ofNat, hf, hret',
    hc2, he2, if_true]
  rcases hp : bdrv_pread bs offset e2.data cache2.table_size w2 with ⟨ret3, data3, w3⟩
  have hp1 : ret3 = w2.script.headD 0 := by rw [bdrv_pread] at hp; cases hp; rfl
  have hp2 : data3 = if w2.script.headD 0 < 0 then e2.data
      else disk_read w2.disk bs offset cache2.table_size := by
    rw [bdrv_pread] at hp; cases hp; rfl
  have hp3 : w3.caches = w2.caches := by rw [bdrv_pread] at hp; cases hp; rfl
  have hc3 : w3.caches[c]? = some cache2 := by rw [hp3]; exact hc2
  subst hp1
  by_cases hs : w2.script.headD 0 < 0
  · simp only [hs, if_true] at hp2 ⊢
    subst hp2
    rfl
  · simp only [hs, if_false] at hp2 ⊢
    subst hp2
    rw [do_get_found_eq c m _ _ _ (getElem?_set_cache_self w3 c _ cache2 hc3)
      (getElem?_set_entry_self cache2 _ _ e2 he2)]
    rw [set_cache_set_cache, set_entry_set_entry]
    rfl

/-- A `block_cache_entry_flush` that returns an error leaves every slot of the
cache as it was. -/
theorem entry_flush_fail_entries (fuel bs c i : Nat) (w : World) (cache : BlockCache) (r : Int)
    (w1 : World) (hc : w.caches[c]? = some cache)
    (h : block_cache_entry_flush (block_cache_flush fuel) bs c i w = .ok (r, w1))
    (hr : r < 0) :
    ∃ cache1, w1.caches[c]? = some cache1 ∧ cache1.entries = cache.entries := by
  cases he : cache.entries[i]? with
  | none => simp [block_cache_entry_flush, hc, he] at h
  | some e =>
    have hwrite : ∀ (w0 : World) (cache0 : BlockCache), w0.caches[c]? = some cache0 →
        cache0.entries = cache.entries → entry_flush_write bs c i w0 = .ok (r, w1) →
        ∃ cache1, w1.caches[c]? = some cache1 ∧ cache1.entries = cache.entries := by
      intro w0 cache0 hc0 hents hw
      have he0 : cache0.entries[i]? = some e := by rw [hents]; exact he
      rw [entry_flush_write_eq bs c i w0 cache0 e hc0 he0] at hw
      by_cases hs : w0.script.headD 0 < 0
      · simp only [hs, if_true, Except.ok.injEq, Prod.mk.injEq] at hw
        rw [← hw.2]
        exact ⟨cache0, hc0, hents⟩
      · simp only [hs, if_false, Except.ok.injEq, Prod.mk.injEq] at hw
        omega
    by_cases hskip : e.dirty = false ∨ e.offset = 0
    · rw [entry_flush_skip _ bs c i w cache e hc he hskip] at h
      simp only [Except.ok.injEq, Prod.mk.injEq] at h
      omega
    · have hd : e.dirty = true := by
        cases hdd : e.dirty with
        | true => rfl
        | false => exact absurd (Or.inl hdd) hskip
      have ho : e.offset ≠ 0 := fun h0 => hskip (Or.inr h0)
      rcases Option.eq_none_or_eq_some cache.depends with hdep | ⟨d, hdep⟩
      · by_cases hf : cache.depends_on_flush = true
        · rw [entry_flush_sync _ bs c i w cache e hc he hd ho hdep hf] at h
          by_cases hs : w.script.headD 0 < 0
          · simp only [hs, if_true, Except.ok.injEq, Prod.mk.injEq] at h
            rw [← h.2]
            exact ⟨cache, hc, rfl⟩
          · simp only [hs, if_false] at h
            have hcf : (bdrv_flush bs w).2.caches[c]? = some cache := hc
            exact hwrite _ { cache with depends_on_flush := false }
              (getElem?_set_cache_self _ c _ cache hcf) rfl h
        · have hf' : cache.depends_on_flush = false := by simpa using hf
          rw [entry_flush_plain _ bs c i w cache e hc he hd ho hdep hf'] at h
          exact hwrite w cache hc rfl h
      · rw [entry_flush_dep _ bs c i d w cache e hc he hd ho hdep] at h
        cases hfd : block_cache_flush fuel bs d w with
        | error f => simp [hfd] at h
        | ok p =>
          obtain ⟨rd, wd⟩ := p
          have hframe := dep_flush_frame fuel bs c d w rd wd ((dep_of_cache hc).trans hdep) hfd
          have hcd : wd.caches[c]? = some cache := by rw [hframe]; exact hc
          simp only [hfd] at h
          by_cases hrd : rd < 0
          · simp only [hrd, if_true, Except.ok.injEq, Prod.mk.injEq] at h
            rw [← h.2]
            exact ⟨cache, hcd, rfl⟩
          · simp only [hrd, if_false, hcd] at h
            exact hwrite _ { cache with depends := none, depends_on_flush := false }
              (getElem?_set_cache_self _ c _ cache hcd) rfl h

/-- The victim of a miss and its cache after the write-back: the victim was
not borrowed, the other slots are as the scan left them, and the victim is as
the scan left it or cleaned. -/
theorem victim_write_back (fuel bs c m : Nat) (w : World) (cache cache1 : BlockCache)
    (ret : Int) (w2 : World) (hc : w.caches[c]? = some cache)
    (hv : block_cache_find_entry_to_replace cache = .ok ((m : Int), cache1))
    (hf : block_cache_entry_flush (block_cache_flush fuel) bs c m (w.set_cache c cache1)
      = .ok (ret, w2)) :
    ∃ (ev : BlockCachedTable) (cache2 : BlockCache) (e2 : BlockCachedTable),
      cache.entries[m]? = some ev ∧ ev.ref = 0 ∧
      cache1 = { cache with entries := cache.entries.map aged } ∧
      w2.caches[c]? = some cache2 ∧ cache2.entries[m]? = some e2 ∧ slot_le e2 (aged ev) ∧
      (∀ j, j ≠ m → cache2.entries[j]? = (cache.entries.map aged)[j]?) ∧
      cache2.table_size = cache.table_size ∧
      (0 ≤ ret → e2.dirty = false ∨ e2.offset = 0) ∧
      (ret < 0 → cache2.entries = cache.entries.map aged) ∧
      no_read_since w2 w ∧ world_le bs w2 (w.set_cache c cache1) := by
  obtain ⟨m', ev, hmi, hev, hevr, hcA⟩ := find_entry_to_replace_ok cache cache1 _ hv
  have hmm : m' = m := by omega
  subst hmm
  subst hcA
  have hcA := getElem?_set_cache_self w c { cache with entries := cache.entries.map aged }
    cache hc
  obtain ⟨cache2, hc2, hothers, hslot⟩ := entry_flush_slots fuel bs c m' _ _ ret w2 hcA hf
  have hevA : (cache.entries.map aged)[m']? = some (aged ev) := by
    simp [List.getElem?_map, hev]
  obtain ⟨e2, he2, hsl⟩ := hslot (aged ev) hevA
  obtain ⟨hle, _, _, _, hclean⟩ := entry_flush_spec _ (block_cache_flush_spec fuel) bs c m' _
    ret w2 hf
  obtain ⟨cache2', hc2', hcle⟩ := hle.caches c _ hcA
  rw [hc2] at hc2'
  cases hc2'
  refine ⟨ev, cache2, e2, hev, hevr, rfl, hc2, he2, hsl, hothers, hcle.table_size, ?_, ?_, ?_,
    hle⟩
  · intro h0
    exact hclean h0 cache2 e2 hc2 he2
  · intro hneg
    obtain ⟨cache3, hc3, hents⟩ := entry_flush_fail_entries fuel bs c m' _ _ ret w2 hcA hf hneg
    rw [hc2] at hc3
    cases hc3
    exact hents
  · exact no_read_trans
      (entry_flush_no_read _ (block_cache_flush_no_read fuel) bs c m' _ ret w2 hf)
      (no_read_of_log rfl)

/-! ### Cache hit -/

/-- C12: when slot `i` is the lowest slot that holds `offset`, `block_cache_get`
and `block_cache_get_empty` return 0 with the buffer of slot `i` and issue no
call into the backing store; the world afterwards differs only in slot `i`,
whose `cache_hits` and `ref` went through the `++` of a C `int`: both are
larger by exactly 1 when they were below `INT_MAX`, and a counter that was
`INT_MAX` is `INT_MIN` afterwards. Every other field of every slot, the
dependency pointer and the device-flush flag are as before. -/
theorem C12_cache_hit (fuel bs c offset i : Nat) (w : World) (cache : BlockCache)
    (e : BlockCachedTable) (hc : w.caches[c]? = some cache) (he : cache.entries[i]? = some e)
    (ho : e.offset = offset)
    (hfirst : ∀ (j : Nat) (ej : BlockCachedTable), j < i → cache.entries[j]? = some ej →
      ej.offset ≠ offset) :
    ∃ w1,
      block_cache_get fuel bs c offset w = .ok ((0, some e.table), w1) ∧
      block_cache_get_empty fuel bs c offset w = .ok ((0, some e.table), w1) ∧
      w1.log = w.log ∧ w1.disk = w.disk ∧ w1.script = w.script ∧ w1.brk = w.brk ∧
      w1 = w.set_cache c (cache.set_entry i
        { e with cache_hits := wrap_int (e.cache_hits + 1), ref := wrap_int (e.ref + 1) }) ∧
      (INT_MIN ≤ e.cache_hits → e.cache_hits < INT_MAX →
        wrap_int (e.cache_hits + 1) = e.cache_hits + 1) ∧
      (INT_MIN ≤ e.ref → e.ref < INT_MAX → wrap_int (e.ref + 1) = e.ref + 1) ∧
      (e.cache_hits = INT_MAX → wrap_int (e.cache_hits + 1) = INT_MIN) ∧
      (e.ref = INT_MAX → wrap_int (e.ref + 1) = INT_MIN) := by
  have hfind : find_offset cache.entries offset 0 = some i := by
    have := find_offset_first offset cache.entries 0 i e he ho hfirst
    simpa using this
  refine ⟨_, do_get_hit_eq fuel bs c offset true w cache i e hc hfind he,
    do_get_hit_eq fuel bs c offset false w cache i e hc hfind he, rfl, rfl, rfl, rfl, rfl,
    ?_, ?_, ?_, ?_⟩
  · intro h1 h2
    unfold INT_MIN at h1
    unfold INT_MAX at h2
    unfold wrap_int
    omega
  · intro h1 h2
    unfold INT_MIN at h1
    unfold INT_MAX at h2
    unfold wrap_int
    omega
  · intro h1
    rw [h1]
    decide
  · intro h1
    rw [h1]
    decide

/-- C12 at the reachable world `c6_world INT_MAX`: the slot that holds offset 5
has the hit counter `INT_MAX`, and the hit leaves it at `INT_MIN`. -/
theorem C12_cache_hit_witness :
    ReachableBy borrow_ops (c6_world INT_MAX) ∧
    ((c6_world INT_MAX).caches[0]? = some (c6_cache INT_MAX 0) ∧
      (c6_cache INT_MAX 0).entries[0]? = some (BlockCachedTable.mk 1 [0] 5 false INT_MAX 0) ∧
      (BlockCachedTable.mk 1 [0] 5 false INT_MAX 0).offset = 5) ∧
    ∃ w1, block_cache_get 1 0 0 5 (c6_world INT_MAX) = .ok ((0, some 1), w1) ∧
      w1.caches = [BlockCache.mk [BlockCachedTable.mk 1 [0] 5 false INT_MIN 1] none 1
        BlockTableType.BLOCK_TABLE_L2 false] := by
  have hreach : ReachableBy borrow_ops (c6_world INT_MAX) := by
    have h := c6_world_reachable 2147483614 (by decide)
    have he : (33 : Int) + ((2147483614 : Nat) : Int) = INT_MAX := by decide
    rw [he] at h
    exact h
  refine ⟨hreach, ⟨rfl, rfl, rfl⟩, ?_⟩
  obtain ⟨w1, h1, _, _, _, _, _, h5, _⟩ := C12_cache_hit 1 0 0 5 0 (c6_world INT_MAX)
    (c6_cache INT_MAX 0) (BlockCachedTable.mk 1 [0] 5 false INT_MAX 0) rfl rfl rfl
    (fun j ej hj => absurd hj (Nat.not_lt_zero j))
  refine ⟨w1, h1, ?_⟩
  rw [h5]
  rfl

/-! ### Cache miss -/

theorem disk_read_length (disk : List (Nat × Nat × List Nat)) (bs offset count : Nat) :
    (disk_read disk bs offset count).length = count := by
  simp [disk_read]

/-- C13: on a miss (no slot holds `offset`) with the victim `m` chosen by the
scan and a write-back of the victim that returns without error, `get_empty`
returns 0 with the victim's buffer and issues no read, and so does `get` when
its read succeeds; afterwards the victim slot holds `offset`, has `ref` 1 and
`cache_hits` 33, whatever the slot held before; with `get` its buffer holds
the `table_size` bytes read from `offset`, with `get_empty` the bytes it held
before. -/
theorem C13_cache_miss (fuel bs c offset m : Nat) (w : World) (cache cache1 : BlockCache)
    (ret : Int) (w2 : World) (hc : w.caches[c]? = some cache)
    (hmiss : ∀ e ∈ cache.entries, e.offset ≠ offset)
    (hv : block_cache_find_entry_to_replace cache = .ok ((m : Int), cache1))
    (hf : block_cache_entry_flush (block_cache_flush fuel) bs c m (w.set_cache c cache1)
      = .ok (ret, w2))
    (hret : 0 ≤ ret) :
    ∃ ev, cache.entries[m]? = some ev ∧ ev.ref = 0 ∧ no_read_since w2 w ∧
      (∃ w1 cacheZ e1,
        block_cache_get_empty fuel bs c offset w = .ok ((0, some ev.table), w1) ∧
        w1.log = w2.log ∧ w1.caches[c]? = some cacheZ ∧ cacheZ.entries[m]? = some e1 ∧
        e1.table = ev.table ∧ e1.offset = offset ∧ e1.ref = 1 ∧ e1.cache_hits = 33 ∧
        e1.data = ev.data) ∧
      (0 ≤ w2.script.headD 0 → ∃ w1 cacheZ e1,
        block_cache_get fuel bs c offset w = .ok ((0, some ev.table), w1) ∧
        w1.log = w2.log ++ [BdrvCall.pread bs offset cache.table_size (w2.script.headD 0)] ∧
        w1.caches[c]? = some cacheZ ∧ cacheZ.entries[m]? = some e1 ∧
        e1.table = ev.table ∧ e1.offset = offset ∧ e1.ref = 1 ∧ e1.cache_hits = 33 ∧
        e1.data = disk_read w2.disk bs offset cache.table_size ∧
        e1.data.length = cache.table_size) := by
  have hfind := find_offset_none offset cache.entries 0 hmiss
  obtain ⟨ev, cache2, e2, hev, hevr, _, hc2, he2, hsl, _, hts, _, _, hnr, _⟩ :=
    victim_write_back fuel bs c m w cache cache1 ret w2 hc hv hf
  obtain ⟨ht, hdata, _, _, href⟩ := slot_le_fields hsl
  obtain ⟨hat, hadata, _, _, haref⟩ := aged_fields ev
  have hr1 : wrap_int (e2.ref + 1) = 1 := by
    rw [href, haref, hevr]
    decide
  refine ⟨ev, hev, hevr, hnr, ?_, ?_⟩
  · refine ⟨w2.set_cache c (cache2.set_entry m
        (BlockCachedTable.mk e2.table e2.data offset e2.dirty 33 (wrap_int (e2.ref + 1)))),
      cache2.set_entry m
        (BlockCachedTable.mk e2.table e2.data offset e2.dirty 33 (wrap_int (e2.ref + 1))),
      BlockCachedTable.mk e2.table e2.data offset e2.dirty 33 (wrap_int (e2.ref + 1)),
      ?_, rfl, getElem?_set_cache_self w2 c _ cache2 hc2,
      getElem?_set_entry_self cache2 m _ e2 he2, ?_, rfl, hr1, rfl, ?_⟩
    · rw [← ht.trans hat]
      exact do_get_miss_empty_eq fuel bs c offset w cache cache1 cache2 m ret w2 e2 hc hfind
        hv hf hret hc2 he2
    · exact ht.trans hat
    · exact hdata.trans hadata
  · intro hs
    have hs' : ¬ w2.script.headD 0 < 0 := by omega
    have hc3 : (bdrv_pread bs offset e2.data cache2.table_size w2).2.2.caches[c]? = some cache2 :=
      hc2
    refine ⟨(bdrv_pread bs offset e2.data cache2.table_size w2).2.2.set_cache c
        (cache2.set_entry m
          (BlockCachedTable.mk e2.table (disk_read w2.disk bs offset cache2.table_size) offset
            e2.dirty 33 (wrap_int (e2.ref + 1)))),
      cache2.set_entry m
        (BlockCachedTable.mk e2.table (disk_read w2.disk bs offset cache2.table_size) offset
          e2.dirty 33 (wrap_int (e2.ref + 1))),
      BlockCachedTable.mk e2.table (disk_read w2.disk bs offset cache2.table_size) offset
        e2.dirty 33 (wrap_int (e2.ref + 1)),
      ?_, ?_, getElem?_set_cache_self _ c _ cache2 hc3,
      getElem?_set_entry_self cache2 m _ e2 he2, ?_, rfl, hr1, rfl, ?_, ?_⟩
    · have h := do_get_miss_read_eq fuel bs c offset w cache cache1 cache2 m ret w2 e2 hc hfind
        hv hf hret hc2 he2
      rw [if_neg hs'] at h
      rw [← ht.trans hat]
      exact h
    · rw [← hts]
      rfl
    · exact ht.trans hat
    · rw [← hts]
    · rw [← hts]
      exact disk_read_length _ _ _ _

/-- C13 at `c13_world`: the miss for offset 300 evicts the slot at offset 200,
which is not borrowed, and `get` hands out its buffer with the byte read from
offset 300. -/
theorem C13_cache_miss_witness :
    (c13_world.caches[0]? = some c3_cache ∧
      (∀ e ∈ c3_cache.entries, e.offset ≠ 300) ∧
      block_cache_find_entry_to_replace c3_cache
        = .ok (((1 : Nat) : Int), { c3_cache with entries := c3_cache.entries.map aged }) ∧
      block_cache_entry_flush (block_cache_flush 0) 0 0 1
          (c13_world.set_cache 0 { c3_cache with entries := c3_cache.entries.map aged })
        = .ok (0, world_after (block_cache_entry_flush (block_cache_flush 0) 0 0 1
          (c13_world.set_cache 0 { c3_cache with entries := c3_cache.entries.map aged }))
          c13_world)) ∧
    ∃ w1 cacheZ e1, block_cache_get 0 0 0 300 c13_world = .ok ((0, some 2), w1) ∧
      w1.log = [BdrvCall.pwrite 0 200 [8] 0, BdrvCall.pread 0 300 1 0] ∧
      w1.caches[0]? = some cacheZ ∧ cacheZ.entries[1]? = some e1 ∧
      e1.table = 2 ∧ e1.offset = 300 ∧ e1.ref = 1 ∧ e1.cache_hits = 33 ∧ e1.data = [9] := by
  have hyp1 : ∀ e ∈ c3_cache.entries, e.offset ≠ 300 := by decide
  have hyp2 : block_cache_find_entry_to_replace c3_cache
      = .ok (((1 : Nat) : Int), { c3_cache with entries := c3_cache.entries.map aged }) := by
    decide
  have hyp3 : block_cache_entry_flush (block_cache_flush 0) 0 0 1
        (c13_world.set_cache 0 { c3_cache with entries := c3_cache.entries.map aged })
      = .ok (0, world_after (block_cache_entry_flush (block_cache_flush 0) 0 0 1
        (c13_world.set_cache 0 { c3_cache with entries := c3_cache.entries.map aged }))
        c13_world) := by decide
  refine ⟨⟨rfl, hyp1, hyp2, hyp3⟩, ?_⟩
  obtain ⟨ev, hev, _, _, _, hget⟩ := C13_cache_miss 0 0 0 300 1 c13_world c3_cache _ 0 _ rfl
    hyp1 hyp2 hyp3 (le_refl 0)
  have hev2 : ev = BlockCachedTable.mk 2 [8] 200 true 9 0 := by
    have h : c3_cache.entries[1]? = some (BlockCachedTable.mk 2 [8] 200 true 9 0) := rfl
    rw [hev] at h
    exact Option.some.inj h
  subst hev2
  obtain ⟨w1, cacheZ, e1, h1, h2, h3, h4, h5, h6, h7, h8, h9, _⟩ := hget (by decide)
  exact ⟨w1, cacheZ, e1, h1, h2, h3, h4, h5, h6, h7, h8, h9⟩

/-! ### Failed write-back of the victim -/

/-- C14: on a miss whose write-back of the victim `m` returns the error `ret`,
`get` and `get_empty` return `ret` without a handle; the victim was dirty with
an offset other than 0; no read was issued; the victim slot has its offset,
buffer, bytes, dirty flag and `ref` as before; and no slot of any cache has a
`ref` other than before. -/
theorem C14_failed_write_back (fuel bs c offset m : Nat) (w : World)
    (cache cache1 : BlockCache) (ret : Int) (w2 : World) (hc : w.caches[c]? = some cache)
    (hmiss : ∀ e ∈ cache.entries, e.offset ≠ offset)
    (hv : block_cache_find_entry_to_replace cache = .ok ((m : Int), cache1))
    (hf : block_cache_entry_flush (block_cache_flush fuel) bs c m (w.set_cache c cache1)
      = .ok (ret, w2))
    (hret : ret < 0) :
    block_cache_get fuel bs c offset w = .ok ((ret, none), w2) ∧
    block_cache_get_empty fuel bs c offset w = .ok ((ret, none), w2) ∧
    no_read_since w2 w ∧
    (∃ (ev : BlockCachedTable) (cache2 : BlockCache) (e2 : BlockCachedTable),
      cache.entries[m]? = some ev ∧ ev.dirty = true ∧ ev.offset ≠ 0 ∧
      w2.caches[c]? = some cache2 ∧ cache2.entries[m]? = some e2 ∧
      e2.offset = ev.offset ∧ e2.table = ev.table ∧ e2.data = ev.data ∧
      e2.dirty = ev.dirty ∧ e2.ref = ev.ref) ∧
    (∀ (y : Nat) (cy : BlockCache) (j : Nat) (ej : BlockCachedTable),
      w.caches[y]? = some cy → cy.entries[j]? = some ej →
      ∃ cy2 ej2, w2.caches[y]? = some cy2 ∧ cy2.entries[j]? = some ej2 ∧ ej2.ref = ej.ref) := by
  have hfind := find_offset_none offset cache.entries 0 hmiss
  obtain ⟨ev, cache2, e2, hev, hevr, hcA, hc2, he2, _, _, _, _, hfail, hnr, hle⟩ :=
    victim_write_back fuel bs c m w cache cache1 ret w2 hc hv hf
  subst hcA
  have hcA := getElem?_set_cache_self w c { cache with entries := cache.entries.map aged }
    cache hc
  have hevA : (cache.entries.map aged)[m]? = some (aged ev) := by
    simp [List.getElem?_map, hev]
  obtain ⟨hat, hadata, haoff, hadirty, haref⟩ := aged_fields ev
  have he2' : e2 = aged ev := by
    have h := he2
    rw [hfail hret, hevA] at h
    exact (Option.some.inj h).symm
  have hdirty : ev.dirty = true ∧ ev.offset ≠ 0 := by
    by_contra hcon
    have hskip : (aged ev).dirty = false ∨ (aged ev).offset = 0 := by
      rw [hadirty, haoff]
      by_cases hd : ev.dirty = true
      · right
        by_contra ho
        exact hcon ⟨hd, ho⟩
      · left
        simpa using hd
    rw [entry_flush_skip _ bs c m _ _ (aged ev) hcA hevA hskip] at hf
    simp only [Except.ok.injEq, Prod.mk.injEq] at hf
    omega
  refine ⟨do_get_miss_fail_eq fuel bs c offset true w cache _ m ret w2 hc hfind hv hf hret,
    do_get_miss_fail_eq fuel bs c offset false w cache _ m ret w2 hc hfind hv hf hret, hnr,
    ⟨ev, cache2, e2, hev, hdirty.1, hdirty.2, hc2, he2, ?_, ?_, ?_, ?_, ?_⟩, ?_⟩
  · rw [he2']; exact haoff
  · rw [he2']; exact hat
  · rw [he2']; exact hadata
  · rw [he2']; exact hadirty
  · rw [he2']; exact haref
  · intro y cy j ej hcy hej
    have hstart : ∃ cyA ejA, (w.set_cache c { cache with entries := cache.entries.map aged }).caches[y]?
        = some cyA ∧ cyA.entries[j]? = some ejA ∧ ejA.ref = ej.ref := by
      by_cases hyc : c = y
      · subst hyc
        rw [hc] at hcy
        cases hcy
        refine ⟨_, aged ej, hcA, ?_, (aged_fields ej).2.2.2.2⟩
        simp [List.getElem?_map, hej]
      · rw [getElem?_set_cache_ne w c y _ hyc]
        exact ⟨cy, ej, hcy, hej, rfl⟩
    obtain ⟨cyA, ejA, hcyA, hejA, hrefA⟩ := hstart
    obtain ⟨cy2, hcy2, hcle⟩ := hle.caches y cyA hcyA
    obtain ⟨ej2, hej2, hsl⟩ := hcle.slots j ejA hejA
    exact ⟨cy2, ej2, hcy2, hej2, (slot_le_fields hsl).2.2.2.2.trans hrefA⟩

/-- C14 at `c3_world`: the write of the victim at offset 200 fails with EIO. -/
theorem C14_failed_write_back_witness :
    (c3_world.caches[0]? = some c3_cache ∧
      (∀ e ∈ c3_cache.entries, e.offset ≠ 300) ∧
      block_cache_find_entry_to_replace c3_cache
        = .ok (((1 : Nat) : Int), { c3_cache with entries := c3_cache.entries.map aged }) ∧
      block_cache_entry_flush (block_cache_flush 0) 0 0 1
          (c3_world.set_cache 0 { c3_cache with entries := c3_cache.entries.map aged })
        = .ok (-5, world_after (block_cache_entry_flush (block_cache_flush 0) 0 0 1
          (c3_world.set_cache 0 { c3_cache with entries := c3_cache.entries.map aged }))
          c3_world) ∧
      (-5 : Int) < 0) ∧
    block_cache_get 0 0 0 300 c3_world
      = .ok ((-5, none), world_after (block_cache_entry_flush (block_cache_flush 0) 0 0 1
          (c3_world.set_cache 0 { c3_cache with entries := c3_cache.entries.map aged }))
          c3_world) ∧
    (world_after (block_cache_entry_flush (block_cache_flush 0) 0 0 1
          (c3_world.set_cache 0 { c3_cache with entries := c3_cache.entries.map aged }))
          c3_world).log = [BdrvCall.pwrite 0 200 [8] (-5)] := by
  have hyp1 : ∀ e ∈ c3_cache.entries, e.offset ≠ 300 := by decide
  have hyp2 : block_cache_find_entry_to_replace c3_cache
      = .ok (((1 : Nat) : Int), { c3_cache with entries := c3_cache.entries.map aged }) := by
    decide
  have hyp3 : block_cache_entry_flush (block_cache_flush 0) 0 0 1
        (c3_world.set_cache 0 { c3_cache with entries := c3_cache.entries.map aged })
      = .ok (-5, world_after (block_cache_entry_flush (block_cache_flush 0) 0 0 1
        (c3_world.set_cache 0 { c3_cache with entries := c3_cache.entries.map aged }))
        c3_world) := by decide
  exact ⟨⟨rfl, hyp1, hyp2, hyp3, by decide⟩,
    (C14_failed_write_back 0 0 0 300 1 c3_world c3_cache _ (-5) _ rfl hyp1 hyp2 hyp3
      (by decide)).1, by decide⟩

/-! ### Failed read -/

theorem slot_le_dirty_false {e1 e : BlockCachedTable} (h : slot_le e1 e) (hd : e.dirty = false) :
    e1.dirty = false := by
  rcases h with rfl | rfl
  · exact hd
  · rfl

/-- C19 in a world `c19_world_dirty` reached by the calls `c19_ops`, whose only
slot has the offset 0 and is dirty: the miss of `get` for offset 5 has nothing
to write back, its read fails, and the victim is dirty afterwards. -/
theorem C19_counterexample :
    ReachableBy borrow_ops c19_world_dirty ∧
    (c19_world_dirty.caches.map (fun x => x.entries))
      = [[BlockCachedTable.mk 1 [0] 0 true 1 0]] ∧
    block_cache_entry_flush (block_cache_flush 0) 0 0 0
        (c19_world_dirty.set_cache 0
          (BlockCache.mk [BlockCachedTable.mk 1 [0] 0 true 0 0] none 1
            BlockTableType.BLOCK_TABLE_L2 false))
      = .ok (0, c19_world_dirty.set_cache 0
          (BlockCache.mk [BlockCachedTable.mk 1 [0] 0 true 0 0] none 1
            BlockTableType.BLOCK_TABLE_L2 false)) ∧
    (block_cache_get 0 0 0 5 c19_world_dirty).toOption.map
        (fun p => (p.1, p.2.log, p.2.caches.map (fun x => x.entries))) =
      some ((-5, none), [BdrvCall.pread 0 5 1 (-5)],
        [[BlockCachedTable.mk 1 [0] 0 true 0 0]]) := by
  refine ⟨?_, by decide, by decide, by decide⟩
  have hrun : run_ops c19_ops (World.initial []) = .ok c19_world_dirty := by decide
  apply reachable_run borrow_ops c19_ops _ _ (ReachableBy.initial []) ?_ hrun
  intro op hop
  simp only [c19_ops, List.mem_cons, List.mem_singleton, List.not_mem_nil, or_false] at hop
  rcases hop with h | h | h | h | h <;> subst h <;> simp [borrow_ops]

/-- C19 (amended): in a cache whose slots with offset 0 are clean, on a miss of
`get` for an offset other than 0 with a write-back of the victim `m` that
returns without error and a read that fails, `get` returns the error of the
read without a handle; afterwards no slot of the cache holds the offset, and
the victim slot has the offset 0, `ref` 0 and is clean; so the next `get` for
the offset finds it in no slot, and if it hands out a buffer it has read the
buffer's bytes from the backing store as its last call. -/
theorem C19_failed_populate_read (fuel bs c offset m : Nat) (w : World)
    (cache cache1 : BlockCache) (ret : Int) (w2 : World) (hc : w.caches[c]? = some cache)
    (hmiss : ∀ e ∈ cache.entries, e.offset ≠ offset) (ho : offset ≠ 0)
    (hsent : ∀ e ∈ cache.entries, e.offset = 0 → e.dirty = false)
    (hv : block_cache_find_entry_to_replace cache = .ok ((m : Int), cache1))
    (hf : block_cache_entry_flush (block_cache_flush fuel) bs c m (w.set_cache c cache1)
      = .ok (ret, w2))
    (hret : 0 ≤ ret) (hread : w2.script.headD 0 < 0) :
    ∃ w1 cacheZ e1,
      block_cache_get fuel bs c offset w = .ok ((w2.script.headD 0, none), w1) ∧
      w1.log = w2.log ++ [BdrvCall.pread bs offset cache.table_size (w2.script.headD 0)] ∧
      w1.caches[c]? = some cacheZ ∧ (∀ e ∈ cacheZ.entries, e.offset ≠ offset) ∧
      cacheZ.entries[m]? = some e1 ∧ e1.offset = 0 ∧ e1.ref = 0 ∧ e1.dirty = false ∧
      find_offset cacheZ.entries offset 0 = none ∧
      ∀ (fuel2 : Nat) (r : Int) (t : Nat) (w3 : World),
        block_cache_get fuel2 bs c offset w1 = .ok ((r, some t), w3) →
        r = 0 ∧
        (∃ pre s, w3.log = w1.log ++ pre ++ [BdrvCall.pread bs offset cache.table_size s] ∧
          0 ≤ s) ∧
        table_holds w3 c t (disk_read w3.disk bs offset cache.table_size) := by
  have hfind := find_offset_none offset cache.entries 0 hmiss
  obtain ⟨ev, cache2, e2, hev, hevr, _, hc2, he2, hsl, hothers, hts, hclean, _, _, _⟩ :=
    victim_write_back fuel bs c m w cache cache1 ret w2 hc hv hf
  obtain ⟨_, _, hoff, _, href⟩ := slot_le_fields hsl
  obtain ⟨_, _, haoff, hadirty, haref⟩ := aged_fields ev
  have hc3 : (bdrv_pread bs offset e2.data cache2.table_size w2).2.2.caches[c]? = some cache2 :=
    hc2
  have hdirty : e2.dirty = false := by
    rcases hclean hret with h | h
    · exact h
    · have hev0 : ev.offset = 0 := by rw [← haoff, ← hoff]; exact h
      have hevd := hsent ev (List.getElem?_mem hev) hev0
      exact slot_le_dirty_false hsl (hadirty.trans hevd)
  have hget := do_get_miss_read_eq fuel bs c offset w cache cache1 cache2 m ret w2 e2 hc hfind
    hv hf hret hc2 he2
  rw [if_pos hread] at hget
  have hcZ := getElem?_set_cache_self (bdrv_pread bs offset e2.data cache2.table_size w2).2.2 c
    (cache2.set_entry m (BlockCachedTable.mk e2.table e2.data 0 e2.dirty e2.cache_hits e2.ref))
    cache2 hc3
  have hall : ∀ e ∈ (cache2.set_entry m
      (BlockCachedTable.mk e2.table e2.data 0 e2.dirty e2.cache_hits e2.ref)).entries,
      e.offset ≠ offset := by
    intro e hmem
    obtain ⟨j, hj⟩ := List.getElem?_of_mem hmem
    by_cases hjm : j = m
    · subst hjm
      rw [getElem?_set_entry_self cache2 j _ e2 he2] at hj
      rw [← Option.some.inj hj]
      exact fun h => ho h.symm
    · have hj2 : cache2.entries[j]? = some e := by
        rw [← hj]
        simp only [BlockCache.set_entry]
        rw [List.getElem?_set_ne (fun h => hjm h.symm)]
      rw [hothers j hjm] at hj2
      simp only [List.getElem?_map, Option.map_eq_some'] at hj2
      obtain ⟨ej, hej, hage⟩ := hj2
      rw [← hage, (aged_fields ej).2.2.1]
      exact hmiss ej (List.getElem?_mem hej)
  have hfindZ := find_offset_none offset _ 0 hall
  refine ⟨_, _, _, hget, ?_, hcZ, hall, getElem?_set_entry_self cache2 m _ e2 he2, rfl, ?_,
    hdirty, hfindZ, ?_⟩
  · rw [← hts]
    rfl
  · show e2.ref = 0
    rw [href, haref, hevr]
  · intro fuel2 r t w3 h3
    obtain ⟨hr, hholds⟩ := get_miss_reads_disk fuel2 bs c offset _ _ r t w3 hcZ hfindZ h3
    have htsZ : (cache2.set_entry m
        (BlockCachedTable.mk e2.table e2.data 0 e2.dirty e2.cache_hits e2.ref)).table_size
        = cache.table_size := hts
    rw [htsZ] at hholds
    refine ⟨hr, ?_, hholds⟩
    rcases do_get_log fuel2 bs c offset true _ _ r (some t) w3 hcZ h3 with
      ⟨i, hi, _⟩ | ⟨_, mm, evv, ret', w2', _, _, hef, hcase⟩
    · rw [hfindZ] at hi
      exact Option.noConfusion hi
    · obtain ⟨evs, hevs, _⟩ := entry_flush_no_read _ (block_cache_flush_no_read fuel2) bs c mm _
        ret' w2' hef
      rcases hcase with ⟨_, _, ht, _⟩ | ⟨_, hrd, _⟩ | ⟨_, _, hrr, hlog, _⟩
      · exact Option.noConfusion ht
      · exact Bool.noConfusion hrd
      · refine ⟨evs, w2'.script.headD 0, ?_, ?_⟩
        · rw [hlog, hevs, htsZ]
          rfl
        · by_contra hneg
          have hneg' : w2'.script.headD 0 < 0 := by omega
          rw [if_pos hneg'] at hrr
          omega

/-- C19 at `c19_world`: the write-back of the slot at offset 200 succeeds and
the read of offset 300 fails with EIO. -/
theorem C19_failed_populate_read_witness :
    (c19_world.caches[0]? = some c3_cache ∧
      (∀ e ∈ c3_cache.entries, e.offset ≠ 300) ∧ (300 : Nat) ≠ 0 ∧
      (∀ e ∈ c3_cache.entries, e.offset = 0 → e.dirty = false) ∧
      block_cache_find_entry_to_replace c3_cache
        = .ok (((1 : Nat) : Int), { c3_cache with entries := c3_cache.entries.map aged }) ∧
      block_cache_entry_flush (block_cache_flush 0) 0 0 1
          (c19_world.set_cache 0 { c3_cache with entries := c3_cache.entries.map aged })
        = .ok (0, world_after (block_cache_entry_flush (block_cache_flush 0) 0 0 1
          (c19_world.set_cache 0 { c3_cache with entries := c3_cache.entries.map aged }))
          c19_world) ∧
      (world_after (block_cache_entry_flush (block_cache_flush 0) 0 0 1
          (c19_world.set_cache 0 { c3_cache with entries := c3_cache.entries.map aged }))
          c19_world).script.headD 0 < 0) ∧
    ∃ w1 cacheZ e1, block_cache_get 0 0 0 300 c19_world = .ok ((-5, none), w1) ∧
      w1.log = [BdrvCall.pwrite 0 200 [8] 0, BdrvCall.pread 0 300 1 (-5)] ∧
      w1.caches[0]? = some cacheZ ∧ (∀ e ∈ cacheZ.entries, e.offset ≠ 300) ∧
      cacheZ.entries[1]? = some e1 ∧ e1.offset = 0 ∧ e1.ref = 0 ∧ e1.dirty = false := by
  have hyp1 : ∀ e ∈ c3_cache.entries, e.offset ≠ 300 := by decide
  have hyp2 : ∀ e ∈ c3_cache.entries, e.offset = 0 → e.dirty = false := by decide
  have hyp3 : block_cache_find_entry_to_replace c3_cache
      = .ok (((1 : Nat) : Int), { c3_cache with entries := c3_cache.entries.map aged }) := by
    decide
  have hyp4 : block_cache_entry_flush (block_cache_flush 0) 0 0 1
        (c19_world.set_cache 0 { c3_cache with entries := c3_cache.entries.map aged })
      = .ok (0, world_after (block_cache_entry_flush (block_cache_flush 0) 0 0 1
        (c19_world.set_cache 0 { c3_cache with entries := c3_cache.entries.map aged }))
        c19_world) := by decide
  have hyp5 : (world_after (block_cache_entry_flush (block_cache_flush 0) 0 0 1
        (c19_world.set_cache 0 { c3_cache with entries := c3_cache.entries.map aged }))
        c19_world).script.headD 0 < 0 := by decide
  refine ⟨⟨rfl, hyp1, by decide, hyp2, hyp3, hyp4, hyp5⟩, ?_⟩
  obtain ⟨w1, cacheZ, e1, h1, h2, h3, h4, h5, h6, h7, h8, _⟩ :=
    C19_failed_populate_read 0 0 0 300 1 c19_world c3_cache _ 0 _ rfl hyp1 (by decide) hyp2
      hyp3 hyp4 (le_refl 0) hyp5
  exact ⟨w1, cacheZ, e1, h1, h2, h3, h4, h5, h6, h7, h8⟩

/-! ### put -/

theorem find_table_none (table : Nat) :
    ∀ (es : List BlockCachedTable) (k : Nat), (∀ e ∈ es, e.table ≠ table) →
      find_table es table k = none := by
  intro es
  induction es with
  | nil => intro k _; rfl
  | cons a rest ih =>
    intro k h
    have ha : a.table ≠ table := h a (List.mem_cons_self a rest)
    simp only [find_table, ha, if_false]
    exact ih (k + 1) (fun e he => h e (List.mem_cons_of_mem a he))

/-- The lookup loop of `block_cache_put` finds the lowest index whose buffer is
the handle. -/
theorem find_table_first (table : Nat) :
    ∀ (es : List BlockCachedTable) (k i : Nat) (e : BlockCachedTable), es[i]? = some e →
      e.table = table →
      (∀ (j : Nat) (ej : BlockCachedTable), j < i → es[j]? = some ej → ej.table ≠ table) →
      find_table es table k = some (k + i) := by
  intro es
  induction es with
  | nil => intro k i e he; simp at he
  | cons a rest ih =>
    intro k i e he ht hfirst
    cases i with
    | zero =>
      simp only [List.getElem?_cons_zero, Option.some.injEq] at he
      subst he
      simp [find_table, ht]
    | succ i =>
      have ha : a.table ≠ table := hfirst 0 a (Nat.succ_pos i) (by simp)
      simp only [List.getElem?_cons_succ] at he
      simp only [find_table, ha, if_false]
      rw [ih (k + 1) i e he ht (fun j ej hj hej => hfirst (j + 1) ej (by omega) (by simpa using hej))]
      congr 1
      omega

/-- C15: `block_cache_put` returns `-ENOENT` exactly when no slot's buffer is
the handle, and then the world is as before. When slot `i` is the lowest slot
whose buffer is the handle: with `ref` at least 1 (and in the range of `int`)
the call returns 0, the world afterwards differs only in the `ref` of slot
`i`, which is smaller by 1; with `ref` 0 the call ends in the failing
assertion. -/
theorem C15_put (c table : Nat) (w : World) (cache : BlockCache)
    (hc : w.caches[c]? = some cache) :
    ((∀ e ∈ cache.entries, e.table ≠ table) ↔
      ∃ t w1, block_cache_put c table w = .ok ((-ENOENT, t), w1)) ∧
    ((∀ e ∈ cache.entries, e.table ≠ table) →
      block_cache_put c table w = .ok ((-ENOENT, some table), w)) ∧
    (∀ (i : Nat) (e : BlockCachedTable), cache.entries[i]? = some e → e.table = table →
      (∀ (j : Nat) (ej : BlockCachedTable), j < i → cache.entries[j]? = some ej →
        ej.table ≠ table) →
      (1 ≤ e.ref → e.ref ≤ INT_MAX →
        block_cache_put c table w = .ok ((0, none),
          w.set_cache c (cache.set_entry i { e with ref := e.ref - 1 }))) ∧
      (e.ref = 0 → block_cache_put c table w = .error .aborted)) := by
  have hnone : (∀ e ∈ cache.entries, e.table ≠ table) →
      block_cache_put c table w = .ok ((-ENOENT, some table), w) := by
    intro h
    simp only [block_cache_put, hc, find_table_none table cache.entries 0 h]
  refine ⟨⟨fun h => ⟨_, _, hnone h⟩, ?_⟩, hnone, ?_⟩
  · rintro ⟨t, w1, hput⟩ e hmem htab
    simp only [block_cache_put, hc] at hput
    cases hfind : find_table cache.entries table 0 with
    | none =>
      have hfa : ∀ (es : List BlockCachedTable) (k : Nat), find_table es table k = none →
          ∀ x ∈ es, x.table ≠ table := by
        intro es
        induction es with
        | nil => intro k _ x hx; exact absurd hx (List.not_mem_nil x)
        | cons a rest ih =>
          intro k hk x hx
          by_cases ha : a.table = table
          · simp [find_table, ha] at hk
          · simp only [find_table, ha, if_false] at hk
            rcases List.mem_cons.mp hx with rfl | hx'
            · exact ha
            · exact ih (k + 1) hk x hx'
      exact hfa cache.entries 0 hfind e hmem htab
    | some i =>
      simp only [hfind] at hput
      cases hei : cache.entries[i]? with
      | none => simp [hei] at hput
      | some ei =>
        simp only [hei] at hput
        by_cases hneg : wrap_int (ei.ref - 1) < 0
        · simp [hneg] at hput
        · simp only [hneg, if_false, Except.ok.injEq, Prod.mk.injEq] at hput
          have h0 := hput.1.1
          unfold ENOENT at h0
          omega
  · intro i e he htab hfirst
    have hfind : find_table cache.entries table 0 = some i := by
      have := find_table_first table cache.entries 0 i e he htab hfirst
      simpa using this
    constructor
    · intro h1 h2
      have hw : wrap_int (e.ref - 1) = e.ref - 1 := by
        unfold INT_MAX at h2
        unfold wrap_int
        omega
      have hneg : ¬ e.ref - 1 < 0 := by omega
      simp only [block_cache_put, hc, hfind, he, hw, hneg, if_false]
    · intro h0
      have hneg : wrap_int (e.ref - 1) < 0 := by rw [h0]; decide
      simp only [block_cache_put, hc, hfind, he, hneg, if_true]

/-- C15 at `c15_world`: a handle of no slot, the handle of the slot borrowed
twice, and the handle of the slot that is not borrowed. -/
theorem C15_put_witness :
    (c15_world.caches[0]? = some c3_cache) ∧
    block_cache_put 0 9 c15_world = .ok ((-ENOENT, some 9), c15_world) ∧
    block_cache_put 0 1 c15_world = .ok ((0, none),
      c15_world.set_cache 0 (c3_cache.set_entry 0 (BlockCachedTable.mk 1 [7] 100 true 3 1))) ∧
    block_cache_put 0 2 c15_world = .error .aborted := by
  have h := C15_put 0 9 c15_world c3_cache rfl
  have h1 := C15_put 0 1 c15_world c3_cache rfl
  have h2 := C15_put 0 2 c15_world c3_cache rfl
  refine ⟨rfl, h.2.1 (by decide), ?_, ?_⟩
  · exact (h1.2.2 0 (BlockCachedTable.mk 1 [7] 100 true 3 2) rfl rfl
      (fun j ej hj => absurd hj (Nat.not_lt_zero j))).1 (by decide) (by decide)
  · exact (h2.2.2 1 (BlockCachedTable.mk 2 [8] 200 true 9 0) rfl rfl (by
      intro j ej hj hej
      have hj0 : j = 0 := by omega
      subst hj0
      have : ej = BlockCachedTable.mk 1 [7] 100 true 3 2 := by
        have h' : c3_cache.entries[0]? = some (BlockCachedTable.mk 1 [7] 100 true 3 2) := rfl
        rw [hej] at h'
        exact Option.some.inj h'
      subst this
      decide)).2 rfl

/-! ### Sentinel slots are clean -/

theorem sentinel_idle_of_caches {w1 w : World} (h : w1.caches = w.caches)
    (hi : sentinel_idle w) : sentinel_idle w1 := by
  intro cache hmem
  rw [h] at hmem
  exact hi cache hmem

theorem sentinel_idle_set_cache (w : World) (c : Nat) (x : BlockCache) (hi : sentinel_idle w)
    (hx : ∀ e ∈ x.entries, slot_idle_at_sentinel e) : sentinel_idle (w.set_cache c x) := by
  intro cache hmem
  rcases List.mem_or_eq_of_mem_set hmem with h | h
  · exact hi cache h
  · rw [h]
    exact hx

theorem sentinel_idle_set_entry (w : World) (c i : Nat) (cache : BlockCache)
    (x : BlockCachedTable) (hi : sentinel_idle w) (hc : w.caches[c]? = some cache)
    (hx : slot_idle_at_sentinel x) : sentinel_idle (w.set_cache c (cache.set_entry i x)) := by
  apply sentinel_idle_set_cache w c _ hi
  intro e hmem
  rcases List.mem_or_eq_of_mem_set hmem with h | h
  · exact hi cache (List.getElem?_mem hc) e h
  · rw [h]
    exact hx

theorem slot_idle_of_slot_le {e1 e : BlockCachedTable} (h : slot_le e1 e)
    (hi : slot_idle_at_sentinel e) : slot_idle_at_sentinel e1 := by
  intro h0
  obtain ⟨_, _, hoff, _, href⟩ := slot_le_fields h
  obtain ⟨hd, hr⟩ := hi (hoff ▸ h0)
  exact ⟨slot_le_dirty_false h hd, href.trans hr⟩

theorem sentinel_idle_world_le {bs : Nat} {w1 w : World} (h : world_le bs w1 w)
    (hi : sentinel_idle w) : sentinel_idle w1 := by
  intro cache1 hmem e1 hemem
  obtain ⟨c, hc1⟩ := List.getElem?_of_mem hmem
  obtain ⟨i, he1⟩ := List.getElem?_of_mem hemem
  obtain ⟨cache, hc, hcle⟩ := world_le_cache_back h hc1
  obtain ⟨e, he, hsl⟩ := cache_le_slot_back hcle he1
  exact slot_idle_of_slot_le hsl (hi cache (List.getElem?_mem hc) e (List.getElem?_mem he))

theorem slot_idle_aged (e : BlockCachedTable) (hi : slot_idle_at_sentinel e) :
    slot_idle_at_sentinel (aged e) := by
  intro h0
  obtain ⟨_, _, hoff, hdirty, href⟩ := aged_fields e
  obtain ⟨hd, hr⟩ := hi (hoff ▸ h0)
  exact ⟨hdirty.trans hd, href.trans hr⟩

/-- A `block_cache_do_get` for an offset other than 0 keeps the slots with
offset 0 clean and not borrowed. -/
theorem sentinel_idle_do_get (fuel bs c offset : Nat) (rd : Bool) (w : World) (r : Int)
    (t : Option Nat) (w1 : World) (hi : sentinel_idle w) (ho : offset ≠ 0)
    (h : block_cache_do_get fuel bs c offset rd w = .ok ((r, t), w1)) : sentinel_idle w1 := by
  cases hc : w.caches[c]? with
  | none => simp [block_cache_do_get, hc] at h
  | some cache =>
    cases hfind : find_offset cache.entries offset 0 with
    | some i =>
      obtain ⟨j, e, hij, hj, hoff⟩ := find_offset_some offset cache.entries 0 i hfind
      have hij' : i = j := by omega
      subst hij'
      rw [do_get_hit_eq fuel bs c offset rd w cache i e hc hfind hj] at h
      simp only [Except.ok.injEq, Prod.mk.injEq] at h
      rw [← h.2]
      apply sentinel_idle_set_entry w c i cache _ hi hc
      intro h0
      exact absurd (hoff.symm.trans h0) ho
    | none =>
      cases hv : block_cache_find_entry_to_replace cache with
      | error f => simp [block_cache_do_get, hc, hfind, hv] at h
      | ok p =>
        obtain ⟨mi, cache1⟩ := p
        obtain ⟨m, _, hmi, _, _, hcA⟩ := find_entry_to_replace_ok cache cache1 mi hv
        subst hmi
        cases hf : block_cache_entry_flush (block_cache_flush fuel) bs c m
            (w.set_cache c cache1) with
        | error f =>
          have hmi : ¬ ((m : Int) < 0) := by omega
          simp [block_cache_do_get, hc, hfind, hv, hmi, hf] at h
        | ok q =>
          obtain ⟨ret, w2⟩ := q
          obtain ⟨ev, cache2, e2, hev, hevr, _, hc2, he2, hsl, _, _, hclean, _, _, hle⟩ :=
            victim_write_back fuel bs c m w cache cache1 ret w2 hc hv hf
          have hiA : sentinel_idle (w.set_cache c cache1) := by
            apply sentinel_idle_set_cache w c cache1 hi
            rw [hcA]
            intro e hmem
            obtain ⟨e0, he0, hage⟩ := List.mem_map.mp hmem
            rw [← hage]
            exact slot_idle_aged e0 (hi cache (List.getElem?_mem hc) e0 he0)
          have hi2 : sentinel_idle w2 := sentinel_idle_world_le hle hiA
          have hr2 : e2.ref = 0 := by
            rw [(slot_le_fields hsl).2.2.2.2, (aged_fields ev).2.2.2.2, hevr]
          by_cases hret : ret < 0
          · rw [do_get_miss_fail_eq fuel bs c offset rd w cache cache1 m ret w2 hc hfind hv hf
              hret] at h
            simp only [Except.ok.injEq, Prod.mk.injEq] at h
            rw [← h.2]
            exact hi2
          · have hret' : 0 ≤ ret := by omega
            cases rd with
            | false =>
              rw [do_get_miss_empty_eq fuel bs c offset w cache cache1 cache2 m ret w2 e2 hc
                hfind hv hf hret' hc2 he2] at h
              simp only [Except.ok.injEq, Prod.mk.injEq] at h
              rw [← h.2]
              apply sentinel_idle_set_entry w2 c m cache2 _ hi2 hc2
              intro h0
              exact absurd h0 ho
            | true =>
              rw [do_get_miss_read_eq fuel bs c offset w cache cache1 cache2 m ret w2 e2 hc
                hfind hv hf hret' hc2 he2] at h
              have hi3 : sentinel_idle (bdrv_pread bs offset e2.data cache2.table_size w2).2.2 :=
                sentinel_idle_of_caches rfl hi2
              by_cases hs : w2.script.headD 0 < 0
              · rw [if_pos hs] at h
                simp only [Except.ok.injEq, Prod.mk.injEq] at h
                rw [← h.2]
                apply sentinel_idle_set_entry _ c m cache2 _ hi3 hc2
                intro _
                refine ⟨?_, hr2⟩
                rcases hclean hret' with hd | h0
                · exact hd
                · exact (hi2 cache2 (List.getElem?_mem hc2) e2 (List.getElem?_mem he2) h0).1
              · rw [if_neg hs] at h
                simp only [Except.ok.injEq, Prod.mk.injEq] at h
                rw [← h.2]
                apply sentinel_idle_set_entry _ c m cache2 _ hi3 hc2
                intro h0
                exact absurd h0 ho

/-- C11 for one call: a returning call that keeps to the borrow protocol keeps
the slots with offset 0 clean and not borrowed. -/
theorem sentinel_idle_exec (op : Op) (w w1 : World) (hi : sentinel_idle w)
    (hp : keeps_protocol op w) (h : exec op w = .ok w1) : sentinel_idle w1 := by
  cases op with
  | create n ts ty =>
    simp only [exec, Except.ok.injEq] at h
    rw [← h]
    intro cache hmem
    simp only [block_cache_create, List.mem_append, List.mem_singleton] at hmem
    rcases hmem with hm | hm
    · exact hi cache hm
    · rw [hm]
      intro e he h0
      have := alloc_entries_idle w.brk n ts e he
      exact ⟨this.2.1, this.2.2.2⟩
  | get fuel bs c offset =>
    obtain ⟨⟨⟨r, t⟩, w2⟩, hg, hw⟩ := except_map_ok h
    simp only at hw
    subst hw
    exact sentinel_idle_do_get fuel bs c offset true w r t w2 hi hp hg
  | get_empty fuel bs c offset =>
    obtain ⟨⟨⟨r, t⟩, w2⟩, hg, hw⟩ := except_map_ok h
    simp only at hw
    subst hw
    exact sentinel_idle_do_get fuel bs c offset false w r t w2 hi hp hg
  | put c table =>
    obtain ⟨⟨⟨r, t⟩, w2⟩, hg, hw⟩ := except_map_ok h
    simp only at hw
    subst hw
    simp only [block_cache_put] at hg
    cases hc : w.caches[c]? with
    | none => simp [hc] at hg
    | some cache =>
      simp only [hc] at hg
      cases hf : find_table cache.entries table 0 with
      | none =>
        simp only [hf, Except.ok.injEq, Prod.mk.injEq] at hg
        rw [← hg.2]
        exact hi
      | some i =>
        simp only [hf] at hg
        cases he : cache.entries[i]? with
        | none => simp [he] at hg
        | some e =>
          simp only [he] at hg
          by_cases hneg : wrap_int (e.ref - 1) < 0
          · simp [hneg] at hg
          · simp only [hneg, if_false, Except.ok.injEq, Prod.mk.injEq] at hg
            rw [← hg.2]
            apply sentinel_idle_set_entry w c i cache _ hi hc
            intro h0
            exfalso
            have hr := (hi cache (List.getElem?_mem hc) e (List.getElem?_mem he) h0).2
            rw [hr] at hneg
            exact hneg (by decide)
  | mark_dirty c table =>
    simp only [exec, block_cache_entry_mark_dirty] at h
    cases hc : w.caches[c]? with
    | none => simp [hc] at h
    | some cache =>
      simp only [hc] at h
      cases hf : find_table cache.entries table 0 with
      | none => simp [hf] at h
      | some i =>
        simp only [hf] at h
        cases he : cache.entries[i]? with
        | none => simp [he] at h
        | some e =>
          simp only [he, Except.ok.injEq] at h
          rw [← h]
          apply sentinel_idle_set_entry w c i cache _ hi hc
          intro h0
          exfalso
          exact hp cache i e hc hf he
            (hi cache (List.getElem?_mem hc) e (List.getElem?_mem he) h0).2
  | store c table bytes =>
    simp only [exec, table_store] at h
    cases hc : w.caches[c]? with
    | none => simp [hc] at h
    | some cache =>
      simp only [hc] at h
      cases hf : find_table cache.entries table 0 with
      | none => simp [hf] at h
      | some i =>
        simp only [hf] at h
        cases he : cache.entries[i]? with
        | none => simp [he] at h
        | some e =>
          simp only [he, Except.ok.injEq] at h
          rw [← h]
          apply sentinel_idle_set_entry w c i cache _ hi hc
          exact hi cache (List.getElem?_mem hc) e (List.getElem?_mem he)
  | flush fuel bs c =>
    obtain ⟨⟨r, w2⟩, hg, hw⟩ := except_map_ok h
    simp only at hw
    subst hw
    exact sentinel_idle_world_le (block_cache_flush_spec fuel bs c w r w2 hg).1 hi
  | set_dependency fuel bs c dependency =>
    obtain ⟨⟨r, w2⟩, hg, hw⟩ := except_map_ok h
    simp only at hw
    subst hw
    obtain ⟨w3, hle, hcase⟩ := set_dependency_effect fuel bs c dependency w r w2 hg
    have hi3 := sentinel_idle_world_le hle hi
    rcases hcase with ⟨_, hw⟩ | ⟨_, _, _, _, ca2, hca2, hw⟩
    · rw [hw]
      exact hi3
    · rw [hw]
      exact sentinel_idle_set_cache w3 c _ hi3 (hi3 ca2 (List.getElem?_mem hca2))
  | depends_on_flush c =>
    simp only [exec, block_cache_depends_on_flush] at h
    cases hc : w.caches[c]? with
    | none => simp [hc] at h
    | some cache =>
      simp only [hc, Except.ok.injEq] at h
      rw [← h]
      exact sentinel_idle_set_cache w c _ hi (hi cache (List.getElem?_mem hc))
  | answers script =>
    simp only [exec, Except.ok.injEq] at h
    rw [← h]
    exact hi

/-- C11 for the calls create, get with offset 0 and mark_dirty through the
handle that get returned: the slot has the offset 0, is borrowed once, and is
dirty. -/
theorem C11_counterexample :
    ReachableBy borrow_ops c11_world_2 ∧
    block_cache_get 0 0 0 0 c11_world_0 = .ok ((0, some 1), c11_world_1) ∧
    block_cache_entry_mark_dirty 0 1 c11_world_1 = .ok c11_world_2 ∧
    c11_world_2.caches.map (fun x => x.entries) = [[BlockCachedTable.mk 1 [0] 0 true 1 1]] := by
  refine ⟨?_, by decide, by decide, by decide⟩
  have h0 : ReachableBy borrow_ops c11_world_0 :=
    ReachableBy.step (.create 1 1 .BLOCK_TABLE_L2) _ _ (ReachableBy.initial []) trivial
      (by decide)
  have h1 : ReachableBy borrow_ops c11_world_1 :=
    ReachableBy.step (.get 0 0 0 0) _ _ h0 trivial (by decide)
  exact ReachableBy.step (.mark_dirty 0 1) _ _ h1 trivial (by decide)

/-- C11 (amended): in every world reached from the start, before any cache
exists, by returning calls of the interface in which `get` and `get_empty` ask
for offsets other than 0 and `mark_dirty` names the buffer of a slot that is
borrowed, with stores into buffers and any successes and failures of the
backing store, every slot whose offset is 0 is clean, and not borrowed. -/
theorem C11_sentinel_slots_clean (w : World) (h : ReachableIn keeps_protocol w) :
    ∀ (c : Nat) (cache : BlockCache) (i : Nat) (e : BlockCachedTable),
      w.caches[c]? = some cache → cache.entries[i]? = some e → e.offset = 0 →
      e.dirty = false ∧ e.ref = 0 := by
  have hi : sentinel_idle w := by
    induction h with
    | initial disk =>
      intro cache hmem
      simp [World.initial] at hmem
    | step op w w1 _ hpre hexec ih => exact sentinel_idle_exec op w w1 ih hpre hexec
  intro c cache i e hc he h0
  exact hi cache (List.getElem?_mem hc) e (List.getElem?_mem he) h0

/-- C11 at the world after the creation of a cache of two slots, get_empty for
offset 100 and mark_dirty through the handle: the second slot still has the
offset 0, and it is clean and not borrowed. -/
theorem C11_sentinel_slots_clean_witness :
    ReachableIn keeps_protocol c11_world_5 ∧
    c11_world_5.caches.map (fun x => x.entries)
      = [[BlockCachedTable.mk 1 [0] 100 true 33 1, BlockCachedTable.mk 2 [0] 0 false 0 0]] ∧
    (∀ (c : Nat) (cache : BlockCache) (i : Nat) (e : BlockCachedTable),
      c11_world_5.caches[c]? = some cache → cache.entries[i]? = some e → e.offset = 0 →
      e.dirty = false ∧ e.ref = 0) ∧
    ∃ (cache : BlockCache) (e : BlockCachedTable), c11_world_5.caches[0]? = some cache ∧
      cache.entries[1]? = some e ∧ e.offset = 0 ∧ e.dirty = false ∧ e.ref = 0 := by
  have h3 : ReachableIn keeps_protocol c11_world_3 :=
    ReachableIn.step (.create 2 1 .BLOCK_TABLE_L2) _ _ (ReachableIn.initial []) trivial
      (by decide)
  have h4 : ReachableIn keeps_protocol c11_world_4 :=
    ReachableIn.step (.get_empty 0 0 0 100) _ _ h3
      (show (100 : Nat) ≠ 0 by decide) (by decide)
  have h5 : ReachableIn keeps_protocol c11_world_5 := by
    refine ReachableIn.step (.mark_dirty 0 1) _ _ h4 ?_ (by decide)
    intro cache i e hc hf he
    have hc' : cache = BlockCache.mk
        [BlockCachedTable.mk 1 [0] 100 false 33 1, BlockCachedTable.mk 2 [0] 0 false 0 0] none 1
        BlockTableType.BLOCK_TABLE_L2 false := by
      have h' : c11_world_4.caches[0]? = some (BlockCache.mk
          [BlockCachedTable.mk 1 [0] 100 false 33 1, BlockCachedTable.mk 2 [0] 0 false 0 0]
          none 1 BlockTableType.BLOCK_TABLE_L2 false) := by decide
      rw [hc] at h'
      exact Option.some.inj h'
    subst hc'
    have hi0 : i = 0 := by
      have h' : find_table
          [BlockCachedTable.mk 1 [0] 100 false 33 1, BlockCachedTable.mk 2 [0] 0 false 0 0] 1 0
          = some 0 := by decide
      rw [hf] at h'
      exact Option.some.inj h'
    subst hi0
    simp only [List.getElem?_cons_zero, Option.some.injEq] at he
    rw [← he]
    decide
  have hc : c11_world_5.caches[0]? = some (BlockCache.mk
      [BlockCachedTable.mk 1 [0] 100 true 33 1, BlockCachedTable.mk 2 [0] 0 false 0 0] none 1
      BlockTableType.BLOCK_TABLE_L2 false) := by decide
  obtain ⟨hd, hr⟩ := C11_sentinel_slots_clean c11_world_5 h5 0 _ 1
    (BlockCachedTable.mk 2 [0] 0 false 0 0) hc rfl rfl
  exact ⟨h5, by decide, C11_sentinel_slots_clean c11_world_5 h5, _, _, hc, rfl, rfl, hd, hr⟩

/-! ### Flush twice -/

/-- A `block_cache_entry_flush` of a slot to write that returns without error
leaves the cache without dependency and without device-flush obligation. -/
theorem entry_flush_resolves (fuel bs c i : Nat) (w : World) (cache : BlockCache)
    (e : BlockCachedTable) (r : Int) (w1 : World) (hc : w.caches[c]? = some cache)
    (he : cache.entries[i]? = some e) (hd : e.dirty = true) (ho : e.offset ≠ 0)
    (h : block_cache_entry_flush (block_cache_flush fuel) bs c i w = .ok (r, w1))
    (hr : 0 ≤ r) :
    ∃ cache1, w1.caches[c]? = some cache1 ∧ cache1.depends = none ∧
      cache1.depends_on_flush = false := by
  have hwrite : ∀ (w0 : World) (cache0 : BlockCache), w0.caches[c]? = some cache0 →
      cache0.entries = cache.entries → cache0.depends = none →
      cache0.depends_on_flush = false → entry_flush_write bs c i w0 = .ok (r, w1) →
      ∃ cache1, w1.caches[c]? = some cache1 ∧ cache1.depends = none ∧
        cache1.depends_on_flush = false := by
    intro w0 cache0 hc0 hents hdep0 hf0 hw
    have he0 : cache0.entries[i]? = some e := by rw [hents]; exact he
    rw [entry_flush_write_eq bs c i w0 cache0 e hc0 he0] at hw
    by_cases hs : w0.script.headD 0 < 0
    · simp only [hs, if_true, Except.ok.injEq, Prod.mk.injEq] at hw
      rw [← hw.2]
      exact ⟨cache0, hc0, hdep0, hf0⟩
    · simp only [hs, if_false, Except.ok.injEq, Prod.mk.injEq] at hw
      rw [← hw.2]
      have hc0' : (bdrv_pwrite bs e.offset e.data cache0.table_size w0).2.caches[c]?
          = some cache0 := hc0
      exact ⟨_, getElem?_set_cache_self _ c _ cache0 hc0', hdep0, hf0⟩
  rcases Option.eq_none_or_eq_some cache.depends with hdep | ⟨d, hdep⟩
  · by_cases hf : cache.depends_on_flush = true
    · rw [entry_flush_sync _ bs c i w cache e hc he hd ho hdep hf] at h
      by_cases hs : w.script.headD 0 < 0
      · simp only [hs, if_true, Except.ok.injEq, Prod.mk.injEq] at h
        omega
      · simp only [hs, if_false] at h
        have hcf : (bdrv_flush bs w).2.caches[c]? = some cache := hc
        exact hwrite _ { cache with depends_on_flush := false }
          (getElem?_set_cache_self _ c _ cache hcf) rfl hdep rfl h
    · have hf' : cache.depends_on_flush = false := by simpa using hf
      rw [entry_flush_plain _ bs c i w cache e hc he hd ho hdep hf'] at h
      exact hwrite w cache hc rfl hdep hf' h
  · rw [entry_flush_dep _ bs c i d w cache e hc he hd ho hdep] at h
    cases hfd : block_cache_flush fuel bs d w with
    | error f => simp [hfd] at h
    | ok p =>
      obtain ⟨rd, wd⟩ := p
      have hframe := dep_flush_frame fuel bs c d w rd wd ((dep_of_cache hc).trans hdep) hfd
      have hcd : wd.caches[c]? = some cache := by rw [hframe]; exact hc
      simp only [hfd] at h
      by_cases hrd : rd < 0
      · simp only [hrd, if_true, Except.ok.injEq, Prod.mk.injEq] at h
        omega
      · simp only [hrd, if_false, hcd] at h
        exact hwrite _ { cache with depends := none, depends_on_flush := false }
          (getElem?_set_cache_self _ c _ cache hcd) rfl rfl rfl h

/-- A sweep that ends with the result 0 and met a slot to write leaves the cache
without dependency and without device-flush obligation. -/
theorem flush_loop_resolves (fuel bs c : Nat) :
    ∀ (l : List Nat) (res : Int) (w : World) (cache : BlockCache) (w1 : World),
      w.caches[c]? = some cache →
      flush_loop (fun i w2 => block_cache_entry_flush (block_cache_flush fuel) bs c i w2)
        l res w = .ok (0, w1) →
      (∃ i ∈ l, ∃ e, cache.entries[i]? = some e ∧ e.dirty = true ∧ e.offset ≠ 0) →
      ∃ cache1, w1.caches[c]? = some cache1 ∧ cache1.depends = none ∧
        cache1.depends_on_flush = false := by
  intro l
  induction l with
  | nil =>
    intro res w cache w1 _ _ hex
    obtain ⟨i, hi, _⟩ := hex
    exact absurd hi (List.not_mem_nil i)
  | cons i rest ih =>
    intro res w cache w1 hc h hex
    simp only [flush_loop] at h
    cases hef : block_cache_entry_flush (block_cache_flush fuel) bs c i w with
    | error f => simp [hef] at h
    | ok p =>
      obtain ⟨ret, w2⟩ := p
      simp only [hef] at h
      obtain ⟨hle2, _, _, _, _⟩ := entry_flush_spec _ (block_cache_flush_spec fuel) bs c i w ret
        w2 hef
      obtain ⟨hle1, _, _, _, _, hz⟩ := flush_loop_spec _ (block_cache_flush_spec fuel) bs c rest
        _ w2 0 w1 h
      obtain ⟨hres', _⟩ := hz rfl
      have hret0 : 0 ≤ ret := by
        by_contra hneg
        by_cases hres : res = -ENOSPC
        · have hcond : ¬ (ret < 0 ∧ res ≠ -ENOSPC) := fun hc' => hc'.2 hres
          rw [if_neg hcond, hres] at hres'
          exact absurd hres' (by decide)
        · rw [if_pos ⟨by omega, hres⟩] at hres'
          omega
      obtain ⟨cache2, hc2, hothers, _⟩ := entry_flush_slots fuel bs c i w cache ret w2 hc hef
      by_cases hslot : ∃ e, cache.entries[i]? = some e ∧ e.dirty = true ∧ e.offset ≠ 0
      · obtain ⟨e, he, hd, ho⟩ := hslot
        obtain ⟨cacheA, hcA, hdepA, hfA⟩ := entry_flush_resolves fuel bs c i w cache e ret w2 hc
          he hd ho hef hret0
        obtain ⟨cache1, hc1, hcle⟩ := hle1.caches c cacheA hcA
        refine ⟨cache1, hc1, ?_, ?_⟩
        · rcases hcle.depends with h' | h'
          · rw [h', hdepA]
          · exact h'
        · rcases hcle.on_flush with h' | h'
          · rw [h', hfA]
          · exact h'
      · obtain ⟨j, hj, e, he, hd, ho⟩ := hex
        have hji : j ≠ i := by
          intro hji
          subst hji
          exact hslot ⟨e, he, hd, ho⟩
        have hjrest : j ∈ rest := by
          rcases List.mem_cons.mp hj with h' | h'
          · exact absurd h' hji
          · exact h'
        exact ih _ w2 cache2 w1 hc2 h ⟨j, hjrest, e, (hothers j hji).trans he, hd, ho⟩

/-- A sweep over slots none of which is to write does nothing. -/
theorem flush_loop_clean (fl : Nat → Nat → World → Res Int) (bs c : Nat) (w : World)
    (cache : BlockCache) (hc : w.caches[c]? = some cache) (hnd : ¬ has_dirty w c) :
    ∀ (l : List Nat) (res : Int), (∀ i ∈ l, i < cache.entries.length) →
      flush_loop (fun i w2 => block_cache_entry_flush fl bs c i w2) l res w = .ok (res, w) := by
  intro l
  induction l with
  | nil => intro res _; rfl
  | cons i rest ih =>
    intro res hlt
    have hi : i < cache.entries.length := hlt i (List.mem_cons_self i rest)
    have he : cache.entries[i]? = some (cache.entries.get ⟨i, hi⟩) := by
      simp [List.getElem?_eq_getElem hi]
    have hskip : (cache.entries.get ⟨i, hi⟩).dirty = false ∨
        (cache.entries.get ⟨i, hi⟩).offset = 0 := by
      by_contra hcon
      apply hnd
      refine ⟨cache, i, _, hc, he, ?_, ?_⟩
      · cases hdd : (cache.entries.get ⟨i, hi⟩).dirty with
        | true => rfl
        | false => exact absurd (Or.inl hdd) hcon
      · exact fun h0 => hcon (Or.inr h0)
    simp only [flush_loop, entry_flush_skip fl bs c i w cache _ hc he hskip]
    have hcond : ¬ ((0 : Int) < 0 ∧ res ≠ -ENOSPC) := by omega
    rw [if_neg hcond]
    exact ih res (fun j hj => hlt j (List.mem_cons_of_mem i hj))

/-- A flush of a cache without a slot to write issues one device sync and
nothing else. -/
theorem flush_clean_eq (fuel bs c : Nat) (w : World) (cache : BlockCache)
    (hc : w.caches[c]? = some cache) (hnd : ¬ has_dirty w c) :
    block_cache_flush (fuel + 1) bs c w =
      .ok ((if w.script.headD 0 < 0 then w.script.headD 0 else 0), (bdrv_flush bs w).2) := by
  simp only [block_cache_flush, hc]
  rw [flush_loop_clean _ bs c w cache hc hnd (List.range cache.size) 0
    (fun i hi => List.mem_range.mp hi)]
  simp only [if_true]
  by_cases hs : w.script.headD 0 < 0
  · have hb : (bdrv_flush bs w).1 < 0 := hs
    simp only [hb, hs, if_true]
    rfl
  · have hb : ¬ (bdrv_flush bs w).1 < 0 := hs
    simp only [hb, hs, if_false]

/-- C16 in the world `c16_world`, reached by the calls `c16_ops`: cache 0 has
no dirty slot, depends on cache 1 and has the device-flush obligation; its
flush returns 0 after one device sync, and the dependency and the obligation
are still there. -/
theorem C16_counterexample :
    ReachableBy all_ops c16_world ∧
    (c16_world.caches.map (fun x => (x.depends, x.depends_on_flush)))
      = [(some 1, true), (none, false)] ∧
    (block_cache_flush 1 0 0 c16_world).toOption.map
        (fun p => (p.1, p.2.log, p.2.caches.map (fun x => (x.depends, x.depends_on_flush))))
      = some (0, [BdrvCall.flush 0 0], [(some 1, true), (none, false)]) := by
  refine ⟨?_, by decide, by decide⟩
  exact reachable_run all_ops c16_ops (World.initial []) c16_world (ReachableBy.initial [])
    (fun _ _ => trivial) (by decide)

/-- C16 (amended): after a `block_cache_flush` that returns without error, no
slot of the cache with an offset other than 0 is dirty; if the cache had a slot
to write when the flush started, it is left without dependency and without
device-flush obligation; if it had none, the cache is exactly as it was, so its
dependency and its device-flush obligation stay as they were; in either case
a `block_cache_entry_flush` of any slot does nothing afterwards. A second
flush, started in the world the first one left, returns after one device sync
as its only call into the backing store and leaves every cache and the backing
files as they are. -/
theorem C16_flush_idempotence (fuel bs c : Nat) (w : World) (cache : BlockCache) (r : Int)
    (w1 : World) (hc : w.caches[c]? = some cache)
    (h : block_cache_flush fuel bs c w = .ok (r, w1)) (hr : 0 ≤ r) :
    r = 0 ∧
    ∃ cache1, w1.caches[c]? = some cache1 ∧
      (∀ (i : Nat) (e : BlockCachedTable), cache1.entries[i]? = some e → e.offset ≠ 0 →
        e.dirty = false) ∧
      (has_dirty w c → cache1.depends = none ∧ cache1.depends_on_flush = false) ∧
      (¬ has_dirty w c → cache1 = cache ∧ cache1.depends = cache.depends ∧
        cache1.depends_on_flush = cache.depends_on_flush) ∧
      (∀ (fl : Nat → Nat → World → Res Int) (i : Nat), i < cache1.size →
        block_cache_entry_flush fl bs c i w1 = .ok (0, w1)) ∧
      (∀ fuel2, block_cache_flush (fuel2 + 1) bs c w1 =
        .ok ((if w1.script.headD 0 < 0 then w1.script.headD 0 else 0), (bdrv_flush bs w1).2)) ∧
      (bdrv_flush bs w1).2.caches = w1.caches ∧ (bdrv_flush bs w1).2.disk = w1.disk ∧
      (bdrv_flush bs w1).2.log = w1.log ++ [BdrvCall.flush bs (w1.script.headD 0)] := by
  obtain ⟨hle, _, _, hok⟩ := block_cache_flush_spec fuel bs c w r w1 h
  obtain ⟨hr0, _, hnd⟩ := hok hr
  obtain ⟨cache1, hc1, _⟩ := hle.caches c cache hc
  have hclean : ∀ (i : Nat) (e : BlockCachedTable), cache1.entries[i]? = some e →
      e.dirty = false ∨ e.offset = 0 := by
    intro i e he
    by_contra hcon
    apply hnd
    refine ⟨cache1, i, e, hc1, he, ?_, fun h0 => hcon (Or.inr h0)⟩
    cases hdd : e.dirty with
    | true => rfl
    | false => exact absurd (Or.inl hdd) hcon
  have hkeep : ¬ has_dirty w c → cache1 = cache := by
    intro hn
    cases fuel with
    | zero => simp [block_cache_flush] at h
    | succ fuel =>
      rw [flush_clean_eq fuel bs c w cache hc hn] at h
      simp only [Except.ok.injEq, Prod.mk.injEq] at h
      have hcs : w1.caches = w.caches := by rw [← h.2]; rfl
      rw [hcs, hc] at hc1
      exact (Option.some.inj hc1).symm
  refine ⟨hr0, cache1, hc1, ?_, ?_, ?_, ?_, ?_, rfl, rfl, rfl⟩
  · intro i e he ho
    rcases hclean i e he with h' | h'
    · exact h'
    · exact absurd h' ho
  · rintro ⟨cache', i, e, hc', he, hd, ho⟩
    rw [hc] at hc'
    cases hc'
    subst hr0
    cases fuel with
    | zero => simp [block_cache_flush] at h
    | succ fuel =>
      simp only [block_cache_flush, hc] at h
      cases hl : flush_loop
          (fun i w2 => block_cache_entry_flush (block_cache_flush fuel) bs c i w2)
          (List.range cache.size) 0 w with
      | error f => simp [hl] at h
      | ok p =>
        obtain ⟨res, w2⟩ := p
        simp only [hl] at h
        by_cases hres : res = 0
        · subst hres
          obtain ⟨cache2, hc2, hdep2, hf2⟩ := flush_loop_resolves fuel bs c _ 0 w cache w2 hc hl
            ⟨i, List.mem_range.mpr (getElem?_some_lt he), e, he, hd, ho⟩
          simp only [if_true] at h
          have hw : w1 = (bdrv_flush bs w2).2 := by
            by_cases hs : (bdrv_flush bs w2).1 < 0
            · simp only [hs, if_true, Except.ok.injEq, Prod.mk.injEq] at h
              exact h.2.symm
            · simp only [hs, if_false, Except.ok.injEq, Prod.mk.injEq] at h
              exact h.2.symm
          have hc1' : w1.caches[c]? = some cache2 := by rw [hw]; exact hc2
          rw [hc1] at hc1'
          cases hc1'
          exact ⟨hdep2, hf2⟩
        · simp only [hres, if_false, Except.ok.injEq, Prod.mk.injEq] at h
          exact h.1.elim
  · intro hn
    have hk := hkeep hn
    exact ⟨hk, by rw [hk], by rw [hk]⟩
  · intro fl i hi
    have he : cache1.entries[i]? = some (cache1.entries.get ⟨i, hi⟩) := by
      simp [List.getElem?_eq_getElem hi]
    exact entry_flush_skip fl bs c i w1 cache1 _ hc1 he (hclean i _ he)
  · intro fuel2
    exact flush_clean_eq fuel2 bs c w1 cache1 hc1 hnd

/-- C16 at `c1_world`: cache 0 has a dirty slot and depends on cache 1. -/
theorem C16_flush_idempotence_witness :
    (c1_world.caches[0]? = some c1_cache_a ∧
      block_cache_flush 2 0 0 c1_world
        = .ok (0, world_after (block_cache_flush 2 0 0 c1_world) c1_world) ∧ (0 : Int) ≤ 0) ∧
    (∃ cache1, (world_after (block_cache_flush 2 0 0 c1_world) c1_world).caches[0]?
        = some cache1 ∧ cache1.depends = none ∧ cache1.depends_on_flush = false) ∧
    (block_cache_flush 1 0 0 (world_after (block_cache_flush 2 0 0 c1_world) c1_world)).toOption.map
        (fun p => (p.1, p.2.log, p.2.caches))
      = some (0, (world_after (block_cache_flush 2 0 0 c1_world) c1_world).log
          ++ [BdrvCall.flush 0 0],
        (world_after (block_cache_flush 2 0 0 c1_world) c1_world).caches) := by
  have hyp : block_cache_flush 2 0 0 c1_world
      = .ok (0, world_after (block_cache_flush 2 0 0 c1_world) c1_world) := by decide
  obtain ⟨_, cache1, hc1, _, hres, _, _, hsecond, _⟩ :=
    C16_flush_idempotence 2 0 0 c1_world c1_cache_a 0 _ rfl hyp (le_refl 0)
  refine ⟨⟨rfl, hyp, le_refl 0⟩, ⟨cache1, hc1, hres ?_⟩, ?_⟩
  · exact ⟨c1_cache_a, 0, _, rfl, rfl, rfl, by decide⟩
  · rw [hsecond 0]
    decide

/-! ### The sweep of flush -/

theorem sweep_world_le (fuel bs c : Nat) :
    ∀ (l : List Nat) (w : World),
      world_le bs (sweep_world
        (fun i w2 => block_cache_entry_flush (block_cache_flush fuel) bs c i w2) l w) w := by
  intro l
  induction l with
  | nil => intro w; exact world_le_refl bs w
  | cons i rest ih =>
    intro w
    simp only [sweep_world]
    cases hef : block_cache_entry_flush (block_cache_flush fuel) bs c i w with
    | error f => exact world_le_refl bs w
    | ok p =>
      obtain ⟨ret, w2⟩ := p
      exact world_le_trans (ih w2)
        (entry_flush_spec _ (block_cache_flush_spec fuel) bs c i w ret w2 hef).1

/-- The calls of `block_cache_entry_flush` for other slots leave a slot as it
is. -/
theorem sweep_world_slot (fuel bs c i : Nat) :
    ∀ (l : List Nat) (w : World) (cache : BlockCache), w.caches[c]? = some cache → i ∉ l →
      ∃ cache1, (sweep_world
          (fun j w2 => block_cache_entry_flush (block_cache_flush fuel) bs c j w2) l w).caches[c]?
          = some cache1 ∧ cache1.entries[i]? = cache.entries[i]? := by
  intro l
  induction l with
  | nil => intro w cache hc _; exact ⟨cache, hc, rfl⟩
  | cons j rest ih =>
    intro w cache hc hnot
    have hij : i ≠ j := fun h => hnot (h ▸ List.mem_cons_self i rest)
    have hrest : i ∉ rest := fun h => hnot (List.mem_cons_of_mem j h)
    simp only [sweep_world]
    cases hef : block_cache_entry_flush (block_cache_flush fuel) bs c j w with
    | error f => exact ⟨cache, hc, rfl⟩
    | ok p =>
      obtain ⟨ret, w2⟩ := p
      obtain ⟨cache2, hc2, hothers, _⟩ := entry_flush_slots fuel bs c j w cache ret w2 hc hef
      obtain ⟨cache1, hc1, hslot⟩ := ih w2 cache2 hc2 hrest
      exact ⟨cache1, hc1, hslot.trans (hothers i hij)⟩

/-- The loop of `block_cache_flush` calls `entry_flush` for every slot of the
list, and its result is 0 exactly when it started with 0 and no call returned
an error. -/
theorem flush_loop_sweep (ef : Nat → World → Res Int) :
    ∀ (l : List Nat) (res : Int) (w : World) (r : Int) (w1 : World),
      flush_loop ef l res w = .ok (r, w1) →
      w1 = sweep_world ef l w ∧ (sweep_rets ef l w).length = l.length ∧
      ((res = 0 ∧ ∀ ret ∈ sweep_rets ef l w, 0 ≤ ret) → r = 0) ∧
      ((res < 0 ∨ ∃ ret ∈ sweep_rets ef l w, ret < 0) → r < 0) := by
  intro l
  induction l with
  | nil =>
    intro res w r w1 h
    simp only [flush_loop, Except.ok.injEq, Prod.mk.injEq] at h
    obtain ⟨hr, hw⟩ := h
    subst hr
    subst hw
    refine ⟨rfl, rfl, fun h => h.1, ?_⟩
    rintro (h | ⟨ret, hmem, _⟩)
    · exact h
    · exact absurd hmem (List.not_mem_nil ret)
  | cons i rest ih =>
    intro res w r w1 h
    simp only [flush_loop] at h
    cases hef : ef i w with
    | error f => simp [hef] at h
    | ok p =>
      obtain ⟨ret, w2⟩ := p
      simp only [hef] at h
      obtain ⟨hw, hlen, hzero, hneg⟩ := ih _ w2 r w1 h
      simp only [sweep_world, sweep_rets, hef, List.length_cons, hlen, List.mem_cons]
      refine ⟨hw, trivial, ?_, ?_⟩
      · rintro ⟨hres, hall⟩
        apply hzero
        have hret : 0 ≤ ret := hall ret (Or.inl rfl)
        have hcond : ¬ (ret < 0 ∧ res ≠ -ENOSPC) := by omega
        rw [if_neg hcond]
        exact ⟨hres, fun x hx => hall x (Or.inr hx)⟩
      · intro hcase
        apply hneg
        by_cases hcond : ret < 0 ∧ res ≠ -ENOSPC
        · rw [if_pos hcond]
          exact Or.inl hcond.1
        · rw [if_neg hcond]
          rcases hcase with hres | ⟨x, hx | hx, hxneg⟩
          · exact Or.inl hres
          · subst hx
            left
            have hres : res = -ENOSPC := by
              by_contra hne
              exact hcond ⟨hxneg, hne⟩
            rw [hres]
            decide
          · exact Or.inr ⟨x, hx, hxneg⟩

/-- In a sweep all of whose calls return, the call for the slot at position `k`
of the list is issued in the world the calls for the slots before it left. -/
theorem sweep_at (ef : Nat → World → Res Int) :
    ∀ (l : List Nat) (w : World), (sweep_rets ef l w).length = l.length →
      ∀ (k i : Nat), l[k]? = some i →
      ∃ ret, (sweep_rets ef l w)[k]? = some ret ∧
        ef i (sweep_world ef (l.take k) w) = .ok (ret, sweep_world ef (l.take (k + 1)) w) ∧
        sweep_world ef l w = sweep_world ef (l.drop (k + 1)) (sweep_world ef (l.take (k + 1)) w) := by
  intro l
  induction l with
  | nil => intro w _ k i hk; simp at hk
  | cons a rest ih =>
    intro w hlen k i hk
    cases hef : ef a w with
    | error f => simp [sweep_rets, hef] at hlen
    | ok p =>
      obtain ⟨ret0, w2⟩ := p
      simp only [sweep_rets, hef, List.length_cons, Nat.add_right_cancel_iff] at hlen
      cases k with
      | zero =>
        simp only [List.getElem?_cons_zero, Option.some.injEq] at hk
        subst hk
        refine ⟨ret0, by simp [sweep_rets, hef], ?_, ?_⟩
        · simp [sweep_world, hef]
        · simp [sweep_world, hef]
      | succ k =>
        simp only [List.getElem?_cons_succ] at hk
        obtain ⟨ret, h1, h2, h3⟩ := ih w2 hlen k i hk
        refine ⟨ret, by simp [sweep_rets, hef, h1], ?_, ?_⟩
        · simpa [sweep_world, hef] using h2
        · simpa [sweep_world, hef] using h3

/-! ### The capacity-2 scenario -/

theorem c18_step_create (ts : Nat) (ty : BlockTableType) (disk : List (Nat × Nat × List Nat)) :
    block_cache_create 2 ts ty (World.initial disk) = (0, c18_state ts ty disk
      (BlockCachedTable.mk 1 (List.replicate ts 0) 0 false 0 0)
      (BlockCachedTable.mk 2 (List.replicate ts 0) 0 false 0 0)) := by
  rfl

theorem c18_step_get_100 (fuel bs ts : Nat) (ty : BlockTableType)
    (disk : List (Nat × Nat × List Nat)) (d0 d1 : List Nat) :
    block_cache_get_empty fuel bs 0 100 (c18_state ts ty disk
      (BlockCachedTable.mk 1 d0 0 false 0 0) (BlockCachedTable.mk 2 d1 0 false 0 0))
    = .ok ((0, some 1), c18_state ts ty disk
      (BlockCachedTable.mk 1 d0 100 false 33 1) (BlockCachedTable.mk 2 d1 0 false 0 0)) := by
  rfl

theorem c18_step_store_1 (ts : Nat) (ty : BlockTableType) (disk : List (Nat × Nat × List Nat))
    (d0 p : List Nat) (o : Nat) (dirty : Bool) (k r : Int) (e1 : BlockCachedTable) :
    table_store 0 1 p (c18_state ts ty disk (BlockCachedTable.mk 1 d0 o dirty k r) e1)
    = .ok (c18_state ts ty disk (BlockCachedTable.mk 1 p o dirty k r) e1) := by
  rfl

theorem c18_step_dirty_1 (ts : Nat) (ty : BlockTableType) (disk : List (Nat × Nat × List Nat))
    (d0 : List Nat) (o : Nat) (dirty : Bool) (k r : Int) (e1 : BlockCachedTable) :
    block_cache_entry_mark_dirty 0 1 (c18_state ts ty disk (BlockCachedTable.mk 1 d0 o dirty k r) e1)
    = .ok (c18_state ts ty disk (BlockCachedTable.mk 1 d0 o true k r) e1) := by
  rfl

theorem c18_step_put_1 (ts : Nat) (ty : BlockTableType) (disk : List (Nat × Nat × List Nat))
    (d0 : List Nat) (o : Nat) (dirty : Bool) (k : Int) (e1 : BlockCachedTable) :
    block_cache_put 0 1 (c18_state ts ty disk (BlockCachedTable.mk 1 d0 o dirty k 1) e1)
    = .ok ((0, none), c18_state ts ty disk (BlockCachedTable.mk 1 d0 o dirty k 0) e1) := by
  rfl

theorem c18_step_get_200 (fuel bs ts : Nat) (ty : BlockTableType)
    (disk : List (Nat × Nat × List Nat)) (d0 d1 : List Nat) :
    block_cache_get_empty fuel bs 0 200 (c18_state ts ty disk
      (BlockCachedTable.mk 1 d0 100 true 33 0) (BlockCachedTable.mk 2 d1 0 false 0 0))
    = .ok ((0, some 2), c18_state ts ty disk
      (BlockCachedTable.mk 1 d0 100 true 16 0) (BlockCachedTable.mk 2 d1 200 false 33 1)) := by
  rfl

theorem c18_step_store_2 (ts : Nat) (ty : BlockTableType) (disk : List (Nat × Nat × List Nat))
    (d0 d1 p : List Nat) (o0 o : Nat) (dirty0 dirty : Bool) (k0 r0 k r : Int) :
    table_store 0 2 p (c18_state ts ty disk (BlockCachedTable.mk 1 d0 o0 dirty0 k0 r0)
      (BlockCachedTable.mk 2 d1 o dirty k r))
    = .ok (c18_state ts ty disk (BlockCachedTable.mk 1 d0 o0 dirty0 k0 r0)
      (BlockCachedTable.mk 2 p o dirty k r)) := by
  rfl

theorem c18_step_dirty_2 (ts : Nat) (ty : BlockTableType) (disk : List (Nat × Nat × List Nat))
    (d0 d1 : List Nat) (o0 o : Nat) (dirty0 dirty : Bool) (k0 r0 k r : Int) :
    block_cache_entry_mark_dirty 0 2 (c18_state ts ty disk (BlockCachedTable.mk 1 d0 o0 dirty0 k0 r0)
      (BlockCachedTable.mk 2 d1 o dirty k r))
    = .ok (c18_state ts ty disk (BlockCachedTable.mk 1 d0 o0 dirty0 k0 r0)
      (BlockCachedTable.mk 2 d1 o true k r)) := by
  rfl

theorem c18_step_put_2 (ts : Nat) (ty : BlockTableType) (disk : List (Nat × Nat × List Nat))
    (d0 d1 : List Nat) (o0 o : Nat) (dirty0 dirty : Bool) (k0 r0 k : Int) :
    block_cache_put 0 2 (c18_state ts ty disk (BlockCachedTable.mk 1 d0 o0 dirty0 k0 r0)
      (BlockCachedTable.mk 2 d1 o dirty k 1))
    = .ok ((0, none), c18_state ts ty disk (BlockCachedTable.mk 1 d0 o0 dirty0 k0 r0)
      (BlockCachedTable.mk 2 d1 o dirty k 0)) := by
  rfl

theorem c18_step_get_300 (fuel bs ts : Nat) (ty : BlockTableType)
    (disk : List (Nat × Nat × List Nat)) (p1 p2 : List Nat) :
    block_cache_get fuel bs 0 300 (c18_state ts ty disk
      (BlockCachedTable.mk 1 p1 100 true 16 0) (BlockCachedTable.mk 2 p2 200 true 33 0))
    = .ok ((0, some 1), c18_final bs ts ty disk (p1.take ts) p2) := by
  rfl

/-- C18: over backing files `disk` and a backing store without failures, in a
cache of capacity 2 with tables of 4096 bytes: `get_empty(100)` hands out the
buffer 1, the pattern `p1` is stored, marked dirty and released; `get_empty(200)`
hands out the buffer 2, the pattern `p2` is stored, marked dirty and released;
then `get(300)` hands out the buffer 1 of the slot that held offset 100. It
issues the write of `p1` to offset 100 and the read of offset 300 and no
other call; afterwards slot 0 holds offset 300 with the bytes read from there,
is clean and borrowed once, and slot 1 holds offset 200 with `p2`, is still
dirty and not borrowed. -/
theorem C18_capacity_two_scenario (fuel bs : Nat) (ty : BlockTableType)
    (disk : List (Nat × Nat × List Nat)) (p1 p2 : List Nat) (hp1 : p1.length = 4096) :
    ∃ w0 w1 w2 w3 w4 w5 w6 w7 w8 w9,
      block_cache_create 2 4096 ty (World.initial disk) = (0, w0) ∧
      block_cache_get_empty fuel bs 0 100 w0 = .ok ((0, some 1), w1) ∧
      table_store 0 1 p1 w1 = .ok w2 ∧
      block_cache_entry_mark_dirty 0 1 w2 = .ok w3 ∧
      block_cache_put 0 1 w3 = .ok ((0, none), w4) ∧
      block_cache_get_empty fuel bs 0 200 w4 = .ok ((0, some 2), w5) ∧
      table_store 0 2 p2 w5 = .ok w6 ∧
      block_cache_entry_mark_dirty 0 2 w6 = .ok w7 ∧
      block_cache_put 0 2 w7 = .ok ((0, none), w8) ∧
      w8.caches.map (fun x => x.entries) =
        [[BlockCachedTable.mk 1 p1 100 true 16 0, BlockCachedTable.mk 2 p2 200 true 33 0]] ∧
      w8.log = [] ∧ w8.disk = disk ∧
      block_cache_get fuel bs 0 300 w8 = .ok ((0, some 1), w9) ∧
      w9.log = [BdrvCall.pwrite bs 100 p1 0, BdrvCall.pread bs 300 4096 0] ∧
      w9.disk = (bs, 100, p1) :: disk ∧
      w9.caches.map (fun x => x.entries) =
        [[BlockCachedTable.mk 1 (disk_read ((bs, 100, p1) :: disk) bs 300 4096) 300 false 33 1,
          BlockCachedTable.mk 2 p2 200 true 16 0]] := by
  have htake : p1.take 4096 = p1 := List.take_of_length_le (by omega)
  refine ⟨_, _, _, _, _, _, _, _, _, c18_final bs 4096 ty disk p1 p2,
    c18_step_create 4096 ty disk,
    c18_step_get_100 fuel bs 4096 ty disk _ _,
    c18_step_store_1 4096 ty disk _ p1 _ _ _ _ _,
    c18_step_dirty_1 4096 ty disk _ _ _ _ _ _,
    c18_step_put_1 4096 ty disk _ _ _ _ _,
    c18_step_get_200 fuel bs 4096 ty disk _ _,
    c18_step_store_2 4096 ty disk _ _ p2 _ _ _ _ _ _ _ _,
    c18_step_dirty_2 4096 ty disk _ _ _ _ _ _ _ _ _ _,
    c18_step_put_2 4096 ty disk _ _ _ _ _ _ _ _ _,
    rfl, rfl, rfl, ?_, rfl, rfl, rfl⟩
  have h := c18_step_get_300 fuel bs 4096 ty disk p1 p2
  rw [htake] at h
  exact h

/-- C18 with the patterns of 4096 bytes 1 and of 4096 bytes 2 over empty
backing files. -/
theorem C18_capacity_two_scenario_witness :
    (List.replicate 4096 1).length = 4096 ∧
    ∃ w8 w9,
      w8.caches.map (fun x => x.entries) =
        [[BlockCachedTable.mk 1 (List.replicate 4096 1) 100 true 16 0,
          BlockCachedTable.mk 2 (List.replicate 4096 2) 200 true 33 0]] ∧
      block_cache_get 0 0 0 300 w8 = .ok ((0, some 1), w9) ∧
      w9.log = [BdrvCall.pwrite 0 100 (List.replicate 4096 1) 0, BdrvCall.pread 0 300 4096 0] ∧
      w9.caches.map (fun x => x.entries) =
        [[BlockCachedTable.mk 1
            (disk_read [(0, 100, List.replicate 4096 1)] 0 300 4096) 300 false 33 1,
          BlockCachedTable.mk 2 (List.replicate 4096 2) 200 true 16 0]] := by
  have hlen : (List.replicate 4096 1).length = 4096 := List.length_replicate 4096 1
  obtain ⟨_, _, _, _, _, _, _, _, w8, w9, _, _, _, _, _, _, _, _, _, h8, _, _, hget, hlog, _,
    hfinal⟩ := C18_capacity_two_scenario 0 0 .BLOCK_TABLE_L2 [] (List.replicate 4096 1)
      (List.replicate 4096 2) hlen
  exact ⟨hlen, w8, w9, h8, hget, hlog, hfinal⟩

/-! ### Dependencies stay acyclic -/

theorem dep_ranked_of_sub {w1 w : World} {rk : Nat → Nat}
    (hlen : w1.caches.length = w.caches.length)
    (hsub : ∀ y d, dep w1 y = some d → dep w y = some d) (h : dep_ranked w rk) :
    dep_ranked w1 rk := by
  intro x d hd
  obtain ⟨h1, h2⟩ := h x d (hsub x d hd)
  exact ⟨h1, by rw [hlen]; exact h2⟩

theorem dep_ranked_world_le {bs : Nat} {w1 w : World} {rk : Nat → Nat} (hle : world_le bs w1 w)
    (h : dep_ranked w rk) : dep_ranked w1 rk :=
  dep_ranked_of_sub hle.len (fun _ _ hd => dep_mono hle hd) h

theorem dep_set_cache_same (w : World) (c y : Nat) (x cache : BlockCache)
    (hc : w.caches[c]? = some cache) (hx : x.depends = cache.depends) :
    dep (w.set_cache c x) y = dep w y := by
  by_cases hcy : c = y
  · subst hcy
    simp only [dep, getElem?_set_cache_self w c x cache hc, hc, hx]
  · exact dep_set_cache_ne w c y x hcy

theorem length_set_cache (w : World) (c : Nat) (x : BlockCache) :
    (w.set_cache c x).caches.length = w.caches.length := by
  simp [World.set_cache]

theorem dep_ranked_set_cache_same (w : World) (c : Nat) (x cache : BlockCache) (rk : Nat → Nat)
    (hc : w.caches[c]? = some cache) (hx : x.depends = cache.depends) (h : dep_ranked w rk) :
    dep_ranked (w.set_cache c x) rk :=
  dep_ranked_of_sub (length_set_cache w c x)
    (fun y d hd => by rw [dep_set_cache_same w c y x cache hc hx] at hd; exact hd) h

/-- Along a chain of dependency pointers the rank falls. -/
theorem dep_path_rank {w : World} {rk : Nat → Nat} (h : dep_ranked w rk) {x y : Nat}
    (hp : DepPath w x y) : rk y < rk x := by
  induction hp with
  | edge x d hd => exact (h x d hd).1
  | next x d y hd _ ih => exact lt_trans ih (h x d hd).1

/-! ### Flushes return when the dependencies are ranked -/

theorem entry_flush_write_returns (bs c i : Nat) (w : World) (cache : BlockCache)
    (e : BlockCachedTable) (hc : w.caches[c]? = some cache) (he : cache.entries[i]? = some e) :
    ∃ r w1, entry_flush_write bs c i w = .ok (r, w1) := by
  rw [entry_flush_write_eq bs c i w cache e hc he]
  by_cases hs : w.script.headD 0 < 0
  · rw [if_pos hs]
    exact ⟨_, _, rfl⟩
  · rw [if_neg hs]
    exact ⟨_, _, rfl⟩

theorem entry_flush_returns (rk : Nat → Nat) (n bs x i : Nat) (w : World) (cache : BlockCache)
    (hrk : dep_ranked w rk) (hx : rk x ≤ n) (hc : w.caches[x]? = some cache)
    (hi : i < cache.entries.length)
    (ih : ∀ (w0 : World) (d : Nat), dep_ranked w0 rk → rk d < n → d < w0.caches.length →
      ∃ r w1, block_cache_flush n bs d w0 = .ok (r, w1)) :
    ∃ r w1, block_cache_entry_flush (block_cache_flush n) bs x i w = .ok (r, w1) := by
  have he : cache.entries[i]? = some (cache.entries.get ⟨i, hi⟩) := by
    simp [List.getElem?_eq_getElem hi]
  generalize cache.entries.get ⟨i, hi⟩ = e at he
  by_cases hskip : e.dirty = false ∨ e.offset = 0
  · exact ⟨_, _, entry_flush_skip _ bs x i w cache e hc he hskip⟩
  · have hd : e.dirty = true := by
      cases hdd : e.dirty with
      | true => rfl
      | false => exact absurd (Or.inl hdd) hskip
    have ho : e.offset ≠ 0 := fun h0 => hskip (Or.inr h0)
    rcases Option.eq_none_or_eq_some cache.depends with hdep | ⟨d, hdep⟩
    · by_cases hf : cache.depends_on_flush = true
      · rw [entry_flush_sync _ bs x i w cache e hc he hd ho hdep hf]
        by_cases hs : w.script.headD 0 < 0
        · rw [if_pos hs]
          exact ⟨_, _, rfl⟩
        · rw [if_neg hs]
          have hcf : (bdrv_flush bs w).2.caches[x]? = some cache := hc
          exact entry_flush_write_returns bs x i _ { cache with depends_on_flush := false } e
            (getElem?_set_cache_self _ x _ cache hcf) he
      · have hf' : cache.depends_on_flush = false := by simpa using hf
        rw [entry_flush_plain _ bs x i w cache e hc he hd ho hdep hf']
        exact entry_flush_write_returns bs x i w cache e hc he
    · rw [entry_flush_dep _ bs x i d w cache e hc he hd ho hdep]
      have hdx : dep w x = some d := (dep_of_cache hc).trans hdep
      obtain ⟨hlt, hdl⟩ := hrk x d hdx
      obtain ⟨rd, wd, hfd⟩ := ih w d hrk (by omega) hdl
      have hframe := dep_flush_frame n bs x d w rd wd hdx hfd
      have hcd : wd.caches[x]? = some cache := by rw [hframe]; exact hc
      simp only [hfd]
      by_cases hrd : rd < 0
      · rw [if_pos hrd]
        exact ⟨_, _, rfl⟩
      · rw [if_neg hrd]
        simp only [hcd]
        exact entry_flush_write_returns bs x i _
          { cache with depends := none, depends_on_flush := false } e
          (getElem?_set_cache_self _ x _ cache hcd) he

theorem flush_loop_returns (rk : Nat → Nat) (n bs x size : Nat) (hx : rk x ≤ n)
    (ih : ∀ (w0 : World) (d : Nat), dep_ranked w0 rk → rk d < n → d < w0.caches.length →
      ∃ r w1, block_cache_flush n bs d w0 = .ok (r, w1)) :
    ∀ (l : List Nat) (res : Int) (w : World) (cache : BlockCache), dep_ranked w rk →
      w.caches[x]? = some cache → cache.entries.length = size → (∀ i ∈ l, i < size) →
      ∃ r w1, flush_loop (fun i w2 => block_cache_entry_flush (block_cache_flush n) bs x i w2)
        l res w = .ok (r, w1) := by
  intro l
  induction l with
  | nil => intro res w _ _ _ _ _; exact ⟨_, _, rfl⟩
  | cons i rest ihl =>
    intro res w cache hrk hc hsize hlt
    have hi : i < cache.entries.length := by
      rw [hsize]
      exact hlt i (List.mem_cons_self i rest)
    obtain ⟨ret, w2, hef⟩ := entry_flush_returns rk n bs x i w cache hrk hx hc hi ih
    have hle := (entry_flush_spec _ (block_cache_flush_spec n) bs x i w ret w2 hef).1
    obtain ⟨cache2, hc2, hcle⟩ := hle.caches x cache hc
    simp only [flush_loop, hef]
    exact ihl _ w2 cache2 (dep_ranked_world_le hle hrk) hc2 (hcle.len.trans hsize)
      (fun j hj => hlt j (List.mem_cons_of_mem i hj))

/-- A flush with more fuel than the rank of the cache returns. -/
theorem flush_returns (rk : Nat → Nat) :
    ∀ (n bs : Nat) (w : World) (x : Nat), dep_ranked w rk → rk x < n → x < w.caches.length →
      ∃ r w1, block_cache_flush n bs x w = .ok (r, w1) := by
  intro n
  induction n with
  | zero => intro bs w x _ hlt _; exact absurd hlt (Nat.not_lt_zero _)
  | succ n ih =>
    intro bs w x hrk hlt hxl
    have hc : w.caches[x]? = some (w.caches.get ⟨x, hxl⟩) := by
      simp [List.getElem?_eq_getElem hxl]
    generalize w.caches.get ⟨x, hxl⟩ = cache at hc
    obtain ⟨res, w2, hl⟩ := flush_loop_returns rk n bs x cache.size (by omega)
      (fun w0 d h1 h2 h3 => ih bs w0 d h1 h2 h3) (List.range cache.size) 0 w cache hrk hc rfl
      (fun i hi => List.mem_range.mp hi)
    simp only [block_cache_flush, hc, hl]
    by_cases hres : res = 0
    · rw [if_pos hres]
      by_cases hs : (bdrv_flush bs w2).1 < 0
      · simp only [hs, if_true]
        exact ⟨_, _, rfl⟩
      · simp only [hs, if_false]
        exact ⟨_, _, rfl⟩
    · rw [if_neg hres]
      exact ⟨_, _, rfl⟩

theorem flush_dependency_returns (rk : Nat → Nat) (fuel bs c d : Nat) (w : World)
    (cache : BlockCache) (hrk : dep_ranked w rk) (hc : w.caches[c]? = some cache)
    (hdep : cache.depends = some d) (hfuel : rk c ≤ fuel) :
    ∃ r w1, block_cache_flush_dependency (block_cache_flush fuel) bs c w = .ok (r, w1) := by
  have hdx : dep w c = some d := (dep_of_cache hc).trans hdep
  obtain ⟨hlt, hdl⟩ := hrk c d hdx
  obtain ⟨rd, wd, hfd⟩ := flush_returns rk fuel bs w d hrk (by omega) hdl
  have hframe := dep_flush_frame fuel bs c d w rd wd hdx hfd
  have hcd : wd.caches[c]? = some cache := by rw [hframe]; exact hc
  simp only [block_cache_flush_dependency, hc, hdep, hfd]
  by_cases hrd : rd < 0
  · rw [if_pos hrd]
    exact ⟨_, _, rfl⟩
  · rw [if_neg hrd]
    simp only [hcd]
    exact ⟨_, _, rfl⟩

theorem find_entry_to_replace_error (cache : BlockCache) (f : Fault)
    (h : block_cache_find_entry_to_replace cache = .error f) : f = .aborted := by
  unfold block_cache_find_entry_to_replace at h
  cases hl : find_entry_loop cache.entries 0 INT_MAX (-1) with
  | mk mi es =>
    rw [hl] at h
    simp only at h
    by_cases hm : mi = -1
    · rw [if_pos hm] at h
      cases h
      rfl
    · rw [if_neg hm] at h
      cases h

/-- A `block_cache_do_get` with at least as much fuel as the rank of the cache
returns or ends in the `abort()` of the eviction scan. -/
theorem do_get_returns (rk : Nat → Nat) (fuel bs c offset : Nat) (rd : Bool) (w : World)
    (hrk : dep_ranked w rk) (hfuel : rk c ≤ fuel) (hcl : c < w.caches.length) :
    (∃ r t w1, block_cache_do_get fuel bs c offset rd w = .ok ((r, t), w1)) ∨
    block_cache_do_get fuel bs c offset rd w = .error .aborted := by
  have hc : w.caches[c]? = some (w.caches.get ⟨c, hcl⟩) := by
    simp [List.getElem?_eq_getElem hcl]
  generalize w.caches.get ⟨c, hcl⟩ = cache at hc
  cases hfind : find_offset cache.entries offset 0 with
  | some i =>
    obtain ⟨j, e, hij, hj, _⟩ := find_offset_some offset cache.entries 0 i hfind
    have hij' : i = j := by omega
    subst hij'
    exact Or.inl ⟨_, _, _, do_get_hit_eq fuel bs c offset rd w cache i e hc hfind hj⟩
  | none =>
    cases hv : block_cache_find_entry_to_replace cache with
    | error f =>
      right
      have hf := find_entry_to_replace_error cache f hv
      subst hf
      simp only [block_cache_do_get, hc, hfind, hv]
    | ok p =>
      left
      obtain ⟨mi, cache1⟩ := p
      obtain ⟨m, ev, hmi, hev, _, hcA⟩ := find_entry_to_replace_ok cache cache1 mi hv
      subst hmi
      have hcA' := getElem?_set_cache_self w c cache1 cache hc
      have hrkA : dep_ranked (w.set_cache c cache1) rk :=
        dep_ranked_set_cache_same w c cache1 cache rk hc (by rw [hcA]) hrk
      have hm : m < cache1.entries.length := by
        rw [hcA]
        simp only [List.length_map]
        exact getElem?_some_lt hev
      obtain ⟨ret, w2, hf⟩ := entry_flush_returns rk fuel bs c m _ cache1 hrkA hfuel hcA' hm
        (fun w0 d h1 h2 h3 => flush_returns rk fuel bs w0 d h1 h2 h3)
      by_cases hret : ret < 0
      · exact ⟨_, _, _, do_get_miss_fail_eq fuel bs c offset rd w cache cache1 m ret w2 hc hfind
          hv hf hret⟩
      · have hret' : 0 ≤ ret := by omega
        obtain ⟨_, cache2, e2, _, _, _, hc2, he2, _⟩ :=
          victim_write_back fuel bs c m w cache cache1 ret w2 hc hv hf
        cases rd with
        | false =>
          exact ⟨_, _, _, do_get_miss_empty_eq fuel bs c offset w cache cache1 cache2 m ret w2
            e2 hc hfind hv hf hret' hc2 he2⟩
        | true =>
          rw [do_get_miss_read_eq fuel bs c offset w cache cache1 cache2 m ret w2 e2 hc hfind
            hv hf hret' hc2 he2]
          by_cases hs : w2.script.headD 0 < 0
          · rw [if_pos hs]
            exact ⟨_, _, _, rfl⟩
          · rw [if_neg hs]
            exact ⟨_, _, _, rfl⟩

/-- A `block_cache_set_dependency` with at least as much fuel as the ranks of
the two caches returns. -/
theorem set_dependency_returns (rk : Nat → Nat) (fuel bs a c : Nat) (w : World)
    (hrk : dep_ranked w rk) (ha : a < w.caches.length) (hcl : c < w.caches.length)
    (hfa : rk a ≤ fuel) (hfc : rk c ≤ fuel) :
    ∃ r w1, block_cache_set_dependency fuel bs a c w = .ok (r, w1) := by
  have hcc : w.caches[c]? = some (w.caches.get ⟨c, hcl⟩) := by
    simp [List.getElem?_eq_getElem hcl]
  generalize w.caches.get ⟨c, hcl⟩ = dcache at hcc
  have hstep2 : ∀ (w1 : World), world_le bs w1 w →
      ∃ r w2, (match w1.caches[a]? with
        | none => (Except.error Fault.bad_access : Res Int)
        | some cache =>
          match (if cache.depends.isSome ∧ cache.depends ≠ some c then
              block_cache_flush_dependency (block_cache_flush fuel) bs a w1
            else .ok (0, w1) : Res Int) with
          | .error f => .error f
          | .ok (ret2, w2) =>
            if ret2 < 0 then .ok (ret2, w2)
            else
              match w2.caches[a]? with
              | none => .error .bad_access
              | some cache2 =>
                .ok (0, w2.set_cache a { cache2 with depends := some c })) = .ok (r, w2) := by
    intro w1 hle1
    have hrk1 := dep_ranked_world_le hle1 hrk
    have ha1 : a < w1.caches.length := by rw [hle1.len]; exact ha
    have hca : w1.caches[a]? = some (w1.caches.get ⟨a, ha1⟩) := by
      simp [List.getElem?_eq_getElem ha1]
    generalize w1.caches.get ⟨a, ha1⟩ = cache at hca
    simp only [hca]
    by_cases hcond : cache.depends.isSome ∧ cache.depends ≠ some c
    · rw [if_pos hcond]
      obtain ⟨d, hd⟩ := Option.isSome_iff_exists.mp hcond.1
      obtain ⟨ret2, w2, hfd⟩ := flush_dependency_returns rk fuel bs a d w1 cache hrk1 hca hd hfa
      have hle2 := (flush_dependency_spec fuel bs a d w1 cache ret2 w2 hca hd hfd).1
      obtain ⟨cache2, hc2, _⟩ := hle2.caches a cache hca
      simp only [hfd]
      by_cases hr2 : ret2 < 0
      · rw [if_pos hr2]
        exact ⟨_, _, rfl⟩
      · rw [if_neg hr2]
        simp only [hc2]
        exact ⟨_, _, rfl⟩
    · rw [if_neg hcond]
      simp only [hca]
      have h0 : ¬ ((0 : Int) < 0) := by omega
      rw [if_neg h0]
      exact ⟨_, _, rfl⟩
  simp only [block_cache_set_dependency, block_cache_set_dependency_two_bs, hcc]
  rcases Option.eq_none_or_eq_some dcache.depends with hdep | ⟨d, hdep⟩
  · have hsome : ¬ (dcache.depends.isSome = true) := by rw [hdep]; simp
    rw [if_neg hsome]
    have h0 : ¬ ((0 : Int) < 0) := by omega
    simp only [h0, if_false]
    exact hstep2 w (world_le_refl bs w)
  · have hsome : dcache.depends.isSome = true := by rw [hdep]; rfl
    rw [if_pos hsome]
    obtain ⟨ret1, w1, hfd⟩ := flush_dependency_returns rk fuel bs c d w dcache hrk hcc hdep hfc
    have hle1 := (flush_dependency_spec fuel bs c d w dcache ret1 w1 hcc hdep hfd).1
    simp only [hfd]
    by_cases hr1 : ret1 < 0
    · rw [if_pos hr1]
      exact ⟨_, _, rfl⟩
    · rw [if_neg hr1]
      exact hstep2 w1 hle1

/-! ### Every call keeps the dependencies ranked -/

/-- A `block_cache_do_get` creates no cache and no dependency pointer. -/
theorem do_get_deps (fuel bs c offset : Nat) (rd : Bool) (w : World) (r : Int)
    (t : Option Nat) (w1 : World)
    (h : block_cache_do_get fuel bs c offset rd w = .ok ((r, t), w1)) :
    w1.caches.length = w.caches.length ∧ ∀ y d, dep w1 y = some d → dep w y = some d := by
  cases hc : w.caches[c]? with
  | none => simp [block_cache_do_get, hc] at h
  | some cache =>
    have hset : ∀ (w0 : World) (cache0 : BlockCache) (i : Nat) (x : BlockCachedTable),
        w0.caches[c]? = some cache0 →
        (w0.set_cache c (cache0.set_entry i x)).caches.length = w0.caches.length ∧
        ∀ y d, dep (w0.set_cache c (cache0.set_entry i x)) y = some d → dep w0 y = some d := by
      intro w0 cache0 i x hc0
      refine ⟨length_set_cache _ _ _, ?_⟩
      intro y d hd
      rw [dep_set_cache_same w0 c y (cache0.set_entry i x) cache0 hc0 rfl] at hd
      exact hd
    cases hfind : find_offset cache.entries offset 0 with
    | some i =>
      obtain ⟨j, e, hij, hj, _⟩ := find_offset_some offset cache.entries 0 i hfind
      have hij' : i = j := by omega
      subst hij'
      rw [do_get_hit_eq fuel bs c offset rd w cache i e hc hfind hj] at h
      simp only [Except.ok.injEq, Prod.mk.injEq] at h
      rw [← h.2]
      exact hset w cache i _ hc
    | none =>
      cases hv : block_cache_find_entry_to_replace cache with
      | error f => simp [block_cache_do_get, hc, hfind, hv] at h
      | ok p =>
        obtain ⟨mi, cache1⟩ := p
        obtain ⟨m, _, hmi, _, _, hcA⟩ := find_entry_to_replace_ok cache cache1 mi hv
        subst hmi
        cases hf : block_cache_entry_flush (block_cache_flush fuel) bs c m
            (w.set_cache c cache1) with
        | error f =>
          have hmi : ¬ ((m : Int) < 0) := by omega
          simp [block_cache_do_get, hc, hfind, hv, hmi, hf] at h
        | ok q =>
          obtain ⟨ret, w2⟩ := q
          obtain ⟨_, cache2, e2, _, _, _, hc2, he2, _, _, _, _, _, _, hle⟩ :=
            victim_write_back fuel bs c m w cache cache1 ret w2 hc hv hf
          have h2 : w2.caches.length = w.caches.length ∧
              ∀ y d, dep w2 y = some d → dep w y = some d := by
            refine ⟨hle.len.trans (length_set_cache _ _ _), ?_⟩
            intro y d hd
            have hdA := dep_mono hle hd
            rw [dep_set_cache_same w c y cache1 cache hc (by rw [hcA])] at hdA
            exact hdA
          have hfinal : ∀ (w3 : World) (x : BlockCachedTable), w3.caches = w2.caches →
              w1 = w3.set_cache c (cache2.set_entry m x) →
              w1.caches.length = w.caches.length ∧
              ∀ y d, dep w1 y = some d → dep w y = some d := by
            intro w3 x h3 hw1
            have hc3 : w3.caches[c]? = some cache2 := by rw [h3]; exact hc2
            obtain ⟨hl, hd⟩ := hset w3 cache2 m x hc3
            rw [hw1]
            refine ⟨by rw [hl, h3]; exact h2.1, ?_⟩
            intro y d hyd
            have := hd y d hyd
            have h32 : dep w3 y = dep w2 y := by simp only [dep, h3]
            rw [h32] at this
            exact h2.2 y d this
          by_cases hret : ret < 0
          · rw [do_get_miss_fail_eq fuel bs c offset rd w cache cache1 m ret w2 hc hfind hv hf
              hret] at h
            simp only [Except.ok.injEq, Prod.mk.injEq] at h
            rw [← h.2]
            exact h2
          · have hret' : 0 ≤ ret := by omega
            cases rd with
            | false =>
              rw [do_get_miss_empty_eq fuel bs c offset w cache cache1 cache2 m ret w2 e2 hc
                hfind hv hf hret' hc2 he2] at h
              simp only [Except.ok.injEq, Prod.mk.injEq] at h
              exact hfinal w2 _ rfl h.2.symm
            | true =>
              rw [do_get_miss_read_eq fuel bs c offset w cache cache1 cache2 m ret w2 e2 hc
                hfind hv hf hret' hc2 he2] at h
              by_cases hs : w2.script.headD 0 < 0
              · rw [if_pos hs] at h
                simp only [Except.ok.injEq, Prod.mk.injEq] at h
                exact hfinal (bdrv_pread bs offset e2.data cache2.table_size w2).2.2 _ rfl
                  h.2.symm
              · rw [if_neg hs] at h
                simp only [Except.ok.injEq, Prod.mk.injEq] at h
                exact hfinal (bdrv_pread bs offset e2.data cache2.table_size w2).2.2 _ rfl
                  h.2.symm

/-- C20 for one call: a returning call, other than a `set_dependency` of a cache
on itself, keeps the dependency pointers ranked. -/
theorem dep_ranked_exec (op : Op) (w w1 : World) (hp : dep_ops op) (h : exec op w = .ok w1)
    (hr : ∃ rk, dep_ranked w rk) : ∃ rk, dep_ranked w1 rk := by
  obtain ⟨rk, hrk⟩ := hr
  have hentry : ∀ (c i : Nat) (cache : BlockCache) (x : BlockCachedTable),
      w.caches[c]? = some cache → dep_ranked (w.set_cache c (cache.set_entry i x)) rk :=
    fun c i cache x hc => dep_ranked_set_cache_same w c _ cache rk hc rfl hrk
  cases op with
  | create n ts ty =>
    simp only [exec, Except.ok.injEq] at h
    rw [← h]
    refine ⟨rk, ?_⟩
    intro x d hd
    simp only [dep, block_cache_create] at hd
    by_cases hlt : x < w.caches.length
    · rw [List.getElem?_append_left hlt] at hd
      obtain ⟨h1, h2⟩ := hrk x d (by simpa only [dep] using hd)
      refine ⟨h1, ?_⟩
      simp only [block_cache_create, List.length_append, List.length_singleton]
      omega
    · exfalso
      rw [List.getElem?_append_right (by omega)] at hd
      cases hk : x - w.caches.length with
      | zero =>
        rw [hk] at hd
        simp at hd
      | succ k =>
        rw [hk] at hd
        simp at hd
  | get fuel bs c offset =>
    obtain ⟨⟨⟨r, t⟩, w2⟩, hg, hw⟩ := except_map_ok h
    simp only at hw
    subst hw
    obtain ⟨hl, hd⟩ := do_get_deps fuel bs c offset true w r t w2 hg
    exact ⟨rk, dep_ranked_of_sub hl hd hrk⟩
  | get_empty fuel bs c offset =>
    obtain ⟨⟨⟨r, t⟩, w2⟩, hg, hw⟩ := except_map_ok h
    simp only at hw
    subst hw
    obtain ⟨hl, hd⟩ := do_get_deps fuel bs c offset false w r t w2 hg
    exact ⟨rk, dep_ranked_of_sub hl hd hrk⟩
  | put c table =>
    obtain ⟨⟨⟨r, t⟩, w2⟩, hg, hw⟩ := except_map_ok h
    simp only at hw
    subst hw
    simp only [block_cache_put] at hg
    cases hc : w.caches[c]? with
    | none => simp [hc] at hg
    | some cache =>
      simp only [hc] at hg
      cases hf : find_table cache.entries table 0 with
      | none =>
        simp only [hf, Except.ok.injEq, Prod.mk.injEq] at hg
        rw [← hg.2]
        exact ⟨rk, hrk⟩
      | some i =>
        simp only [hf] at hg
        cases he : cache.entries[i]? with
        | none => simp [he] at hg
        | some e =>
          simp only [he] at hg
          split at hg
          · exact Except.noConfusion hg
          · simp only [Except.ok.injEq, Prod.mk.injEq] at hg
            rw [← hg.2]
            exact ⟨rk, hentry c i cache _ hc⟩
  | mark_dirty c table =>
    simp only [exec, block_cache_entry_mark_dirty] at h
    cases hc : w.caches[c]? with
    | none => simp [hc] at h
    | some cache =>
      simp only [hc] at h
      cases hf : find_table cache.entries table 0 with
      | none => simp [hf] at h
      | some i =>
        simp only [hf] at h
        cases he : cache.entries[i]? with
        | none => simp [he] at h
        | some e =>
          simp only [he, Except.ok.injEq] at h
          rw [← h]
          exact ⟨rk, hentry c i cache _ hc⟩
  | store c table bytes =>
    simp only [exec, table_store] at h
    cases hc : w.caches[c]? with
    | none => simp [hc] at h
    | some cache =>
      simp only [hc] at h
      cases hf : find_table cache.entries table 0 with
      | none => simp [hf] at h
      | some i =>
        simp only [hf] at h
        cases he : cache.entries[i]? with
        | none => simp [he] at h
        | some e =>
          simp only [he, Except.ok.injEq] at h
          rw [← h]
          exact ⟨rk, hentry c i cache _ hc⟩
  | flush fuel bs c =>
    obtain ⟨⟨r, w2⟩, hg, hw⟩ := except_map_ok h
    simp only at hw
    subst hw
    exact ⟨rk, dep_ranked_world_le (block_cache_flush_spec fuel bs c w r w2 hg).1 hrk⟩
  | set_dependency fuel bs a c =>
    obtain ⟨⟨r, w2⟩, hg, hw⟩ := except_map_ok h
    simp only at hw
    subst hw
    have hac : a ≠ c := hp
    have hcl : c < w.caches.length := by
      cases hcc : w.caches[c]? with
      | none =>
        simp [block_cache_set_dependency, block_cache_set_dependency_two_bs, hcc] at hg
      | some dcache => exact getElem?_some_lt hcc
    obtain ⟨w3, hle, hcase⟩ := set_dependency_effect fuel bs a c w r w2 hg
    have hrk3 := dep_ranked_world_le hle hrk
    rcases hcase with ⟨_, hw⟩ | ⟨_, hdc, _, _, ca2, hca2, hw⟩
    · rw [hw]
      exact ⟨rk, hrk3⟩
    · rw [hw]
      refine ⟨fun x => if x = c then 0 else rk x + rk c + 1, ?_⟩
      intro x d hd
      have hlen : (w3.set_cache a { ca2 with depends := some c }).caches.length
          = w.caches.length := (length_set_cache _ _ _).trans hle.len
      by_cases hxa : x = a
      · subst hxa
        have hdx : dep (w3.set_cache x { ca2 with depends := some c }) x = some c := by
          simp only [dep, getElem?_set_cache_self w3 x _ ca2 hca2]
        rw [hdx] at hd
        cases hd
        refine ⟨?_, by rw [hlen]; exact hcl⟩
        simp only [if_true, if_neg hac]
        omega
      · rw [dep_set_cache_ne w3 a x _ (fun h' => hxa h'.symm)] at hd
        obtain ⟨h1, h2⟩ := hrk3 x d hd
        have hxc : x ≠ c := by
          intro hxc
          rw [hxc, hdc] at hd
          exact Option.noConfusion hd
        refine ⟨?_, by rw [hlen, ← hle.len]; exact h2⟩
        simp only [if_neg hxc]
        by_cases hdc' : d = c
        · rw [if_pos hdc']
          omega
        · rw [if_neg hdc']
          omega
  | depends_on_flush c =>
    simp only [exec, block_cache_depends_on_flush] at h
    cases hc : w.caches[c]? with
    | none => simp [hc] at h
    | some cache =>
      simp only [hc, Except.ok.injEq] at h
      rw [← h]
      exact ⟨rk, dep_ranked_set_cache_same w c _ cache rk hc rfl hrk⟩
  | answers script =>
    simp only [exec, Except.ok.injEq] at h
    rw [← h]
    exact ⟨rk, fun x d hd => hrk x d hd⟩

theorem dep_ranked_reachable (w : World) (h : ReachableBy dep_ops w) : ∃ rk, dep_ranked w rk := by
  induction h with
  | initial disk =>
    refine ⟨fun _ => 0, ?_⟩
    intro x d hd
    simp [dep, World.initial] at hd
  | step op w w1 _ hop hexec ih => exact dep_ranked_exec op w w1 hop hexec ih

/-- C20: in every world reached from the start, before any cache exists, by
returning calls of the interface in which no `set_dependency` names a cache as
its own dependency, with any successes and failures of the backing store, no
chain of dependency pointers leads from a cache back to itself; and for every
cache there is an amount of fuel from which on a flush returns, a get or
get_empty returns or ends in the `abort()` of the eviction scan, and a
`set_dependency` between two caches returns: the nesting of flushes through
dependencies is bounded. -/
theorem C20_acyclic_dependencies (w : World) (h : ReachableBy dep_ops w) :
    (∀ x, ¬ DepPath w x x) ∧
    (∀ (bs x : Nat), x < w.caches.length → ∃ fuel, ∀ fuel2, fuel ≤ fuel2 →
      ∃ r w1, block_cache_flush fuel2 bs x w = .ok (r, w1)) ∧
    (∀ (bs c offset : Nat) (rd : Bool), c < w.caches.length → ∃ fuel, ∀ fuel2, fuel ≤ fuel2 →
      (∃ r t w1, block_cache_do_get fuel2 bs c offset rd w = .ok ((r, t), w1)) ∨
      block_cache_do_get fuel2 bs c offset rd w = .error .aborted) ∧
    (∀ (bs a c : Nat), a < w.caches.length → c < w.caches.length →
      ∃ fuel, ∀ fuel2, fuel ≤ fuel2 →
        ∃ r w1, block_cache_set_dependency fuel2 bs a c w = .ok (r, w1)) := by
  obtain ⟨rk, hrk⟩ := dep_ranked_reachable w h
  refine ⟨?_, ?_, ?_, ?_⟩
  · intro x hp
    exact Nat.lt_irrefl _ (dep_path_rank hrk hp)
  · intro bs x hx
    exact ⟨rk x + 1, fun fuel2 hf => flush_returns rk fuel2 bs w x hrk (by omega) hx⟩
  · intro bs c offset rd hc
    exact ⟨rk c, fun fuel2 hf => do_get_returns rk fuel2 bs c offset rd w hrk hf hc⟩
  · intro bs a c ha hc
    exact ⟨max (rk a) (rk c), fun fuel2 hf =>
      set_dependency_returns rk fuel2 bs a c w hrk ha hc (by omega) (by omega)⟩

/-- C20 at the world `c9_world`, in which cache 0 depends on cache 1 and cache 1
on cache 2. -/
theorem C20_acyclic_dependencies_witness :
    ReachableBy dep_ops c9_world ∧ (∀ x, ¬ DepPath c9_world x x) ∧
    ∃ fuel, ∀ fuel2, fuel ≤ fuel2 → ∃ r w1, block_cache_flush fuel2 0 0 c9_world = .ok (r, w1) := by
  have hr : ReachableBy dep_ops c9_world := by
    apply reachable_run dep_ops c9_ops (World.initial []) c9_world (ReachableBy.initial [])
    · intro op hop
      simp only [c9_ops, List.mem_cons, List.mem_singleton, List.not_mem_nil, or_false] at hop
      rcases hop with h | h | h | h | h | h | h | h | h | h | h | h | h | h | h | h | h <;>
        subst h <;> simp [dep_ops]
    · decide
  have h := C20_acyclic_dependencies c9_world hr
  exact ⟨hr, h.1, h.2.1 0 0 (by decide)⟩

/-! ### The sweep of flush: the claim -/

/-- C17: a `block_cache_flush` returns when the dependency pointers are ranked
and its fuel exceeds the rank of the cache (so always for a cache without
dependency). A `block_cache_flush` that returns has called
`block_cache_entry_flush` for every slot, slot `i` in the world the calls for
the slots `0 .. i-1` left, whatever those returned. A slot that was dirty with
an offset other than 0 and whose call returned without error is clean
afterwards, and a successful write of its table is in the log. When no call
returned an error the flush ends with the device sync and returns its error,
or 0; when a call returned an error the flush issues nothing after the sweep
and returns an error. The result is 0 exactly when no call and not the sync
returned an error. -/
theorem C17_best_effort_sweep (fuel bs c : Nat) (w : World) (cache : BlockCache)
    (hc : w.caches[c]? = some cache) :
    (∀ rk : Nat → Nat, dep_ranked w rk → rk c ≤ fuel →
      ∃ r w1, block_cache_flush (fuel + 1) bs c w = .ok (r, w1)) ∧
    ∀ (r : Int) (w1 : World), block_cache_flush (fuel + 1) bs c w = .ok (r, w1) →
    ∃ (rets : List Int) (ws : World),
      rets = sweep_rets (fun i w2 => block_cache_entry_flush (block_cache_flush fuel) bs c i w2)
        (List.range cache.size) w ∧
      ws = sweep_world (fun i w2 => block_cache_entry_flush (block_cache_flush fuel) bs c i w2)
        (List.range cache.size) w ∧
      rets.length = cache.size ∧
      (∀ i, i < cache.size → ∃ ret, rets[i]? = some ret ∧
        block_cache_entry_flush (block_cache_flush fuel) bs c i
          (sweep_world (fun i w2 => block_cache_entry_flush (block_cache_flush fuel) bs c i w2)
            (List.range i) w)
          = .ok (ret,
            sweep_world (fun i w2 => block_cache_entry_flush (block_cache_flush fuel) bs c i w2)
              (List.range (i + 1)) w)) ∧
      (∀ (i : Nat) (e : BlockCachedTable) (ret : Int), cache.entries[i]? = some e →
        e.dirty = true → e.offset ≠ 0 → rets[i]? = some ret → 0 ≤ ret →
        (∃ cache1, w1.caches[c]? = some cache1 ∧
          cache1.entries[i]? = some { e with dirty := false }) ∧
        ∃ evs s, w1.log = w.log ++ evs ∧ 0 ≤ s ∧
          BdrvCall.pwrite bs e.offset (e.data.take cache.table_size) s ∈ evs) ∧
      ((∀ ret ∈ rets, 0 ≤ ret) →
        w1 = (bdrv_flush bs ws).2 ∧
        r = if ws.script.headD 0 < 0 then ws.script.headD 0 else 0) ∧
      ((∃ ret ∈ rets, ret < 0) → w1 = ws ∧ r < 0) ∧
      (r = 0 ↔ (∀ ret ∈ rets, 0 ≤ ret) ∧ 0 ≤ ws.script.headD 0) := by
  refine ⟨fun rk hrk hfuel => flush_returns rk (fuel + 1) bs w c hrk (by omega)
    (getElem?_some_lt hc), ?_⟩
  intro r w1 h
  have hspec := (block_cache_flush_spec (fuel + 1) bs c w r w1 h).1
  simp only [block_cache_flush, hc] at h
  cases hl : flush_loop
      (fun i w2 => block_cache_entry_flush (block_cache_flush fuel) bs c i w2)
      (List.range cache.size) 0 w with
  | error f => simp [hl] at h
  | ok p =>
    obtain ⟨res, w2⟩ := p
    simp only [hl] at h
    obtain ⟨hw2, hlen, hzero, hneg⟩ := flush_loop_sweep _ _ _ _ _ _ hl
    rw [List.length_range] at hlen
    have hall : (∀ ret ∈ sweep_rets
        (fun i w2 => block_cache_entry_flush (block_cache_flush fuel) bs c i w2)
        (List.range cache.size) w, 0 ≤ ret) →
        w1 = (bdrv_flush bs w2).2 ∧
        r = if w2.script.headD 0 < 0 then w2.script.headD 0 else 0 := by
      intro hall
      have hres : res = 0 := hzero ⟨rfl, hall⟩
      simp only [hres, if_true] at h
      by_cases hs : w2.script.headD 0 < 0
      · have hb : (bdrv_flush bs w2).1 < 0 := hs
        simp only [hb, if_true, Except.ok.injEq, Prod.mk.injEq] at h
        rw [if_pos hs]
        exact ⟨h.2.symm, h.1.symm⟩
      · have hb : ¬ (bdrv_flush bs w2).1 < 0 := hs
        simp only [hb, if_false, Except.ok.injEq, Prod.mk.injEq] at h
        rw [if_neg hs]
        exact ⟨h.2.symm, h.1.symm⟩
    have hsome : (∃ ret ∈ sweep_rets
        (fun i w2 => block_cache_entry_flush (block_cache_flush fuel) bs c i w2)
        (List.range cache.size) w, ret < 0) → w1 = w2 ∧ r < 0 := by
      intro hsome
      have hres : res < 0 := hneg (Or.inr hsome)
      have hres' : ¬ res = 0 := by omega
      simp only [hres', if_false, Except.ok.injEq, Prod.mk.injEq] at h
      rw [← h.1, ← h.2]
      exact ⟨rfl, hres⟩
    have hcaches : w1.caches = w2.caches := by
      by_cases hres : res = 0
      · simp only [hres, if_true] at h
        by_cases hs : (bdrv_flush bs w2).1 < 0
        · simp only [hs, if_true, Except.ok.injEq, Prod.mk.injEq] at h
          rw [← h.2]
          rfl
        · simp only [hs, if_false, Except.ok.injEq, Prod.mk.injEq] at h
          rw [← h.2]
          rfl
      · simp only [hres, if_false, Except.ok.injEq, Prod.mk.injEq] at h
        rw [← h.2]
    have hat : ∀ i, i < cache.size → ∃ ret,
        (sweep_rets (fun i w2 => block_cache_entry_flush (block_cache_flush fuel) bs c i w2)
          (List.range cache.size) w)[i]? = some ret ∧
        block_cache_entry_flush (block_cache_flush fuel) bs c i
          (sweep_world (fun i w2 => block_cache_entry_flush (block_cache_flush fuel) bs c i w2)
            (List.range i) w)
          = .ok (ret,
            sweep_world (fun i w2 => block_cache_entry_flush (block_cache_flush fuel) bs c i w2)
              (List.range (i + 1)) w) ∧
        w2 = sweep_world (fun i w2 => block_cache_entry_flush (block_cache_flush fuel) bs c i w2)
          ((List.range cache.size).drop (i + 1))
          (sweep_world (fun i w2 => block_cache_entry_flush (block_cache_flush fuel) bs c i w2)
            (List.range (i + 1)) w) := by
      intro i hi
      obtain ⟨ret, h1, h2, h3⟩ := sweep_at _ (List.range cache.size) w
        (by rw [hlen, List.length_range]) i i (List.getElem?_range hi)
      have ht1 : (List.range cache.size).take i = List.range i := by
        rw [List.take_range, Nat.min_eq_left (Nat.le_of_lt hi)]
      have ht2 : (List.range cache.size).take (i + 1) = List.range (i + 1) := by
        rw [List.take_range, Nat.min_eq_left hi]
      rw [ht1, ht2] at h2
      rw [ht2] at h3
      exact ⟨ret, h1, h2, hw2.trans h3⟩
    refine ⟨_, _, rfl, rfl, hlen, ?_, ?_, ?_, ?_, ?_⟩
    · intro i hi
      obtain ⟨ret, h1, h2, _⟩ := hat i hi
      exact ⟨ret, h1, h2⟩
    · intro i e ret he hd ho hret hret0
      have hi : i < cache.size := getElem?_some_lt he
      obtain ⟨ret', h1, h2, h3⟩ := hat i hi
      rw [hret] at h1
      cases h1
      obtain ⟨cacheA, hcA, hslotA⟩ := sweep_world_slot fuel bs c i (List.range i) w cache hc
        (fun hmem => Nat.lt_irrefl i (List.mem_range.mp hmem))
      have heA : cacheA.entries[i]? = some e := hslotA.trans he
      obtain ⟨cacheB, hcB, _, hslotB⟩ := entry_flush_slots fuel bs c i _ cacheA ret _ hcA h2
      obtain ⟨eB, heB, hslB⟩ := hslotB e heA
      have hcleanB := (entry_flush_spec _ (block_cache_flush_spec fuel) bs c i _ ret _ h2).2.2.2.2
        hret0 cacheB eB hcB heB
      have heB' : eB = { e with dirty := false } := by
        rcases hslB with h' | h'
        · exfalso
          rw [h'] at hcleanB
          rcases hcleanB with h'' | h''
          · rw [hd] at h''
            exact Bool.noConfusion h''
          · exact ho h''
        · exact h'
      have hle := sweep_world_le fuel bs c ((List.range cache.size).drop (i + 1))
        (sweep_world (fun i w2 => block_cache_entry_flush (block_cache_flush fuel) bs c i w2)
          (List.range (i + 1)) w)
      rw [← h3] at hle
      obtain ⟨cache2, hc2, hcle2⟩ := hle.caches c cacheB hcB
      obtain ⟨e2, he2, hsl2⟩ := hcle2.slots i eB heB
      have he2' : e2 = { e with dirty := false } := by
        rcases hsl2 with h' | h'
        · rw [h', heB']
        · rw [h', heB']
      have hc1 : w1.caches[c]? = some cache2 := by rw [hcaches]; exact hc2
      refine ⟨⟨cache2, hc1, by rw [he2, he2']⟩, ?_⟩
      obtain ⟨evs, hevs, hwritten⟩ := hspec.log
      obtain ⟨s, hs, hmem⟩ := hwritten c cache cache2 i e e2 hc hc1 he he2 hd (by rw [he2'])
      exact ⟨evs, s, hevs, hs, hmem⟩
    · intro hall'
      rw [← hw2]
      exact hall hall'
    · intro hsome'
      rw [← hw2]
      exact hsome hsome'
    · rw [← hw2]
      constructor
      · intro hr0
        have hall' : ∀ ret ∈ sweep_rets
            (fun i w2 => block_cache_entry_flush (block_cache_flush fuel) bs c i w2)
            (List.range cache.size) w, 0 ≤ ret := by
          intro ret hmem
          by_contra hneg'
          have := (hsome ⟨ret, hmem, by omega⟩).2
          omega
        refine ⟨hall', ?_⟩
        have hr := (hall hall').2
        by_contra hs
        rw [if_pos (by omega)] at hr
        omega
      · rintro ⟨hall', hs⟩
        have hr := (hall hall').2
        rw [if_neg (by omega)] at hr
        exact hr

/-- C17 at `c4_world`: the writes of the first two slots fail, the third slot is
written and clean afterwards, and no device sync is issued. -/
theorem C17_best_effort_sweep_witness :
    (c4_world.caches[0]? = some c4_cache ∧
      block_cache_flush 1 0 0 c4_world
        = .ok (-ENOSPC, world_after (block_cache_flush 1 0 0 c4_world) c4_world)) ∧
    sweep_rets (fun i w2 => block_cache_entry_flush (block_cache_flush 0) 0 0 i w2)
      (List.range c4_cache.size) c4_world = [-ENOSPC, -EINVAL, 0] ∧
    (∃ cache1, (world_after (block_cache_flush 1 0 0 c4_world) c4_world).caches[0]?
        = some cache1 ∧
      cache1.entries[2]? = some (BlockCachedTable.mk 3 [3] 30 false 0 0)) ∧
    (world_after (block_cache_flush 1 0 0 c4_world) c4_world).log =
      [BdrvCall.pwrite 0 10 [1] (-ENOSPC), BdrvCall.pwrite 0 20 [2] (-EINVAL),
        BdrvCall.pwrite 0 30 [3] 0] := by
  have hyp : block_cache_flush 1 0 0 c4_world
      = .ok (-ENOSPC, world_after (block_cache_flush 1 0 0 c4_world) c4_world) := by decide
  obtain ⟨rets, ws, hrets, _, _, _, hslot, _⟩ :=
    (C17_best_effort_sweep 0 0 0 c4_world c4_cache rfl).2 (-ENOSPC) _ hyp
  have hrets' : rets = [-ENOSPC, -EINVAL, 0] := by rw [hrets]; decide
  refine ⟨⟨rfl, hyp⟩, by decide, ?_, by decide⟩
  exact (hslot 2 (BlockCachedTable.mk 3 [3] 30 true 0 0) 0 rfl rfl (by decide)
    (by rw [hrets']; rfl) (le_refl 0)).1

/-! ### The backing files follow the log -/

end QBC
